import Mathlib

/-!
# lilydumper: keyboard timeline synthesis and staff reconstruction

A shallow embedding of `src/keyboard_events_extractor.cc` and of
`src/svg_extractor.cc` (the reading of numbers and lines, the staff scan, the
skylines and the assembly of the staves), followed by the theorems proved
about them.

Conventions of the embedding

* `uint64_t` times and `uint32_t` coordinates are natural numbers; the
  unsigned subtractions of the source are written with an explicit
  wrap-around (`sub_u64`, `sub_u32`), and the theorems that depend on their
  value assume the operands inside the range of the type.
* A function that throws returns `Except`; every `throw` of the source has
  its own constructor.  Indexing `is_pressed` outside of its 255 entries has
  no defined behaviour in the source and is reported as `out_of_range`.
* `std::vector` is `List`; the range-based `for` loops that write through
  iterators are folds over the indices of the vector.
* `std::stable_sort` has one possible result, computed here by insertion;
  `std::sort` leaves the order of equivalent elements open and is an argument
  of `get_staves_surface`.
* The loop counter `unsigned int i` of `get_staves_surface` is a natural
  number: it cannot wrap on a vector of fewer than 2^32 - 5 lines.
-/

namespace Lilydumper

/-! ## Data model -/

/-- Modelled from the spec: the header `keyboard_events_extractor.hh` is not
part of the sources; `key_data::type` has the two values used by the code. -/
inductive key_type where
  | pressed
  | released
deriving DecidableEq, Repr

/-- Modelled from the spec: `key_data` (header missing), the fields read and
written by `get_key_events`: `pitch` (a `uint8_t`, 0..255), `ev_type`,
`staff_number`. -/
structure key_data where
  pitch : Nat
  ev_type : key_type
  staff_number : Nat
deriving DecidableEq, Repr

/-- Modelled from the spec: `key_event` (header missing): a time (taken to be
a `uint64_t`, as `start_time` in `cursor_boxes_extractor.hh`) and the
payload. -/
structure key_event where
  time : Nat
  data : key_data
deriving DecidableEq, Repr

/-- Modelled from the spec: `note_t` (declared in `chords_extractor.hh`, which
is missing), the five fields read by `get_key_events`. -/
structure note_t where
  start_time : Nat
  stop_time : Nat
  pitch : Nat
  is_played : Bool
  staff_number : Nat
deriving DecidableEq, Repr

/-- The ways `keyboard_events_extractor.cc` can fail: one constructor per
`throw`, in source order, and `out_of_range` for an access outside of the
`is_pressed` table. -/
inductive song_error where
  | not_sorted
  | already_pressed
  | not_pressed
  | orphan_release
  | pressed_and_released
  | out_of_range
deriving DecidableEq, Repr

/-- Unsigned 64 bit subtraction, wrapping around. -/
def sub_u64 (a b : Nat) : Nat := (a + 18446744073709551616 - b % 18446744073709551616) % 18446744073709551616

/-! ## `assert_song_valid` -/

/-- The test `std::is_sorted(begin, end, a.time < b.time)`: no element is
followed by one with a strictly smaller time. -/
def is_sorted_by_time : List key_event → Bool
  | [] => true
  | a :: rest =>
    match rest with
    | [] => true
    | b :: _ => !(decide (b.time < a.time)) && is_sorted_by_time rest

/-- The number of entries of `is_pressed`:
`std::numeric_limits<uint8_t>::max()`. -/
def is_pressed_size : Nat := 255

/-- The table `std::vector<bool> is_pressed (255, false)`: all keys start
up. -/
def is_pressed_init : List Bool := List.replicate is_pressed_size false

/-- The loop of `assert_song_valid` over the events, threading the table
`is_pressed`. -/
def check_keys : List Bool → List key_event → Except song_error Unit
  | _, [] => .ok ()
  | is_pressed, event :: rest =>
    match is_pressed[event.data.pitch]? with
    | none => .error .out_of_range
    | some down =>
      match event.data.ev_type with
      | .pressed =>
        if down then .error .already_pressed
        else check_keys (is_pressed.set event.data.pitch true) rest
      | .released =>
        if !down then .error .not_pressed
        else check_keys (is_pressed.set event.data.pitch false) rest

/-- The function `assert_song_valid`. -/
def assert_song_valid (key_events : List key_event) : Except song_error Unit :=
  if !(is_sorted_by_time key_events) then .error .not_sorted
  else check_keys is_pressed_init key_events

/-! ## `separate_release_pressed_events` -/

/-- The call `std::find_if(begin, end, p)` as the index of the first element
satisfying `p`. -/
def find_if {α : Type} (p : α → Bool) : List α → Option Nat
  | [] => none
  | x :: xs => if p x then some 0 else (find_if p xs).map (· + 1)

/-- The call `std::find_if(rbegin, rend, p)` as the index of the last element
satisfying `p`. -/
def find_if_rev {α : Type} (p : α → Bool) : List α → Option Nat
  | [] => none
  | x :: xs =>
    match find_if_rev p xs with
    | some j => some (j + 1)
    | none => if p x then some 0 else none

/-- The predicate of the first `find_if`: a release of `pitch` at
`earliest_time`. -/
def is_release_at (earliest_time pitch : Nat) (elt : key_event) : Bool :=
  elt.time == earliest_time && elt.data.ev_type == key_type.released && elt.data.pitch == pitch

/-- The predicate of the reverse `find_if`: a press of `pitch` strictly before
`earliest_time`. -/
def is_press_before (earliest_time pitch : Nat) (elt : key_event) : Bool :=
  decide (elt.time < earliest_time) && elt.data.ev_type == key_type.pressed && elt.data.pitch == pitch

/-- Lines 83 to 88: the new time of a release at `release_time` of a note
started at `start_time`. -/
def shortened_release (release_time start_time : Nat) : Nat :=
  let duration := sub_u64 release_time start_time
  let max_shortening_time := 75000000
  let shortening_time := min max_shortening_time (duration / 4)
  sub_u64 release_time shortening_time

/-- One iteration of the collision loop (lines 55 to 92), standing at the
element of index `i`. -/
def collision_step (key_events : List key_event) (i : Nat) : Except song_error (List key_event) :=
  match key_events[i]? with
  | none => .ok key_events
  | some k =>
    match k.data.ev_type with
    | .released => .ok key_events
    | .pressed =>
      match find_if (is_release_at k.time k.data.pitch) key_events with
      | none => .ok key_events
      | some release_pos =>
        match find_if_rev (is_press_before k.time k.data.pitch) key_events with
        | none => .error .orphan_release
        | some note_start_pos =>
          match key_events[release_pos]?, key_events[note_start_pos]? with
          | some rel, some start =>
            .ok (key_events.set release_pos
              { rel with time := shortened_release rel.time start.time })
          | _, _ => .ok key_events

/-- The collision loop `for (auto& k : key_events)`: the iterations run over
the indices in order, each one on the vector left by the previous ones. -/
def collision_loop (key_events : List key_event) : Except song_error (List key_event) :=
  (List.range key_events.length).foldlM collision_step key_events

/-- The first `n` iterations of the collision loop. -/
def collision_upto (key_events : List key_event) (n : Nat) :
    Except song_error (List key_event) :=
  (List.range n).foldlM collision_step key_events

/-- The predicate of `std::any_of` in the second loop: a press of `pitch` at
`time`. -/
def is_press_at (time pitch : Nat) (a : key_event) : Bool :=
  a.data.ev_type == key_type.pressed && a.data.pitch == pitch && a.time == time

/-- The second loop (lines 96 to 110): no release may share pitch and time
with a press. -/
def check_separated (key_events : List key_event) : Except song_error Unit :=
  if key_events.any (fun k =>
      k.data.ev_type == key_type.released &&
        key_events.any (is_press_at k.time k.data.pitch))
  then .error .pressed_and_released
  else .ok ()

/-- The comparison of both `std::stable_sort` calls, as the order it sorts
into: `a` may stand before `b`. -/
def time_le (a b : key_event) : Prop := a.time ≤ b.time

instance : DecidableRel time_le := fun a b => inferInstanceAs (Decidable (a.time ≤ b.time))

/-- The call `std::stable_sort(begin, end, a.time < b.time)`: insertion from
the right keeps elements of equal time in their original order. -/
def stable_sort_by_time (key_events : List key_event) : List key_event :=
  List.insertionSort time_le key_events

/-- The function `separate_release_pressed_events`; the vector it modifies in
place is returned. -/
def separate_release_pressed_events (key_events : List key_event) :
    Except song_error (List key_event) := do
  assert_song_valid key_events
  let shortened ← collision_loop key_events
  check_separated shortened
  let sorted := stable_sort_by_time shortened
  assert_song_valid sorted
  pure sorted

/-- The two events pushed for a played note. -/
def note_events (note : note_t) : List key_event :=
  if note.is_played then
    [ { time := note.start_time,
        data := { pitch := note.pitch, ev_type := .pressed, staff_number := note.staff_number } },
      { time := note.stop_time,
        data := { pitch := note.pitch, ev_type := .released, staff_number := note.staff_number } } ]
  else []

/-- The first loop of `get_key_events`: the events of all notes, in note
order. -/
def raw_key_events (notes : List note_t) : List key_event :=
  notes.flatMap note_events

/-- The function `get_key_events`. -/
def get_key_events (notes : List note_t) : Except song_error (List key_event) :=
  separate_release_pressed_events (stable_sort_by_time (raw_key_events notes))

/-! ## `svg_extractor.cc`: the staff scan of `get_staves_surface` -/

/-- The ways `svg_extractor.cc` can fail: one constructor per `throw`, in
source order, and `invalid_range` for the construction of a `std::string`
from a pair of iterators of which the first is past the second, which has no
defined behaviour in the source. -/
inductive svg_error where
  | invalid_number
  | no_translate
  | no_separator
  | not_horizontal
  | reversed_segment
  | inconsistent_value
  | bottom_mismatch
  | top_mismatch
  | skyline_outside
  | invalid_range
deriving DecidableEq, Repr

/-- The struct `line`: four `uint32_t` coordinates. -/
structure line where
  x1 : Nat
  y1 : Nat
  x2 : Nat
  y2 : Nat
deriving DecidableEq, Repr

/-- The struct `rect`: four `uint32_t` coordinates. -/
structure rect where
  top : Nat
  bottom : Nat
  left : Nat
  right : Nat
deriving DecidableEq, Repr

/-- Unsigned 32 bit subtraction, wrapping around. -/
def sub_u32 (a b : Nat) : Nat := (a + 4294967296 - b % 4294967296) % 4294967296

/-- The comparison given to `std::sort`: `a` goes strictly before `b`. -/
def line_lt (a b : line) : Bool :=
  decide (a.y1 < b.y1) || (a.y1 == b.y1 && decide (a.x1 < b.x1))

/-- What `std::sort` guarantees of its result: a rearrangement of the input in
which no element is strictly before an earlier one.  The order of lines that
compare equivalent is not specified by the library, so the sort is an argument
of `get_staves_surface` and the theorems hold for every sort of this kind. -/
def is_std_sort (sort : List line → List line) : Prop :=
  ∀ l, (sort l).Perm l ∧ (sort l).Pairwise (fun a b => line_lt b a = false)

/-- The order `std::sort` sorts into. -/
def line_le (a b : line) : Prop := line_lt b a = false

instance : DecidableRel line_le := fun a b => inferInstanceAs (Decidable (line_lt b a = false))

/-- One sort of this kind, by insertion. -/
def insertion_sort_lines (l : List line) : List line := List.insertionSort line_le l

/-- The test of the `if` at lines 188 to 203 on the five lines of a window,
with the four distances computed at lines 183 to 186. -/
def staff_test (l0 l1 l2 l3 l4 : line) : Bool :=
  let dist_01 := sub_u32 l1.y1 l0.y1
  let dist_12 := sub_u32 l2.y1 l1.y1
  let dist_23 := sub_u32 l3.y1 l2.y1
  let dist_34 := sub_u32 l4.y1 l3.y1
  l0.x1 == l1.x1 && l0.x2 == l1.x2 &&
    l1.x1 == l2.x1 && l1.x2 == l2.x2 &&
    l2.x1 == l3.x1 && l2.x2 == l3.x2 &&
    l3.x1 == l4.x1 && l3.x2 == l4.x2 &&
    dist_01 == dist_12 && dist_12 == dist_23 && dist_23 == dist_34 &&
    dist_01 != 0

/-- The body of the loop on the window starting at `i`: the `rect` pushed when
the test passes. -/
def staff_at (lines : List line) (i : Nat) : Option rect :=
  match lines[i]?, lines[i + 1]?, lines[i + 2]?, lines[i + 3]?, lines[i + 4]? with
  | some l0, some l1, some l2, some l3, some l4 =>
    if staff_test l0 l1 l2 l3 l4
    then some { top := l0.y1, bottom := l4.y1, left := l4.x1, right := l4.x2 }
    else none
  | _, _, _, _, _ => none

/-- The loop `while (i + 4 < nb_elt)` from the index `i`, as the list of the
rects it pushes.  Every iteration moves `i` forward, so `fuel` equal to the
number of lines is never used up (`staves_loop_enough`). -/
def staves_loop (lines : List line) : Nat → Nat → List rect
  | 0, _ => []
  | fuel + 1, i =>
    if i + 4 < lines.length then
      match staff_at lines i with
      | some r => r :: staves_loop lines fuel (i + 5)
      | none => staves_loop lines fuel (i + 1)
    else []

/-- The function `get_staves_surface`, from the lines selected by the xpath
query. -/
def get_staves_surface (std_sort : List line → List line) (lines : List line) :
    Except svg_error (List rect) :=
  if lines.any (fun a => a.y1 != a.y2) then .error .not_horizontal
  else
    let sorted := std_sort lines
    .ok (staves_loop sorted sorted.length 0)

/-! ## `svg_extractor.cc`: numbers and `get_line`

A C string is the list of its characters before the terminating NUL:
`str + pos` is a suffix of that list, a test `str[pos] == 0` says that the
suffix is empty, and the NUL is not a digit. -/

/-- The function `is_digit`. -/
def is_digit (c : Char) : Bool :=
  decide (c ≥ '0') && decide (c ≤ '9')

/-- The function `begins_by`: `strncmp` over the length of `s2` finds no
difference exactly when `s2` begins `s1`. -/
def begins_by (s1 s2 : List Char) : Bool :=
  s2.isPrefixOf s1

/-- The `do ... while (str[pos] != '.')` loop of `is_valid_number`, from the
suffix at `pos`: `none` when it returns false, otherwise the suffix at the
`'.'` on which it stops. -/
def skip_digits : List Char → Option (List Char)
  | [] => none
  | c :: rest =>
    if !is_digit c then none
    else
      match rest with
      | [] => skip_digits rest
      | d :: _ => if d != '.' then skip_digits rest else some rest

/-- The `for` loop of `is_valid_number` with `n` rounds left: `none` when it
returns false, otherwise the suffix after the digits. -/
def four_digits : Nat → List Char → Option (List Char)
  | 0, str => some str
  | _ + 1, [] => none
  | n + 1, c :: rest => if !is_digit c then none else four_digits n rest

/-- The function `is_valid_number`, on a string that is not the null
pointer. -/
def is_valid_number (str : List Char) : Bool :=
  let pos := if str.head? == some '-' then 1 else 0
  match skip_digits (str.drop pos) with
  | none => false
  | some at_point =>
    match four_digits 4 (at_point.drop 1) with
    | none => false
    | some rest => rest.isEmpty

/-- The constant `ULONG_MAX` of the platform, here of 64 bits. -/
def ulong_max : Nat := 18446744073709551615

/-- The value of a decimal digit. -/
def digit_value (c : Char) : Nat := c.toNat - 48

/-- The digits at the beginning of a string, read in base 10 from the value
`acc`, and the suffix after them. -/
def read_digits : Nat → List Char → Nat × List Char
  | acc, [] => (acc, [])
  | acc, c :: rest =>
    if is_digit c then read_digits (10 * acc + digit_value c) rest else (acc, c :: rest)

/-- The library function `strtoul(str, &end, 10)` on a string that begins
with a digit, as it is called after `is_valid_number`: the value of the
digits, `ULONG_MAX` when that value is out of range, and the suffix `end`. -/
def strtoul (str : List Char) : Nat × List Char :=
  let read := read_digits 0 str
  (min read.1 ulong_max, read.2)

/-- The function `to_int_decimal_shift<uint32_t>`, the only instantiation in
the file. -/
def to_int_decimal_shift (str : List Char) : Except svg_error Nat :=
  if !is_valid_number str then .error .invalid_number
  else
    let is_neg := str.head? == some '-'
    let pos := if is_neg then 1 else 0
    let int_read := strtoul (str.drop pos)
    let point_pos := int_read.2
    let int_part := int_read.1 % 4294967296
    let dec_part := (strtoul (point_pos.drop 1)).1 % 4294967296
    let num := (10000 * int_part + dec_part) % 4294967296
    .ok (if is_neg then (4294967296 - num) % 4294967296 else num)

/-- Modelled from the spec: the attributes of a `line` node that `get_line`
reads through pugixml (a library, not part of the sources); the value of an
absent attribute is the empty string. -/
structure line_node where
  transform : List Char
  x1 : List Char
  y1 : List Char
  x2 : List Char
  y2 : List Char
deriving DecidableEq, Repr

/-- The string `translate_str`. -/
def translate_str : List Char := "translate(".toList

/-- The call `transform.find(", ")`: the index of the first comma followed by
a space. -/
def find_separator : List Char → Option Nat
  | [] => none
  | c :: rest =>
    if c == ',' && rest.head? == some ' ' then some 0
    else (find_separator rest).map (· + 1)

/-- Lines 122 to 129 of `get_line`: the six conversions, in the order of the
source, and the four sums in `uint32_t`. -/
def translated_line (x_tr y_tr x1 y1 x2 y2 : List Char) : Except svg_error line :=
  match to_int_decimal_shift x_tr with
  | .error e => .error e
  | .ok x_tr_value =>
    match to_int_decimal_shift y_tr with
    | .error e => .error e
    | .ok y_tr_value =>
      match to_int_decimal_shift x1, to_int_decimal_shift y1,
        to_int_decimal_shift x2, to_int_decimal_shift y2 with
      | .ok x1_value, .ok y1_value, .ok x2_value, .ok y2_value =>
        .ok { x1 := (x1_value + x_tr_value) % 4294967296,
              y1 := (y1_value + y_tr_value) % 4294967296,
              x2 := (x2_value + x_tr_value) % 4294967296,
              y2 := (y2_value + y_tr_value) % 4294967296 }
      | _, _, _, _ => .error .invalid_number

/-- The function `get_line`.  The string `y_tr` is built from the iterators
`begin + separation_pos + 2` and `end - 1`; when the first is past the second
the source has no defined behaviour (`invalid_range`). -/
def get_line (node : line_node) : Except svg_error line :=
  if !begins_by node.transform translate_str then .error .no_translate
  else
    match find_separator node.transform with
    | none => .error .no_separator
    | some separation_pos =>
      let x_tr := (node.transform.take separation_pos).drop translate_str.length
      if node.transform.length - 1 < separation_pos + 2 then .error .invalid_range
      else
        let y_tr := (node.transform.take (node.transform.length - 1)).drop (separation_pos + 2)
        translated_line x_tr y_tr node.x1 node.y1 node.x2 node.y2

/-! ## `svg_extractor.cc`: `get_staves` -/

/-- Modelled from the spec: `h_segment` (declared in `svg_extractor.hh`, which
is missing): a horizontal segment from `x1` to `x2` at height `y`. -/
structure h_segment where
  x1 : Nat
  x2 : Nat
  y : Nat
deriving DecidableEq, Repr

/-- The struct `skyline`. -/
structure skyline where
  surface : rect
  full_line : List h_segment
deriving DecidableEq, Repr

/-- Modelled from the spec: `staff` (declared in `svg_extractor.hh`, which is
missing), the eight fields `get_staves` fills. -/
structure staff where
  x : Nat
  y : Nat
  width : Nat
  height : Nat
  top_skyline : Nat
  bottom_skyline : Nat
  full_top_skyline : List h_segment
  full_bottom_skyline : List h_segment
deriving DecidableEq, Repr

/-- The function `filter_segments`. -/
def filter_segments (vec : List h_segment) (min_left max_right : Nat) : List h_segment :=
  vec.filter (fun s => decide (s.x1 ≥ min_left) && decide (s.x2 ≤ max_right))

/-- The call `std::min_element(begin, end, a.y < b.y)`: the first element of
least `y`, `none` for the iterator `end`. -/
def min_element : List h_segment → Option h_segment
  | [] => none
  | s :: rest => some (rest.foldl (fun smallest a => if a.y < smallest.y then a else smallest) s)

/-- The call `std::max_element(begin, end, a.y < b.y)`: the first element of
greatest `y`, `none` for the iterator `end`. -/
def max_element : List h_segment → Option h_segment
  | [] => none
  | s :: rest => some (rest.foldl (fun largest a => if largest.y < a.y then a else largest) s)

/-- The body of the loop of `get_staves` for one staff rect and the two
skylines at its index. -/
def staff_of (r : rect) (top bottom : skyline) : Except svg_error staff :=
  let top_line := filter_segments top.full_line r.left r.right
  let bottom_line := filter_segments bottom.full_line r.left r.right
  match min_element top_line, max_element bottom_line with
  | some max_top_point, some min_bottom_point =>
    .ok { x := r.left,
          y := r.top,
          width := sub_u32 r.right r.left,
          height := sub_u32 r.bottom r.top,
          top_skyline := max_top_point.y,
          bottom_skyline := min_bottom_point.y,
          full_top_skyline := top_line,
          full_bottom_skyline := bottom_line }
  | _, _ => .error .skyline_outside

/-- The loop of `get_staves` over the indices of three vectors of the same
size, each iteration on the three elements of one index. -/
def staves_of : List rect → List skyline → List skyline → Except svg_error (List staff)
  | r :: staves, top :: top_staves, bottom :: bottom_staves =>
    match staff_of r top bottom with
    | .error e => .error e
    | .ok st =>
      match staves_of staves top_staves bottom_staves with
      | .error e => .error e
      | .ok res => .ok (st :: res)
  | _, _, _ => .ok []

/-- The function `get_staves`, from the results of the three calls of lines
343 to 345. -/
def get_staves (staves : List rect) (top_staves bottom_staves : List skyline) :
    Except svg_error (List staff) :=
  if bottom_staves.length != staves.length then .error .bottom_mismatch
  else if top_staves.length != staves.length then .error .top_mismatch
  else staves_of staves top_staves bottom_staves

/-! ## `svg_extractor.cc`: `get_skylines`

The nodes selected by `xpath_query` are the colour groups; the nodes selected
in a group by `./line[(@y1 = @y2) and (@x1 != @x2)]` are its line nodes.  The
selection is done by the xml library: `get_skylines` is given the groups as
the lists of their selected line nodes, in document order. -/

/-- The value `std::numeric_limits<uint32_t>::max()`. -/
def uint32_max : Nat := 4294967295

/-- The first loop of the body of `get_skylines` (lines 236 to 249): every
line node is read by `get_line`, pushed as a segment, and then checked to go
from left to right. -/
def read_segments : List line_node → Except svg_error (List h_segment)
  | [] => .ok []
  | line_node :: rest =>
    match get_line line_node with
    | .error e => .error e
    | .ok this_line =>
      if this_line.x1 ≥ this_line.x2 then .error .reversed_segment
      else
        match read_segments rest with
        | .error e => .error e
        | .ok full_line =>
          .ok ({ x1 := this_line.x1, x2 := this_line.x2, y := this_line.y1 } :: full_line)

/-- The body of the second loop (lines 259 to 262): the four running extrema
after one more segment. -/
def enclose (acc : rect) (current_segment : h_segment) : rect :=
  { left := min acc.left current_segment.x1,
    right := max acc.right current_segment.x2,
    top := min acc.top current_segment.y,
    bottom := max acc.bottom current_segment.y }

/-- The second loop of the body (lines 251 to 266): the four running extrema,
started at the largest and smallest `uint32_t`. -/
def enclosing_rect (full_line : List h_segment) : rect :=
  full_line.foldl enclose { left := uint32_max, right := 0, top := uint32_max, bottom := 0 }

/-- The body of the loop of `get_skylines` over the groups: the skyline pushed
for one group. -/
def build_skyline (line_nodes : List line_node) : Except svg_error skyline :=
  match read_segments line_nodes with
  | .error e => .error e
  | .ok full_line => .ok { surface := enclosing_rect full_line, full_line := full_line }

/-- The loop of `get_skylines` over the groups. -/
def build_skylines : List (List line_node) → Except svg_error (List skyline)
  | [] => .ok []
  | group :: rest =>
    match build_skyline group with
    | .error e => .error e
    | .ok sk =>
      match build_skylines rest with
      | .error e => .error e
      | .ok res => .ok (sk :: res)

/-- The comparison given to `std::sort` in `get_skylines`: `a` goes strictly
before `b`. -/
def skyline_lt (a b : skyline) : Bool :=
  decide (a.surface.top < b.surface.top) ||
    (a.surface.top == b.surface.top && decide (a.surface.left < b.surface.left))

/-- What `std::sort` guarantees of its result on skylines: a rearrangement of
the input in which no element is strictly before an earlier one. -/
def is_std_sort_skylines (sort : List skyline → List skyline) : Prop :=
  ∀ l, (sort l).Perm l ∧ (sort l).Pairwise (fun a b => skyline_lt b a = false)

/-- The order `std::sort` sorts the skylines into. -/
def skyline_le (a b : skyline) : Prop := skyline_lt b a = false

instance : DecidableRel skyline_le :=
  fun a b => inferInstanceAs (Decidable (skyline_lt b a = false))

/-- One sort of this kind, by insertion. -/
def insertion_sort_skylines (l : List skyline) : List skyline :=
  List.insertionSort skyline_le l

/-- The function `get_skylines`, from the groups selected by the xpath
query. -/
def get_skylines (std_sort : List skyline → List skyline) (groups : List (List line_node)) :
    Except svg_error (List skyline) :=
  match build_skylines groups with
  | .error e => .error e
  | .ok res =>
    if res.any (fun l => decide (l.surface.top > l.surface.bottom))
    then .error .inconsistent_value
    else .ok (std_sort res)

/-! ## Vocabulary of the properties -/

/-- The other event type. -/
def key_type.other : key_type → key_type
  | .pressed => .released
  | .released => .pressed

/-- The list of event types alternates, beginning with `expected`. -/
def alternates : key_type → List key_type → Bool
  | _, [] => true
  | expected, t :: ts => t == expected && alternates t.other ts

/-- The event types of the events of `pitch`, in list order. -/
def types_of_pitch (pitch : Nat) (key_events : List key_event) : List key_type :=
  (key_events.filter (fun e => e.data.pitch == pitch)).map (fun e => e.data.ev_type)

/-- What the state machine expects next from a key: a press when it is up, a
release when it is down. -/
def expected_next (is_pressed : List Bool) (pitch : Nat) : key_type :=
  if is_pressed[pitch]? = some true then .released else .pressed

/-- The release `m` is the release `e` of the list `E`, moved: a press of its
pitch stands at its time in `E`, and its new time is its old time less the
shortening computed from the latest press of that pitch before it. -/
def retimed (E : List key_event) (e m : key_event) : Prop :=
  m.data = e.data ∧ e.data.ev_type = .released ∧
  (∃ k ∈ E, k.data.ev_type = .pressed ∧ k.data.pitch = e.data.pitch ∧ k.time = e.time) ∧
  ∃ st ∈ E, is_press_before e.time e.data.pitch st = true ∧
    (∀ x ∈ E, is_press_before e.time e.data.pitch x = true → x.time ≤ st.time) ∧
    m.time = e.time - min 75000000 ((e.time - st.time) / 4)

/-- The invariant of the collision loop started on `E`: position by position,
an event is the one of `E` or that release re-timed. -/
def loop_inv (E cur : List key_event) : Prop :=
  cur.length = E.length ∧
    ∀ (j : Nat) (e : key_event), E[j]? = some e →
      ∃ m, cur[j]? = some m ∧ (m = e ∨ retimed E e m)

/-- The frame of the collision loop started on `E`, for the event `e` of `E`
and the event `m` now at its place: same payload, and a different time only
for a release that has a press of its pitch at its time in `E`. -/
def frame_rel (E : List key_event) (e m : key_event) : Prop :=
  m.data = e.data ∧
    (m.time ≠ e.time → e.data.ev_type = .released ∧
      ∃ k ∈ E, k.data.ev_type = .pressed ∧ k.data.pitch = e.data.pitch ∧ k.time = e.time)

/-- The event pushed for the onset of a note. -/
def press_of (note : note_t) : key_event :=
  { time := note.start_time,
    data := { pitch := note.pitch, ev_type := .pressed, staff_number := note.staff_number } }

/-- The frame of `get_key_events` on `notes`, for a raw event `e` and the
event `m` it has become: same pitch, type and staff number, and a different
time only for a release at the onset of a played note of its pitch. -/
def note_frame (notes : List note_t) (e m : key_event) : Prop :=
  m.data = e.data ∧
    (m.time ≠ e.time → e.data.ev_type = .released ∧
      ∃ n ∈ notes, n.is_played = true ∧ n.pitch = e.data.pitch ∧ n.start_time = e.time)

/-- Five lines form a staff, in the words of the specification: the same x1,
the same x2, and four equal, non-zero gaps between consecutive y. -/
def is_staff (l0 l1 l2 l3 l4 : line) : Prop :=
  l0.x1 = l1.x1 ∧ l1.x1 = l2.x1 ∧ l2.x1 = l3.x1 ∧ l3.x1 = l4.x1 ∧
  l0.x2 = l1.x2 ∧ l1.x2 = l2.x2 ∧ l2.x2 = l3.x2 ∧ l3.x2 = l4.x2 ∧
  (l1.y1 : Int) - l0.y1 = (l2.y1 : Int) - l1.y1 ∧
  (l2.y1 : Int) - l1.y1 = (l3.y1 : Int) - l2.y1 ∧
  (l3.y1 : Int) - l2.y1 = (l4.y1 : Int) - l3.y1 ∧
  (l1.y1 : Int) - l0.y1 ≠ 0

/-- The window of five consecutive lines starting at `i` forms a staff whose
rect is `r`. -/
def staff_window (lines : List line) (i : Nat) (r : rect) : Prop :=
  ∃ l0 l1 l2 l3 l4, lines[i]? = some l0 ∧ lines[i + 1]? = some l1 ∧
    lines[i + 2]? = some l2 ∧ lines[i + 3]? = some l3 ∧ lines[i + 4]? = some l4 ∧
    is_staff l0 l1 l2 l3 l4 ∧
    r = { top := l0.y1, bottom := l4.y1, left := l0.x1, right := l0.x2 }

/-- The event pushed for the end of a note. -/
def release_of (note : note_t) : key_event :=
  { time := note.stop_time,
    data := { pitch := note.pitch, ev_type := .released, staff_number := note.staff_number } }

/-- The two unsigned subtractions of lines 83 to 88, when the iteration of the
collision loop at index `i` of `cur` reaches them, are taken on operands in
the right order: neither wraps around, and their results are the true
differences. -/
def subtractions_exact (cur : List key_event) (i : Nat) : Prop :=
  ∀ (k rel start : key_event) (release_pos note_start_pos : Nat),
    cur[i]? = some k → k.data.ev_type = .pressed →
    find_if (is_release_at k.time k.data.pitch) cur = some release_pos →
    find_if_rev (is_press_before k.time k.data.pitch) cur = some note_start_pos →
    cur[release_pos]? = some rel → cur[note_start_pos]? = some start →
    start.time < rel.time ∧ sub_u64 rel.time start.time = rel.time - start.time ∧
      min 75000000 ((rel.time - start.time) / 4) ≤ rel.time ∧
      shortened_release rel.time start.time =
        rel.time - min 75000000 ((rel.time - start.time) / 4)

/-- A press of `pitch`. -/
def is_press_of (pitch : Nat) (e : key_event) : Bool :=
  e.data.pitch == pitch && e.data.ev_type == key_type.pressed

/-- A release of `pitch`. -/
def is_release_of (pitch : Nat) (e : key_event) : Bool :=
  e.data.pitch == pitch && e.data.ev_type == key_type.released

/-! ## Concrete inputs -/

/-- Four notes: a repeated pitch 60 played back to back, a note that is not
played, and a note of pitch 62 overlapping the others. -/
def example_notes : List note_t :=
  [ { start_time := 0, stop_time := 1000000000, pitch := 60, is_played := true,
      staff_number := 1 },
    { start_time := 500000000, stop_time := 1500000000, pitch := 64, is_played := false,
      staff_number := 1 },
    { start_time := 200000000, stop_time := 1200000000, pitch := 62, is_played := true,
      staff_number := 2 },
    { start_time := 1000000000, stop_time := 2000000000, pitch := 60, is_played := true,
      staff_number := 1 } ]

/-- The events of `example_notes` once sorted by time, before the collision
loop. -/
def example_sorted : List key_event :=
  [ ⟨0, 60, .pressed, 1⟩, ⟨200000000, 62, .pressed, 2⟩, ⟨1000000000, 60, .released, 1⟩,
    ⟨1000000000, 60, .pressed, 1⟩, ⟨1200000000, 62, .released, 2⟩,
    ⟨2000000000, 60, .released, 1⟩ ]

/-- The events `get_key_events` returns for `example_notes`. -/
def example_events : List key_event :=
  [ ⟨0, 60, .pressed, 1⟩, ⟨200000000, 62, .pressed, 2⟩, ⟨925000000, 60, .released, 1⟩,
    ⟨1000000000, 60, .pressed, 1⟩, ⟨1200000000, 62, .released, 2⟩,
    ⟨2000000000, 60, .released, 1⟩ ]

/-- Two noise lines of other widths, above and below a staff. -/
def example_noise : List line :=
  [⟨0, 70, 60, 70⟩, ⟨0, 3, 50, 3⟩]

/-- The five lines of a staff and the two noise lines, in document order. -/
def example_lines : List line :=
  [⟨0, 70, 60, 70⟩, ⟨0, 30, 100, 30⟩, ⟨0, 10, 100, 10⟩, ⟨0, 20, 100, 20⟩, ⟨0, 3, 50, 3⟩,
    ⟨0, 50, 100, 50⟩, ⟨0, 40, 100, 40⟩]

/-- The digits of a string read in base 10. -/
def decimal_value (digits : List Char) : Nat :=
  digits.foldl (fun acc c => 10 * acc + digit_value c) 0

/-- The format of the specification, `-?digit+\.digit{4}`: an optional `'-'`,
one or more decimal digits, a `'.'`, exactly four decimal digits, and nothing
else. -/
def number_format (s : List Char) : Prop :=
  ∃ sign int_digits frac_digits, s = sign ++ int_digits ++ '.' :: frac_digits ∧
    (sign = [] ∨ sign = ['-']) ∧ int_digits ≠ [] ∧
    (∀ c ∈ int_digits, c.isDigit = true) ∧
    frac_digits.length = 4 ∧ (∀ c ∈ frac_digits, c.isDigit = true)

/-- The digits of a number string before its `'.'`, the sign left out. -/
def integer_digits (s : List Char) : List Char :=
  (if s.head? == some '-' then s.drop 1 else s).takeWhile (fun c => c != '.')

/-- The digits of a number string after its `'.'`. -/
def fraction_digits (s : List Char) : List Char :=
  ((if s.head? == some '-' then s.drop 1 else s).dropWhile (fun c => c != '.')).drop 1

/-- The value a number string stands for, scaled by 10000: 10000 I + F for
the integer part I and the fraction F, negated after a `'-'`. -/
def scaled_value (s : List Char) : Int :=
  if s.head? == some '-'
  then -((10000 * decimal_value (integer_digits s) + decimal_value (fraction_digits s) : Nat) : Int)
  else ((10000 * decimal_value (integer_digits s) + decimal_value (fraction_digits s) : Nat) : Int)

/-- The rect of the first staff of a page. -/
def example_rect : rect := { top := 10, bottom := 50, left := 0, right := 100 }

/-- The top skyline of the first staff; its third segment ends right of the
staff. -/
def example_top_skyline : skyline :=
  { surface := { top := 1, bottom := 5, left := 0, right := 120 },
    full_line := [⟨0, 30, 5⟩, ⟨30, 100, 2⟩, ⟨90, 120, 1⟩] }

/-- The bottom skyline of the first staff. -/
def example_bottom_skyline : skyline :=
  { surface := { top := 55, bottom := 60, left := 0, right := 100 },
    full_line := [⟨0, 50, 55⟩, ⟨50, 100, 60⟩] }

/-- The first staff assembled by `get_staves`. -/
def example_staff : staff :=
  { x := 0, y := 10, width := 100, height := 40, top_skyline := 2, bottom_skyline := 60,
    full_top_skyline := [⟨0, 30, 5⟩, ⟨30, 100, 2⟩],
    full_bottom_skyline := [⟨0, 50, 55⟩, ⟨50, 100, 60⟩] }

/-- Two staff rects of one page. -/
def example_rects : List rect :=
  [example_rect, { top := 110, bottom := 150, left := 0, right := 100 }]

/-- The top skylines of the two staves. -/
def example_top : List skyline :=
  [ example_top_skyline,
    { surface := { top := 105, bottom := 105, left := 0, right := 100 },
      full_line := [⟨0, 100, 105⟩] } ]

/-- The bottom skylines of the two staves. -/
def example_bottom : List skyline :=
  [ example_bottom_skyline,
    { surface := { top := 158, bottom := 158, left := 0, right := 100 },
      full_line := [⟨0, 100, 158⟩] } ]

/-- The staves `get_staves` assembles from the three lists above. -/
def example_staves : List staff :=
  [ example_staff,
    { x := 0, y := 110, width := 100, height := 40, top_skyline := 105,
      bottom_skyline := 158,
      full_top_skyline := [⟨0, 100, 105⟩],
      full_bottom_skyline := [⟨0, 100, 158⟩] } ]

/-- A line node under `translate(10.0000, 5.0000)`, with a negative x1. -/
def example_node : line_node :=
  { transform := "translate(10.0000, 5.0000)".toList,
    x1 := "-3.5000".toList, y1 := "2.0000".toList,
    x2 := "3.0000".toList, y2 := "2.0000".toList }

/-- The ten lines of two staves, the lower staff first in document order. -/
def example_page_lines : List line :=
  [⟨0, 100, 100, 100⟩, ⟨0, 110, 100, 110⟩, ⟨0, 120, 100, 120⟩, ⟨0, 130, 100, 130⟩,
    ⟨0, 140, 100, 140⟩, ⟨0, 0, 100, 0⟩, ⟨0, 10, 100, 10⟩, ⟨0, 20, 100, 20⟩, ⟨0, 30, 100, 30⟩,
    ⟨0, 40, 100, 40⟩]

/-- The rects of the two staves of `example_page_lines`. -/
def example_page_rects : List rect :=
  [{ top := 0, bottom := 40, left := 0, right := 100 },
    { top := 100, bottom := 140, left := 0, right := 100 }]

/-- Four equally spaced lines of the same ends. -/
def example_four_lines : List line :=
  [⟨0, 0, 100, 0⟩, ⟨0, 10, 100, 10⟩, ⟨0, 20, 100, 20⟩, ⟨0, 30, 100, 30⟩]

/-- A colour group of two line nodes under `translate(10.0000, 5.0000)`. -/
def example_group : List line_node :=
  [ { transform := "translate(10.0000, 5.0000)".toList,
      x1 := "1.0000".toList, y1 := "4.0000".toList,
      x2 := "3.0000".toList, y2 := "4.0000".toList },
    example_node ]

/-- A note list with a played note of no duration. -/
def example_zero_notes : List note_t :=
  [ { start_time := 0, stop_time := 100, pitch := 60, is_played := true, staff_number := 0 },
    { start_time := 100, stop_time := 100, pitch := 60, is_played := true, staff_number := 0 } ]

/-! # Theorems -/

/-! ## `assert_song_valid` accepts sorted, alternating lists -/

theorem is_sorted_by_time_cons (a : key_event) (rest : List key_event) :
    is_sorted_by_time (a :: rest) = true ↔
      (∀ b ∈ rest.head?, a.time ≤ b.time) ∧ is_sorted_by_time rest = true := by
  cases rest with
  | nil => simp [is_sorted_by_time]
  | cons b tl => simp [is_sorted_by_time]

theorem is_sorted_by_time_iff (l : List key_event) :
    is_sorted_by_time l = true ↔ l.Pairwise time_le := by
  induction l with
  | nil => simp [is_sorted_by_time]
  | cons a rest ih =>
    rw [is_sorted_by_time_cons, ih, List.pairwise_cons]
    constructor
    · rintro ⟨h1, h2⟩
      refine ⟨?_, h2⟩
      cases rest with
      | nil => simp
      | cons b tl =>
        intro c hc
        have hab : a.time ≤ b.time := h1 b (by simp)
        rcases List.mem_cons.1 hc with rfl | hc
        · exact hab
        · exact le_trans hab ((List.pairwise_cons.1 h2).1 c hc)
    · rintro ⟨h1, h2⟩
      refine ⟨?_, h2⟩
      intro b hb
      cases rest with
      | nil => simp at hb
      | cons c tl =>
        simp at hb
        subst hb
        exact h1 _ (by simp)

theorem expected_next_set_same (tbl : List Bool) (p : Nat) (v d : Bool)
    (h : tbl[p]? = some d) :
    expected_next (tbl.set p v) p = if v then .released else .pressed := by
  have hp : p < tbl.length := by
    rcases List.getElem?_eq_some_iff.1 h with ⟨hp, _⟩
    exact hp
  unfold expected_next
  rw [List.getElem?_set_self hp]
  cases v <;> simp

theorem expected_next_set_other (tbl : List Bool) (p q : Nat) (v : Bool) (h : q ≠ p) :
    expected_next (tbl.set q v) p = expected_next tbl p := by
  unfold expected_next
  rw [List.getElem?_set_ne h]

theorem types_of_pitch_cons (p : Nat) (e : key_event) (rest : List key_event) :
    types_of_pitch p (e :: rest) =
      if e.data.pitch = p then e.data.ev_type :: types_of_pitch p rest
      else types_of_pitch p rest := by
  unfold types_of_pitch
  by_cases h : e.data.pitch = p <;> simp [List.filter_cons, h]

/-- A table accepted by `check_keys` makes the events of every pitch
alternate, beginning with what the table expects. -/
theorem check_keys_alternates (evs : List key_event) :
    ∀ tbl : List Bool, check_keys tbl evs = .ok () →
      ∀ p, alternates (expected_next tbl p) (types_of_pitch p evs) = true := by
  induction evs with
  | nil => intro tbl _ p; simp [types_of_pitch, alternates]
  | cons e rest ih =>
    intro tbl h p
    unfold check_keys at h
    rw [types_of_pitch_cons]
    cases hd : tbl[e.data.pitch]? with
    | none => simp [hd] at h
    | some down =>
      simp only [hd] at h
      cases ht : e.data.ev_type with
      | pressed =>
        simp only [ht] at h
        cases down with
        | true => simp at h
        | false =>
          simp at h
          have ih1 := ih _ h p
          by_cases hp : e.data.pitch = p
          · subst hp
            rw [expected_next_set_same _ _ _ _ hd] at ih1
            simp [alternates, expected_next, hd, key_type.other]
            simpa using ih1
          · rw [expected_next_set_other _ _ _ _ hp] at ih1
            simpa [hp] using ih1
      | released =>
        simp only [ht] at h
        cases down with
        | false => simp at h
        | true =>
          simp at h
          have ih1 := ih _ h p
          by_cases hp : e.data.pitch = p
          · subst hp
            rw [expected_next_set_same _ _ _ _ hd] at ih1
            simp [alternates, expected_next, hd, key_type.other]
            simpa using ih1
          · rw [expected_next_set_other _ _ _ _ hp] at ih1
            simpa [hp] using ih1

theorem expected_next_init (p : Nat) : expected_next is_pressed_init p = .pressed := by
  unfold expected_next is_pressed_init
  by_cases hp : p < is_pressed_size
  · simp [List.getElem?_replicate, hp]
  · simp [List.getElem?_replicate, hp]

theorem assert_song_valid_ok (evs : List key_event) (h : assert_song_valid evs = .ok ()) :
    evs.Pairwise time_le ∧ ∀ p, alternates .pressed (types_of_pitch p evs) = true := by
  unfold assert_song_valid at h
  by_cases hs : is_sorted_by_time evs = true
  · simp [hs] at h
    refine ⟨(is_sorted_by_time_iff evs).1 hs, fun p => ?_⟩
    have := check_keys_alternates evs _ h p
    rwa [expected_next_init] at this
  · simp [hs] at h

/-! ## The stages of `separate_release_pressed_events` -/

theorem separate_ok (evs out : List key_event)
    (h : separate_release_pressed_events evs = .ok out) :
    assert_song_valid evs = .ok () ∧
    ∃ mid, collision_loop evs = .ok mid ∧ check_separated mid = .ok () ∧
      out = stable_sort_by_time mid ∧ assert_song_valid out = .ok () := by
  unfold separate_release_pressed_events at h
  cases h1 : assert_song_valid evs with
  | error e => simp [h1, bind, Except.bind] at h
  | ok u =>
    cases h2 : collision_loop evs with
    | error e => simp [h1, h2, bind, Except.bind] at h
    | ok mid =>
      cases h3 : check_separated mid with
      | error e => simp [h1, h2, h3, bind, Except.bind] at h
      | ok u3 =>
        cases h4 : assert_song_valid (stable_sort_by_time mid) with
        | error e => simp [h1, h2, h3, h4, bind, Except.bind] at h
        | ok u4 =>
          simp [h1, h2, h3, h4, bind, Except.bind, pure, Except.pure] at h
          subst h
          exact ⟨rfl, mid, rfl, h3, rfl, h4⟩

theorem separate_of_stages (evs mid : List key_event)
    (h1 : assert_song_valid evs = .ok ()) (h2 : collision_loop evs = .ok mid)
    (h3 : check_separated mid = .ok ())
    (h4 : assert_song_valid (stable_sort_by_time mid) = .ok ()) :
    separate_release_pressed_events evs = .ok (stable_sort_by_time mid) := by
  unfold separate_release_pressed_events
  simp [h1, h2, h3, h4, bind, Except.bind, pure, Except.pure]

theorem check_separated_ok (evs : List key_event) :
    check_separated evs = .ok () ↔
      ∀ a ∈ evs, ∀ b ∈ evs, a.data.ev_type = .released → b.data.ev_type = .pressed →
        a.data.pitch = b.data.pitch → a.time ≠ b.time := by
  unfold check_separated
  constructor
  · intro h a ha b hb hat hbt hp ht
    by_cases hc : (evs.any (fun k => k.data.ev_type == key_type.released &&
        evs.any (is_press_at k.time k.data.pitch))) = true
    · simp [hc] at h
    · apply hc
      rw [List.any_eq_true]
      refine ⟨a, ha, ?_⟩
      simp only [Bool.and_eq_true, beq_iff_eq, List.any_eq_true]
      refine ⟨hat, b, hb, ?_⟩
      simp [is_press_at, hbt, hp, ht]
  · intro h
    rw [if_neg]
    intro hc
    rw [List.any_eq_true] at hc
    obtain ⟨a, ha, hc⟩ := hc
    simp only [Bool.and_eq_true, beq_iff_eq, List.any_eq_true] at hc
    obtain ⟨hat, b, hb, hc⟩ := hc
    simp only [is_press_at, Bool.and_eq_true, beq_iff_eq] at hc
    exact h a ha b hb hat hc.1.1 hc.1.2.symm hc.2.symm

theorem stable_sort_perm (evs : List key_event) : (stable_sort_by_time evs).Perm evs :=
  List.perm_insertionSort time_le evs

/-! ## C1 and C2: the output of `get_key_events` -/

/-- Events of one pitch that are sorted by time, alternate and have no release
on a press are at pairwise distinct times. -/
theorem distinct_times_of_alternates (p : Nat) (l : List key_event) :
    ∀ x : key_type, (∀ e ∈ l, e.data.pitch = p) →
      alternates x (l.map (fun e => e.data.ev_type)) = true →
      l.Pairwise time_le →
      (∀ a ∈ l, ∀ b ∈ l, a.data.ev_type = .released → b.data.ev_type = .pressed →
        a.data.pitch = b.data.pitch → a.time ≠ b.time) →
      l.Pairwise (fun a b => a.time ≠ b.time) := by
  induction l with
  | nil => intro _ _ _ _ _; exact List.Pairwise.nil
  | cons f tl ih =>
    intro x hp halt hs hsep
    simp only [List.map_cons, alternates, Bool.and_eq_true, beq_iff_eq] at halt
    rw [List.pairwise_cons] at hs ⊢
    refine ⟨?_, ih _ (fun e he => hp e (List.mem_cons_of_mem _ he)) halt.2 hs.2
      (fun a ha b hb => hsep a (List.mem_cons_of_mem _ ha) b (List.mem_cons_of_mem _ hb))⟩
    intro b hb hfb
    cases tl with
    | nil => simp at hb
    | cons g tl2 =>
      have hg : g.data.ev_type = f.data.ev_type.other := by
        have := halt.2
        simp only [List.map_cons, alternates, Bool.and_eq_true, beq_iff_eq] at this
        exact this.1
      have hfg : f.time ≤ g.time := hs.1 g (by simp)
      have hgb : g.time ≤ b.time := by
        rcases List.mem_cons.1 hb with rfl | hb2
        · exact le_refl _
        · exact (List.pairwise_cons.1 hs.2).1 b hb2
      have heq : f.time = g.time := by omega
      have hpf : f.data.pitch = p := hp f (by simp)
      have hpg : g.data.pitch = p := hp g (by simp)
      cases hft : f.data.ev_type with
      | pressed =>
        rw [hft] at hg
        exact hsep g (by simp) f (by simp) hg hft (by rw [hpf, hpg]) heq.symm
      | released =>
        rw [hft] at hg
        exact hsep f (by simp) g (by simp) hft hg (by rw [hpf, hpg]) heq

/-- C1: whenever `get_key_events` returns a sequence, the sequence is sorted
by non-decreasing time and, for every pitch, the events of that pitch in
output order alternate pressed, released, pressed, ..., beginning with
pressed. -/
theorem get_key_events_sorted_alternating (notes : List note_t) (out : List key_event)
    (h : get_key_events notes = .ok out) :
    out.Pairwise (fun a b => a.time ≤ b.time) ∧
      ∀ pitch, alternates .pressed (types_of_pitch pitch out) = true := by
  obtain ⟨_, mid, _, _, _, hv⟩ := separate_ok _ _ h
  exact assert_song_valid_ok out hv

/-- C2: whenever `get_key_events` returns a sequence, two events of the same
pitch at different positions never have the same time, whatever their
types. -/
theorem get_key_events_distinct_times (notes : List note_t) (out : List key_event)
    (h : get_key_events notes = .ok out) :
    out.Pairwise (fun a b => a.data.pitch = b.data.pitch → a.time ≠ b.time) := by
  obtain ⟨_, mid, _, hsep, hout, hv⟩ := separate_ok _ _ h
  obtain ⟨hsorted, halt⟩ := assert_song_valid_ok out hv
  have hperm : out.Perm mid := hout ▸ stable_sort_perm mid
  have hsep2 := (check_separated_ok mid).1 hsep
  rw [List.pairwise_iff_forall_sublist]
  intro a b hab hpitch
  have hfl : ([a, b].filter (fun e => e.data.pitch == a.data.pitch)).Sublist
      (out.filter (fun e => e.data.pitch == a.data.pitch)) := hab.filter _
  have hfab : [a, b].filter (fun e => e.data.pitch == a.data.pitch) = [a, b] := by
    simp [List.filter_cons, hpitch]
  rw [hfab] at hfl
  have hpw := distinct_times_of_alternates a.data.pitch
    (out.filter (fun e => e.data.pitch == a.data.pitch)) .pressed
    (fun e he => by simpa using (List.mem_filter.1 he).2)
    (halt a.data.pitch)
    (hsorted.sublist (List.filter_sublist _))
    (fun x hx y hy => hsep2 x (hperm.subset (List.mem_filter.1 hx).1)
      y (hperm.subset (List.mem_filter.1 hy).1))
  exact List.pairwise_iff_forall_sublist.1 hpw hfl

/-! ## The collision loop, one iteration at a time -/

theorem sub_u64_of_le (a b : Nat) (hb : b ≤ a) (ha : a < 18446744073709551616) :
    sub_u64 a b = a - b := by
  unfold sub_u64
  omega

theorem shortened_release_eq (t s : Nat) (hs : s < t) (ht : t < 18446744073709551616) :
    shortened_release t s = t - min 75000000 ((t - s) / 4) := by
  unfold shortened_release
  simp only []
  rw [sub_u64_of_le t s (by omega) ht, sub_u64_of_le _ _ (by omega) ht]

theorem find_if_some {α : Type} (p : α → Bool) (l : List α) :
    ∀ i, find_if p l = some i →
      ∃ x, l[i]? = some x ∧ p x = true ∧ ∀ j y, j < i → l[j]? = some y → p y = false := by
  induction l with
  | nil => intro i h; simp [find_if] at h
  | cons a tl ih =>
    intro i h
    unfold find_if at h
    by_cases hp : p a = true
    · simp [hp] at h
      subst h
      exact ⟨a, by simp, hp, fun j y hj _ => absurd hj (Nat.not_lt_zero _)⟩
    · simp [hp] at h
      obtain ⟨i', hi', rfl⟩ := h
      obtain ⟨x, hx, hpx, hmin⟩ := ih i' hi'
      refine ⟨x, by simpa using hx, hpx, ?_⟩
      intro j y hj hy
      cases j with
      | zero => simp at hy; subst hy; simpa using hp
      | succ j' => exact hmin j' y (by omega) (by simpa using hy)

theorem find_if_none {α : Type} (p : α → Bool) (l : List α) :
    find_if p l = none ↔ ∀ x ∈ l, p x = false := by
  induction l with
  | nil => simp [find_if]
  | cons a tl ih =>
    unfold find_if
    by_cases hp : p a = true
    · simp [hp]
    · simp [hp, ih]

theorem find_if_rev_none {α : Type} (p : α → Bool) (l : List α) :
    find_if_rev p l = none ↔ ∀ x ∈ l, p x = false := by
  induction l with
  | nil => simp [find_if_rev]
  | cons a tl ih =>
    unfold find_if_rev
    cases hr : find_if_rev p tl with
    | some j =>
      simp only [false_iff, reduceCtorEq]
      intro hall
      have := ih.2 (fun x hx => hall x (List.mem_cons_of_mem _ hx))
      rw [hr] at this
      exact absurd this (by simp)
    | none =>
      have h1 := ih.1 hr
      by_cases hp : p a = true
      · simp [hp]
      · simp [hp]
        exact fun x hx => by simpa using h1 x hx

theorem find_if_rev_some {α : Type} (p : α → Bool) (l : List α) :
    ∀ i, find_if_rev p l = some i →
      ∃ x, l[i]? = some x ∧ p x = true ∧ ∀ j y, i < j → l[j]? = some y → p y = false := by
  induction l with
  | nil => intro i h; simp [find_if_rev] at h
  | cons a tl ih =>
    intro i h
    unfold find_if_rev at h
    cases hr : find_if_rev p tl with
    | some j =>
      simp [hr] at h
      subst h
      obtain ⟨x, hx, hpx, hmax⟩ := ih j hr
      refine ⟨x, by simpa using hx, hpx, ?_⟩
      intro j' y hj hy
      cases j' with
      | zero => omega
      | succ j'' => exact hmax j'' y (by omega) (by simpa using hy)
    | none =>
      simp only [hr] at h
      by_cases hp : p a = true
      · simp [hp] at h
        subst h
        refine ⟨a, by simp, hp, ?_⟩
        intro j y hj hy
        cases j with
        | zero => omega
        | succ j' =>
          have hy2 : tl[j']? = some y := by simpa using hy
          exact (find_if_rev_none p tl).1 hr y (List.getElem?_mem hy2)
      · simp [hp] at h

/-- What one successful iteration does: nothing when it stands past the end,
on a release, or on a press without a release at its time; otherwise it
re-times the first such release. -/
theorem collision_step_ok (cur cur' : List key_event) (i : Nat)
    (h : collision_step cur i = .ok cur') :
    (cur' = cur ∧ (cur[i]? = none ∨ ∃ k, cur[i]? = some k ∧
        (k.data.ev_type = .released ∨
          find_if (is_release_at k.time k.data.pitch) cur = none))) ∨
    ∃ k rp rel s st, cur[i]? = some k ∧ k.data.ev_type = .pressed ∧
      find_if (is_release_at k.time k.data.pitch) cur = some rp ∧ cur[rp]? = some rel ∧
      find_if_rev (is_press_before k.time k.data.pitch) cur = some s ∧ cur[s]? = some st ∧
      cur' = cur.set rp { rel with time := shortened_release rel.time st.time } := by
  unfold collision_step at h
  cases hk : cur[i]? with
  | none =>
    simp only [hk] at h
    left
    exact ⟨by injection h with h; exact h.symm, Or.inl rfl⟩
  | some k =>
    simp only [hk] at h
    cases ht : k.data.ev_type with
    | released =>
      simp only [ht] at h
      left
      exact ⟨by injection h with h; exact h.symm, Or.inr ⟨k, rfl, Or.inl ht⟩⟩
    | pressed =>
      simp only [ht] at h
      cases hf : find_if (is_release_at k.time k.data.pitch) cur with
      | none =>
        simp only [hf] at h
        left
        exact ⟨by injection h with h; exact h.symm, Or.inr ⟨k, rfl, Or.inr hf⟩⟩
      | some rp =>
        simp only [hf] at h
        cases hr : find_if_rev (is_press_before k.time k.data.pitch) cur with
        | none => simp [hr] at h
        | some s =>
          simp only [hr] at h
          obtain ⟨rel, hrel, _, _⟩ := find_if_some _ _ _ hf
          obtain ⟨st, hst, _, _⟩ := find_if_rev_some _ _ _ hr
          simp only [hrel, hst] at h
          right
          refine ⟨k, rp, rel, s, st, rfl, ht, hf, hrel, hr, hst, ?_⟩
          injection h with h
          exact h.symm

/-- A loop over the indices `0 .. n-1` keeps an invariant that every
successful iteration keeps. -/
theorem foldlM_range_inv {σ ε : Type} (step : σ → Nat → Except ε σ) (Inv : Nat → σ → Prop) :
    ∀ (n : Nat) (s0 out : σ), Inv 0 s0 →
      (∀ i s s', i < n → Inv i s → step s i = .ok s' → Inv (i + 1) s') →
      (List.range n).foldlM step s0 = .ok out → Inv n out := by
  intro n
  induction n with
  | zero =>
    intro s0 out h0 _ h
    simp [pure, Except.pure] at h
    subst h
    exact h0
  | succ n ih =>
    intro s0 out h0 hstep h
    rw [List.range_succ, List.foldlM_append] at h
    cases hm : (List.range n).foldlM step s0 with
    | error e => simp [hm, bind, Except.bind] at h
    | ok mid =>
      simp only [hm, bind, Except.bind, List.foldlM, pure, Except.pure] at h
      have hmid := ih s0 mid h0 (fun i s s' hi => hstep i s s' (by omega)) hm
      cases hl : step mid n with
      | error e => simp [hl] at h
      | ok last =>
        simp only [hl] at h
        injection h with h
        subst h
        exact hstep n mid last (by omega) hmid hl

/-- A loop whose every iteration succeeds without changing the state returns
the state it started from. -/
theorem foldlM_of_fixed {σ ε : Type} (step : σ → Nat → Except ε σ) (s0 : σ)
    (hfix : ∀ i, step s0 i = .ok s0) :
    ∀ l : List Nat, l.foldlM step s0 = .ok s0 := by
  intro l
  induction l with
  | nil => rfl
  | cons a tl ih =>
    simp only [List.foldlM, bind, Except.bind, hfix a]
    exact ih

theorem is_release_at_iff (t p : Nat) (e : key_event) :
    is_release_at t p e = true ↔
      e.time = t ∧ e.data.ev_type = .released ∧ e.data.pitch = p := by
  simp [is_release_at, and_assoc]

theorem is_press_before_iff (t p : Nat) (e : key_event) :
    is_press_before t p e = true ↔
      e.time < t ∧ e.data.ev_type = .pressed ∧ e.data.pitch = p := by
  simp [is_press_before, and_assoc]

theorem is_press_at_iff (t p : Nat) (e : key_event) :
    is_press_at t p e = true ↔
      e.data.ev_type = .pressed ∧ e.data.pitch = p ∧ e.time = t := by
  simp [is_press_at, and_assoc]

theorem sorted_get (E : List key_event) (hs : E.Pairwise time_le) (i j : Nat)
    (a b : key_event) (hij : i ≤ j) (ha : E[i]? = some a) (hb : E[j]? = some b) :
    a.time ≤ b.time := by
  obtain ⟨hi, rfl⟩ := List.getElem?_eq_some_iff.1 ha
  obtain ⟨hj, rfl⟩ := List.getElem?_eq_some_iff.1 hb
  rcases Nat.lt_or_eq_of_le hij with hlt | heq
  · exact List.pairwise_iff_getElem.1 hs i j hi hj hlt
  · subst heq
    exact le_refl _

theorem loop_inv_refl (E : List key_event) : loop_inv E E :=
  ⟨rfl, fun _ e he => ⟨e, he, Or.inl rfl⟩⟩

/-- Under the invariant the presses are those of `E`, at the same places. -/
theorem loop_inv_pressed (E cur : List key_event) (hinv : loop_inv E cur) (j : Nat)
    (m : key_event) (hm : cur[j]? = some m) (hp : m.data.ev_type = .pressed) :
    E[j]? = some m := by
  obtain ⟨hj, _⟩ := List.getElem?_eq_some_iff.1 hm
  have hjE : j < E.length := hinv.1 ▸ hj
  obtain ⟨m', hm', hcase⟩ := hinv.2 j E[j] (List.getElem?_eq_getElem hjE)
  rw [hm] at hm'
  injection hm' with hm'
  subst hm'
  rcases hcase with h | h
  · rw [List.getElem?_eq_getElem hjE, h]
  · obtain ⟨hd, hr, _⟩ := h
    rw [hd, hr] at hp
    exact absurd hp (by simp)

theorem loop_inv_pressed_mem (E cur : List key_event) (hinv : loop_inv E cur)
    (e : key_event) (he : e ∈ E) (hp : e.data.ev_type = .pressed) :
    ∃ j : Nat, E[j]? = some e ∧ cur[j]? = some e := by
  obtain ⟨j, hj⟩ := List.mem_iff_getElem?.1 he
  obtain ⟨m, hm, hcase⟩ := hinv.2 j e hj
  refine ⟨j, hj, ?_⟩
  rcases hcase with h | h
  · rw [hm, h]
  · exact absurd hp (by rw [h.2.1]; simp)

/-- Under the invariant an event is never later than in `E` and keeps its
payload. -/
theorem loop_inv_le (E cur : List key_event) (hinv : loop_inv E cur) (j : Nat)
    (e m : key_event) (he : E[j]? = some e) (hm : cur[j]? = some m) :
    m.data = e.data ∧ m.time ≤ e.time := by
  obtain ⟨m', hm', hcase⟩ := hinv.2 j e he
  rw [hm] at hm'
  injection hm' with hm'
  subst hm'
  rcases hcase with h | h
  · subst h
    exact ⟨rfl, le_refl _⟩
  · obtain ⟨hd, _, _, st, _, _, _, ht⟩ := h
    exact ⟨hd, by omega⟩

/-- One successful iteration keeps the invariant; the event it changes, if
any, is a release of `E` re-timed. -/
theorem collision_step_inv (E : List key_event) (hs : E.Pairwise time_le)
    (hb : ∀ e ∈ E, e.time < 18446744073709551616) (cur cur' : List key_event) (i : Nat)
    (hinv : loop_inv E cur) (h : collision_step cur i = .ok cur') :
    loop_inv E cur' ∧
      ((cur' = cur ∧ (cur[i]? = none ∨ ∃ k, cur[i]? = some k ∧
          (k.data.ev_type = .released ∨
            find_if (is_release_at k.time k.data.pitch) cur = none))) ∨
        ∃ k rp e m, cur[i]? = some k ∧ k.data.ev_type = .pressed ∧
          find_if (is_release_at k.time k.data.pitch) cur = some rp ∧
          E[rp]? = some e ∧ cur'[rp]? = some m ∧ retimed E e m ∧
          ∀ j : Nat, j ≠ rp → cur'[j]? = cur[j]?) := by
  rcases collision_step_ok cur cur' i h with ⟨rfl, hno⟩ | ⟨k, rp, rel, s, st, hk, hkp, hf, hrel, hr, hst, rfl⟩
  · exact ⟨hinv, Or.inl ⟨rfl, hno⟩⟩
  · have hkE := loop_inv_pressed E cur hinv i k hk hkp
    obtain ⟨_, hrel', hprel, _⟩ := find_if_some _ _ _ hf
    rw [hrel] at hrel'
    injection hrel' with hrel'
    subst hrel'
    obtain ⟨_, hst', hpst, hmax⟩ := find_if_rev_some _ _ _ hr
    rw [hst] at hst'
    injection hst' with hst'
    subst hst'
    rw [is_release_at_iff] at hprel
    have hpst2 := (is_press_before_iff _ _ _).1 hpst
    have hstE := loop_inv_pressed E cur hinv s st hst hpst2.2.1
    have hkb : k.time < 18446744073709551616 := hb k (List.getElem?_mem hkE)
    obtain ⟨hrp, _⟩ := List.getElem?_eq_some_iff.1 hrel
    have hrpE : rp < E.length := hinv.1 ▸ hrp
    have heE : E[rp]? = some E[rp] := List.getElem?_eq_getElem hrpE
    -- the latest press before the time of `k`
    have hlatest : ∀ x ∈ E, is_press_before k.time k.data.pitch x = true →
        x.time ≤ st.time := by
      intro x hx hpx
      obtain ⟨jx, hjE, hjc⟩ := loop_inv_pressed_mem E cur hinv x hx
        ((is_press_before_iff _ _ _).1 hpx).2.1
      by_cases hle : jx ≤ s
      · exact sorted_get E hs jx s x st hle hjE hstE
      · have := hmax jx x (by omega) hjc
        rw [hpx] at this
        exact absurd this (by simp)
    -- the release found is at the time of `k` in `E` too
    have hcase : rel.data = E[rp].data ∧ E[rp].time = k.time := by
      obtain ⟨m', hm', hc⟩ := hinv.2 rp E[rp] heE
      rw [hrel] at hm'
      injection hm' with hm'
      subst hm'
      rcases hc with hc | hc
      · rw [hc] at hprel ⊢
        exact ⟨rfl, hprel.1⟩
      · obtain ⟨hd, _, _, st0, hst0E, hst0p, hst0max, ht⟩ := hc
        refine ⟨hd, ?_⟩
        by_contra hne
        have hst0 := (is_press_before_iff _ _ _).1 hst0p
        have hlt : k.time < E[rp].time := by
          have := hprel.1
          omega
        have hkpb : is_press_before E[rp].time E[rp].data.pitch k = true := by
          rw [is_press_before_iff]
          refine ⟨hlt, hkp, ?_⟩
          rw [← hd]
          exact hprel.2.2.symm
        have := hst0max k (List.getElem?_mem hkE) hkpb
        have := hprel.1
        omega
    have hnew : retimed E E[rp]
        { rel with time := shortened_release rel.time st.time } := by
      refine ⟨hcase.1, ?_, ⟨k, List.getElem?_mem hkE, hkp, ?_, hcase.2.symm⟩,
        st, List.getElem?_mem hstE, ?_, ?_, ?_⟩
      · rw [← hcase.1]; exact hprel.2.1
      · rw [← hcase.1]; exact hprel.2.2.symm
      · rw [hcase.2, ← hcase.1, hprel.2.2]; exact hpst
      · rw [hcase.2, ← hcase.1, hprel.2.2]; exact hlatest
      · show shortened_release rel.time st.time = _
        rw [hprel.1, hcase.2]
        exact shortened_release_eq k.time st.time hpst2.1 hkb
    refine ⟨⟨by rw [List.length_set]; exact hinv.1, ?_⟩, ?_⟩
    · intro j e he
      by_cases hj : rp = j
      · subst hj
        rw [heE] at he
        injection he with he
        subst he
        exact ⟨_, List.getElem?_set_self hrp, Or.inr hnew⟩
      · rw [List.getElem?_set_ne hj]
        exact hinv.2 j e he
    · exact Or.inr ⟨k, rp, _, _, hk, hkp, hf, heE, List.getElem?_set_self hrp, hnew,
        fun j hj => List.getElem?_set_ne (Ne.symm hj)⟩

/-- The collision loop keeps the invariant. -/
theorem collision_loop_inv (E out : List key_event) (hs : E.Pairwise time_le)
    (hb : ∀ e ∈ E, e.time < 18446744073709551616) (h : collision_loop E = .ok out) :
    loop_inv E out :=
  foldlM_range_inv collision_step (fun _ cur => loop_inv E cur) E.length E out
    (loop_inv_refl E)
    (fun i s s' _ hinv hstep => (collision_step_inv E hs hb s s' i hinv hstep).1) h

/-! ## C3 and C4: the time a colliding release is moved to -/

/-- Two latest presses before a time have the same time. -/
theorem latest_press_unique (E : List key_event) (t p : Nat) (a b : key_event)
    (ha : a ∈ E) (hap : is_press_before t p a = true)
    (hamax : ∀ x ∈ E, is_press_before t p x = true → x.time ≤ a.time)
    (hb : b ∈ E) (hbp : is_press_before t p b = true)
    (hbmax : ∀ x ∈ E, is_press_before t p x = true → x.time ≤ b.time) :
    a.time = b.time :=
  le_antisymm (hbmax a ha hap) (hamax b hb hbp)

/-- The invariant of the loop for the first release `r` at the time and pitch
of the press at `i0`: until the iteration at `i0` it may be untouched,
afterwards it is at its shortened time. -/
theorem collision_upto_target (E : List key_event) (hs : E.Pairwise time_le)
    (hb : ∀ e ∈ E, e.time < 18446744073709551616)
    (i0 r : Nat) (k e st : key_event)
    (hk : E[i0]? = some k) (hkp : k.data.ev_type = .pressed)
    (he : E[r]? = some e) (hep : is_release_at k.time k.data.pitch e = true)
    (hfirst : ∀ (j : Nat) (y : key_event), j < r → E[j]? = some y →
      is_release_at k.time k.data.pitch y = false)
    (hst : st ∈ E) (hstp : is_press_before k.time k.data.pitch st = true)
    (hlatest : ∀ x ∈ E, is_press_before k.time k.data.pitch x = true → x.time ≤ st.time)
    (n : Nat) (out : List key_event) (h : collision_upto E n = .ok out) :
    loop_inv E out ∧
      ((n ≤ i0 ∧ out[r]? = some e) ∨
        ∃ rel, out[r]? = some rel ∧ rel.data = e.data ∧
          rel.time = k.time - min 75000000 ((k.time - st.time) / 4)) := by
  have hep2 := (is_release_at_iff _ _ _).1 hep
  refine foldlM_range_inv collision_step
    (fun m cur => loop_inv E cur ∧
      ((m ≤ i0 ∧ cur[r]? = some e) ∨
        ∃ rel, cur[r]? = some rel ∧ rel.data = e.data ∧
          rel.time = k.time - min 75000000 ((k.time - st.time) / 4)))
    n E out ⟨loop_inv_refl E, Or.inl ⟨Nat.zero_le _, he⟩⟩ ?_ h
  intro m cur cur' _ hI hstep
  obtain ⟨hinv, hr⟩ := hI
  obtain ⟨hinv', heff⟩ := collision_step_inv E hs hb cur cur' m hinv hstep
  refine ⟨hinv', ?_⟩
  -- the press at `i0` is still in place
  have hkc : cur[i0]? = some k := by
    obtain ⟨m', hm', hc⟩ := hinv.2 i0 k hk
    rcases hc with hc | hc
    · rw [hm', hc]
    · exact absurd hkp (by rw [hc.2.1]; simp)
  -- a re-timed `r` is at the target
  have htarget : ∀ m', retimed E e m' →
      m'.data = e.data ∧ m'.time = k.time - min 75000000 ((k.time - st.time) / 4) := by
    intro m' hm'
    obtain ⟨hd, _, _, st', hst'E, hst'p, hst'max, ht⟩ := hm'
    rw [hep2.1, hep2.2.2] at hst'p hst'max
    have := latest_press_unique E _ _ st' st hst'E hst'p hst'max hst hstp hlatest
    rw [hep2.1, this] at ht
    exact ⟨hd, ht⟩
  -- an untouched `r` is the first release found on `cur`
  have hfind : cur[r]? = some e → ∀ rp, find_if (is_release_at k.time k.data.pitch) cur = some rp →
      rp = r := by
    intro hcr rp hf
    obtain ⟨x, hx, hpx, hmin⟩ := find_if_some _ _ _ hf
    by_contra hne
    rcases Nat.lt_or_gt_of_ne hne with hlt | hgt
    · obtain ⟨hrp, _⟩ := List.getElem?_eq_some_iff.1 hx
      have hrpE : rp < E.length := hinv.1 ▸ hrp
      have hxE := loop_inv_le E cur hinv rp E[rp] x (List.getElem?_eq_getElem hrpE) hx
      have hsorted := sorted_get E hs rp r E[rp] e (by omega) (List.getElem?_eq_getElem hrpE) he
      have hpx2 := (is_release_at_iff _ _ _).1 hpx
      have hy := hfirst rp E[rp] hlt (List.getElem?_eq_getElem hrpE)
      have : is_release_at k.time k.data.pitch E[rp] = true := by
        rw [is_release_at_iff]
        refine ⟨?_, ?_, ?_⟩
        · have := hxE.2
          have := hep2.1
          have := hpx2.1
          omega
        · rw [← hxE.1]; exact hpx2.2.1
        · rw [← hxE.1]; exact hpx2.2.2
      rw [this] at hy
      exact absurd hy (by simp)
    · have := hmin r e hgt hcr
      rw [hep] at this
      exact absurd this (by simp)
  rcases heff with ⟨rfl, hno⟩ | ⟨k', rp, e', m', hk', _, hf, he', hm', hret, hother⟩
  · rcases hr with ⟨hle, hcr⟩ | hdone
    · rcases Nat.lt_or_eq_of_le hle with hlt | heq
      · exact Or.inl ⟨hlt, hcr⟩
      · subst heq
        exfalso
        rcases hno with hnone | ⟨k', hk', hrel | hnf⟩
        · rw [hkc] at hnone; exact absurd hnone (by simp)
        · rw [hkc] at hk'
          injection hk' with hk'
          subst hk'
          rw [hkp] at hrel
          exact absurd hrel (by simp)
        · rw [hkc] at hk'
          injection hk' with hk'
          subst hk'
          have := (find_if_none _ _).1 hnf e (List.getElem?_mem hcr)
          rw [hep] at this
          exact absurd this (by simp)
    · exact Or.inr hdone
  · by_cases hrp : rp = r
    · subst hrp
      rw [he] at he'
      injection he' with he'
      subst he'
      exact Or.inr ⟨m', hm', htarget m' hret⟩
    · rw [hother r (Ne.symm hrp)]
      rcases hr with ⟨hle, hcr⟩ | hdone
      · rcases Nat.lt_or_eq_of_le hle with hlt | heq
        · exact Or.inl ⟨hlt, hcr⟩
        · subst heq
          exfalso
          rw [hkc] at hk'
          injection hk' with hk'
          subst hk'
          exact hrp (hfind hcr rp hf)
      · exact Or.inr hdone

/-- C3 (as stated, refuted): the iteration standing on the press at time 1
finds the release at time 1 of the note pressed at time 0 (duration 1), and
leaves it at time 1, which is not before the press. -/
theorem collision_step_short_note_not_moved :
    find_if (is_release_at 1 60)
        [⟨0, 60, .pressed, 0⟩, ⟨1, 60, .released, 0⟩, ⟨1, 60, .pressed, 0⟩,
          ⟨2, 60, .released, 0⟩] = some 1 ∧
      find_if_rev (is_press_before 1 60)
        [⟨0, 60, .pressed, 0⟩, ⟨1, 60, .released, 0⟩, ⟨1, 60, .pressed, 0⟩,
          ⟨2, 60, .released, 0⟩] = some 0 ∧
      collision_step
        [⟨0, 60, .pressed, 0⟩, ⟨1, 60, .released, 0⟩, ⟨1, 60, .pressed, 0⟩,
          ⟨2, 60, .released, 0⟩] 2 =
        .ok [⟨0, 60, .pressed, 0⟩, ⟨1, 60, .released, 0⟩, ⟨1, 60, .pressed, 0⟩,
          ⟨2, 60, .released, 0⟩] ∧
      ¬ shortened_release 1 0 < 1 := by
  refine ⟨rfl, rfl, rfl, ?_⟩
  decide

/-- C3 (amended): in the collision loop, when the iteration stands on a press
`k` at time T, finds a release of the same pitch at time T and the press of
that note at time S with T - S at least 4, it moves the release to
T - min(75000000, (T - S) / 4), which is strictly less than T and strictly
more than S. -/
theorem collision_step_shortens (key_events : List key_event) (i release_pos note_start_pos : Nat)
    (k rel start : key_event)
    (hk : key_events[i]? = some k) (hkp : k.data.ev_type = .pressed)
    (hf : find_if (is_release_at k.time k.data.pitch) key_events = some release_pos)
    (hrel : key_events[release_pos]? = some rel)
    (hr : find_if_rev (is_press_before k.time k.data.pitch) key_events = some note_start_pos)
    (hstart : key_events[note_start_pos]? = some start)
    (hbound : k.time < 18446744073709551616)
    (hduration : 4 ≤ k.time - start.time) :
    collision_step key_events i =
        .ok (key_events.set release_pos
          { rel with time := k.time - min 75000000 ((k.time - start.time) / 4) }) ∧
      rel.time = k.time ∧
      k.time - min 75000000 ((k.time - start.time) / 4) < k.time ∧
      start.time < k.time - min 75000000 ((k.time - start.time) / 4) := by
  obtain ⟨x, hx, hpx, _⟩ := find_if_some _ _ _ hf
  rw [hrel] at hx
  injection hx with hx
  subst hx
  have hrt : rel.time = k.time := ((is_release_at_iff _ _ _).1 hpx).1
  refine ⟨?_, hrt, by omega, by omega⟩
  unfold collision_step
  simp only [hk, hkp, hf, hr, hrel, hstart]
  rw [hrt, shortened_release_eq k.time start.time (by omega) hbound]

/-- C4: on a list accepted by `assert_song_valid` (sorted by time, state
machine passed), for a press `k` at time T and pitch P, the first release `e`
of pitch P at time T, at index `r`, and the latest press `st` of pitch P
before T, at time S: once the collision loop has run the iteration of `k`, and
at its end, the event at index `r` is `e` re-timed to exactly
T - min(75000000, (T - S) / 4). -/
theorem collision_loop_retimes_first_release (evs : List key_event) (i r : Nat)
    (k e st : key_event)
    (hvalid : assert_song_valid evs = .ok ())
    (hbound : ∀ x ∈ evs, x.time < 18446744073709551616)
    (hk : evs[i]? = some k) (hkp : k.data.ev_type = .pressed)
    (he : evs[r]? = some e)
    (hep : e.time = k.time ∧ e.data.ev_type = .released ∧ e.data.pitch = k.data.pitch)
    (hfirst : ∀ (j : Nat) (y : key_event), j < r → evs[j]? = some y →
      ¬ (y.time = k.time ∧ y.data.ev_type = .released ∧ y.data.pitch = k.data.pitch))
    (hst : st ∈ evs)
    (hstp : st.time < k.time ∧ st.data.ev_type = .pressed ∧ st.data.pitch = k.data.pitch)
    (hlatest : ∀ x ∈ evs, x.time < k.time ∧ x.data.ev_type = .pressed ∧
      x.data.pitch = k.data.pitch → x.time ≤ st.time) :
    (∀ n out, i < n → collision_upto evs n = .ok out →
      ∃ rel, out[r]? = some rel ∧ rel.data = e.data ∧
        rel.time = k.time - min 75000000 ((k.time - st.time) / 4)) ∧
    (∀ out, collision_loop evs = .ok out →
      ∃ rel, out[r]? = some rel ∧ rel.data = e.data ∧
        rel.time = k.time - min 75000000 ((k.time - st.time) / 4)) := by
  have hs := (assert_song_valid_ok evs hvalid).1
  have hupto : ∀ n out, i < n → collision_upto evs n = .ok out →
      ∃ rel, out[r]? = some rel ∧ rel.data = e.data ∧
        rel.time = k.time - min 75000000 ((k.time - st.time) / 4) := by
    intro n out hn h
    have := collision_upto_target evs hs hbound i r k e st hk hkp he
      ((is_release_at_iff _ _ _).2 hep)
      (fun j y hj hy => by
        have := hfirst j y hj hy
        rw [← is_release_at_iff] at this
        simpa using this)
      hst ((is_press_before_iff _ _ _).2 hstp)
      (fun x hx hpx => hlatest x hx ((is_press_before_iff _ _ _).1 hpx)) n out h
    rcases this.2 with ⟨hle, _⟩ | hdone
    · omega
    · exact hdone
  refine ⟨hupto, fun out h => hupto evs.length out ?_ h⟩
  obtain ⟨hi, _⟩ := List.getElem?_eq_some_iff.1 hk
  exact hi

/-! ## The converse: sorted, in range and alternating lists are accepted -/

theorem is_pressed_init_length : is_pressed_init.length = 255 := by
  unfold is_pressed_init
  rw [List.length_replicate]
  rfl

theorem check_keys_in_range (evs : List key_event) :
    ∀ tbl : List Bool, check_keys tbl evs = .ok () →
      ∀ e ∈ evs, e.data.pitch < tbl.length := by
  induction evs with
  | nil => intro tbl _ e he; simp at he
  | cons a rest ih =>
    intro tbl h e he
    unfold check_keys at h
    cases hd : tbl[a.data.pitch]? with
    | none => simp [hd] at h
    | some down =>
      obtain ⟨ha, _⟩ := List.getElem?_eq_some_iff.1 hd
      simp only [hd] at h
      rcases List.mem_cons.1 he with rfl | he
      · exact ha
      · cases ht : a.data.ev_type with
        | pressed =>
          simp only [ht] at h
          cases down with
          | true => simp at h
          | false =>
            simp at h
            simpa using ih _ h e he
        | released =>
          simp only [ht] at h
          cases down with
          | false => simp at h
          | true =>
            simp at h
            simpa using ih _ h e he

theorem check_keys_of_alternates (evs : List key_event) :
    ∀ tbl : List Bool, (∀ e ∈ evs, e.data.pitch < tbl.length) →
      (∀ p, alternates (expected_next tbl p) (types_of_pitch p evs) = true) →
      check_keys tbl evs = .ok () := by
  induction evs with
  | nil => intro tbl _ _; rfl
  | cons a rest ih =>
    intro tbl hr halt
    have ha : a.data.pitch < tbl.length := hr a (by simp)
    have hd : tbl[a.data.pitch]? = some tbl[a.data.pitch] := List.getElem?_eq_getElem ha
    have hhead := halt a.data.pitch
    rw [types_of_pitch_cons] at hhead
    simp only [if_true, alternates, Bool.and_eq_true, beq_iff_eq] at hhead
    have hrest : ∀ v : Bool, a.data.ev_type.other = (if v then .released else .pressed) →
        check_keys (tbl.set a.data.pitch v) rest = .ok () := by
      intro v hv
      apply ih
      · intro e he
        rw [List.length_set]
        exact hr e (List.mem_cons_of_mem _ he)
      · intro p
        by_cases hp : a.data.pitch = p
        · subst hp
          rw [expected_next_set_same _ _ _ _ hd, ← hv]
          exact hhead.2
        · rw [expected_next_set_other _ _ _ _ hp]
          have := halt p
          rw [types_of_pitch_cons] at this
          simpa [hp] using this
    unfold check_keys
    rw [hd]
    have hexp := hhead.1
    unfold expected_next at hexp
    rw [hd] at hexp
    cases ht : a.data.ev_type with
    | pressed =>
      rw [ht] at hexp
      cases hdown : tbl[a.data.pitch] with
      | true => simp [hdown] at hexp
      | false =>
        simp only []
        exact hrest true (by rw [ht]; rfl)
    | released =>
      rw [ht] at hexp
      cases hdown : tbl[a.data.pitch] with
      | false => simp [hdown] at hexp
      | true =>
        simp only []
        exact hrest false (by rw [ht]; rfl)

/-- On lists whose pitches are all inside the table, `assert_song_valid`
accepts exactly the lists that are sorted by time and whose events alternate,
for every pitch, beginning with a press. -/
theorem assert_song_valid_iff (evs : List key_event) :
    assert_song_valid evs = .ok () ↔
      evs.Pairwise time_le ∧ (∀ e ∈ evs, e.data.pitch < 255) ∧
        ∀ p, alternates .pressed (types_of_pitch p evs) = true := by
  constructor
  · intro h
    obtain ⟨h1, h2⟩ := assert_song_valid_ok evs h
    refine ⟨h1, ?_, h2⟩
    unfold assert_song_valid at h
    by_cases hs : is_sorted_by_time evs = true
    · simp [hs] at h
      have := check_keys_in_range evs _ h
      rwa [is_pressed_init_length] at this
    · simp [hs] at h
  · rintro ⟨h1, h2, h3⟩
    unfold assert_song_valid
    rw [(is_sorted_by_time_iff evs).2 h1]
    simp only [Bool.not_true, Bool.false_eq_true, if_false]
    apply check_keys_of_alternates
    · rw [is_pressed_init_length]; exact h2
    · intro p; rw [expected_next_init]; exact h3 p

theorem assert_song_valid_four (p s1 s2 t0 t1 t2 t3 : Nat) (hp : p < 255)
    (h01 : t0 ≤ t1) (h12 : t1 ≤ t2) (h23 : t2 ≤ t3) :
    assert_song_valid
      [⟨t0, p, .pressed, s1⟩, ⟨t1, p, .released, s1⟩, ⟨t2, p, .pressed, s2⟩,
        ⟨t3, p, .released, s2⟩] = .ok () := by
  rw [assert_song_valid_iff]
  refine ⟨?_, ?_, ?_⟩
  · simp [time_le]
    omega
  · simp [hp]
  · intro q
    by_cases hq : p = q
    · simp [types_of_pitch, hq, alternates, key_type.other]
    · simp [types_of_pitch, hq, alternates]

theorem stable_sort_four (e0 e1 e2 e3 : key_event)
    (h01 : e0.time ≤ e1.time) (h12 : e1.time ≤ e2.time) (h23 : e2.time ≤ e3.time) :
    stable_sort_by_time [e0, e1, e2, e3] = [e0, e1, e2, e3] := by
  apply List.Sorted.insertionSort_eq
  simp [List.Sorted, time_le]
  omega

/-! ## C5: two back-to-back notes of one pitch -/

theorem collision_loop_back_to_back (p s1 s2 a b c : Nat)
    (hab : a < b) (hbc : b < c) (hc : c < 18446744073709551616) :
    collision_loop
      [⟨a, p, .pressed, s1⟩, ⟨b, p, .released, s1⟩, ⟨b, p, .pressed, s2⟩,
        ⟨c, p, .released, s2⟩] =
      .ok [⟨a, p, .pressed, s1⟩, ⟨b - min 75000000 ((b - a) / 4), p, .released, s1⟩,
        ⟨b, p, .pressed, s2⟩, ⟨c, p, .released, s2⟩] := by
  have hne1 : ¬ b = a := by omega
  have hne2 : ¬ c = a := by omega
  have hne3 : ¬ c = b := by omega
  have hsh := shortened_release_eq b a hab (by omega)
  have h0 : collision_step
      [⟨a, p, .pressed, s1⟩, ⟨b, p, .released, s1⟩, ⟨b, p, .pressed, s2⟩,
        ⟨c, p, .released, s2⟩] 0 = .ok
      [⟨a, p, .pressed, s1⟩, ⟨b, p, .released, s1⟩, ⟨b, p, .pressed, s2⟩,
        ⟨c, p, .released, s2⟩] := by
    simp [collision_step, find_if, is_release_at, hne1, hne2]
  have h1 : collision_step
      [⟨a, p, .pressed, s1⟩, ⟨b, p, .released, s1⟩, ⟨b, p, .pressed, s2⟩,
        ⟨c, p, .released, s2⟩] 1 = .ok
      [⟨a, p, .pressed, s1⟩, ⟨b, p, .released, s1⟩, ⟨b, p, .pressed, s2⟩,
        ⟨c, p, .released, s2⟩] := by
    simp [collision_step]
  have h2 : collision_step
      [⟨a, p, .pressed, s1⟩, ⟨b, p, .released, s1⟩, ⟨b, p, .pressed, s2⟩,
        ⟨c, p, .released, s2⟩] 2 = .ok
      [⟨a, p, .pressed, s1⟩, ⟨b - min 75000000 ((b - a) / 4), p, .released, s1⟩,
        ⟨b, p, .pressed, s2⟩, ⟨c, p, .released, s2⟩] := by
    simp [collision_step, find_if, find_if_rev, is_release_at, is_press_before, hab, hsh]
  have h3 : collision_step
      [⟨a, p, .pressed, s1⟩, ⟨b - min 75000000 ((b - a) / 4), p, .released, s1⟩,
        ⟨b, p, .pressed, s2⟩, ⟨c, p, .released, s2⟩] 3 = .ok
      [⟨a, p, .pressed, s1⟩, ⟨b - min 75000000 ((b - a) / 4), p, .released, s1⟩,
        ⟨b, p, .pressed, s2⟩, ⟨c, p, .released, s2⟩] := by
    simp [collision_step]
  unfold collision_loop
  rw [show List.range
      [(⟨a, p, .pressed, s1⟩ : key_event), ⟨b, p, .released, s1⟩, ⟨b, p, .pressed, s2⟩,
        ⟨c, p, .released, s2⟩].length = [0, 1, 2, 3] from rfl]
  simp only [List.foldlM, bind, Except.bind, h0, h1, h2, h3]
  rfl

/-- C5 (amended): for every pitch below 255 and times a, b, c with
a + 4 ≤ b < c, `get_key_events` on the played notes (P, a, b) and (P, b, c)
returns the press at a, the release at b - min(75000000, (b - a) / 4), the
press at b and the release at c, each with the pitch and the staff number of
its note. -/
theorem get_key_events_back_to_back (p s1 s2 a b c : Nat) (hp : p < 255)
    (hab : a + 4 ≤ b) (hbc : b < c) (hc : c < 18446744073709551616) :
    get_key_events
      [ { start_time := a, stop_time := b, pitch := p, is_played := true, staff_number := s1 },
        { start_time := b, stop_time := c, pitch := p, is_played := true, staff_number := s2 } ] =
      .ok [⟨a, p, .pressed, s1⟩, ⟨b - min 75000000 ((b - a) / 4), p, .released, s1⟩,
        ⟨b, p, .pressed, s2⟩, ⟨c, p, .released, s2⟩] := by
  have hraw : raw_key_events
      [ { start_time := a, stop_time := b, pitch := p, is_played := true, staff_number := s1 },
        { start_time := b, stop_time := c, pitch := p, is_played := true, staff_number := s2 } ] =
      [⟨a, p, .pressed, s1⟩, ⟨b, p, .released, s1⟩, ⟨b, p, .pressed, s2⟩,
        ⟨c, p, .released, s2⟩] := by
    simp [raw_key_events, note_events]
  have hlt : b - min 75000000 ((b - a) / 4) < b := by omega
  have hgt : a < b - min 75000000 ((b - a) / 4) := by omega
  unfold get_key_events
  rw [hraw, stable_sort_four _ _ _ _ (by simp; omega) (by simp) (by simp; omega)]
  have hsorted := stable_sort_four
    (⟨a, p, .pressed, s1⟩ : key_event) ⟨b - min 75000000 ((b - a) / 4), p, .released, s1⟩
    ⟨b, p, .pressed, s2⟩ ⟨c, p, .released, s2⟩
    (by simp; omega) (by simp) (by simp; omega)
  have := separate_of_stages _ _
    (assert_song_valid_four p s1 s2 a b b c hp (by omega) (by omega) (by omega))
    (collision_loop_back_to_back p s1 s2 a b c (by omega) hbc hc)
    (by
      rw [check_separated_ok]
      intro x hx y hy hxt hyt _
      simp at hx hy
      rcases hx with rfl | rfl | rfl | rfl <;> rcases hy with rfl | rfl | rfl | rfl <;>
        simp at hxt hyt ⊢ <;> omega)
    (by
      rw [hsorted]
      exact assert_song_valid_four p s1 s2 a _ b c hp (by omega) (by omega) (by omega))
  rw [hsorted] at this
  exact this

/-! ## C6: lists without a collision are left as they are -/

theorem collision_loop_of_separated (evs : List key_event)
    (hsep : check_separated evs = .ok ()) : collision_loop evs = .ok evs := by
  have hsep2 := (check_separated_ok evs).1 hsep
  apply foldlM_of_fixed
  intro i
  unfold collision_step
  cases hk : evs[i]? with
  | none => rfl
  | some k =>
    simp only []
    cases ht : k.data.ev_type with
    | released => rfl
    | pressed =>
      simp only []
      have hnone : find_if (is_release_at k.time k.data.pitch) evs = none := by
        rw [find_if_none]
        intro x hx
        cases hx2 : is_release_at k.time k.data.pitch x with
        | false => rfl
        | true =>
          rw [is_release_at_iff] at hx2
          exact absurd hx2.1 (hsep2 x hx k (List.getElem?_mem hk) hx2.2.1 ht hx2.2.2)
      rw [hnone]

theorem separate_of_valid_separated (evs : List key_event)
    (hvalid : assert_song_valid evs = .ok ()) (hsep : check_separated evs = .ok ()) :
    separate_release_pressed_events evs = .ok evs := by
  have hsorted : stable_sort_by_time evs = evs :=
    List.Sorted.insertionSort_eq (assert_song_valid_ok evs hvalid).1
  have := separate_of_stages evs evs hvalid (collision_loop_of_separated evs hsep) hsep
    (by rw [hsorted]; exact hvalid)
  rwa [hsorted] at this

/-- C6: `separate_release_pressed_events` succeeds and returns its argument
unchanged on every list that `assert_song_valid` accepts (sorted by time,
state machine passed) and in which no release has the pitch and time of a
press; and applied to any list it has returned, it returns that list again. -/
theorem separate_release_pressed_events_idempotent :
    (∀ evs : List key_event, assert_song_valid evs = .ok () →
      (∀ a ∈ evs, ∀ b ∈ evs, a.data.ev_type = .released → b.data.ev_type = .pressed →
        a.data.pitch = b.data.pitch → a.time ≠ b.time) →
      separate_release_pressed_events evs = .ok evs) ∧
    (∀ evs out : List key_event, separate_release_pressed_events evs = .ok out →
      separate_release_pressed_events out = .ok out) := by
  constructor
  · intro evs hvalid hsep
    exact separate_of_valid_separated evs hvalid ((check_separated_ok evs).2 hsep)
  · intro evs out h
    obtain ⟨_, mid, _, hsep, hout, hvalid⟩ := separate_ok evs out h
    apply separate_of_valid_separated out hvalid
    rw [check_separated_ok] at hsep ⊢
    have hperm : out.Perm mid := hout ▸ stable_sort_perm mid
    exact fun a ha b hb => hsep a (hperm.subset ha) b (hperm.subset hb)

/-! ## C7: what `get_key_events` leaves alone -/

/-- One successful iteration keeps the frame. -/
theorem collision_step_frame (E cur cur' : List key_event) (i : Nat)
    (hlen : cur.length = E.length)
    (hinv : ∀ (j : Nat) (e m : key_event), E[j]? = some e → cur[j]? = some m → frame_rel E e m)
    (h : collision_step cur i = .ok cur') :
    cur'.length = E.length ∧
      ∀ (j : Nat) (e m : key_event), E[j]? = some e → cur'[j]? = some m → frame_rel E e m := by
  rcases collision_step_ok cur cur' i h with ⟨rfl, _⟩ | ⟨k, rp, rel, s, st, hk, hkp, hf, hrel, _, _, rfl⟩
  · exact ⟨hlen, hinv⟩
  · refine ⟨by rw [List.length_set]; exact hlen, ?_⟩
    intro j e m he hm
    by_cases hj : rp = j
    · subst hj
      obtain ⟨hrp, _⟩ := List.getElem?_eq_some_iff.1 hrel
      rw [List.getElem?_set_self hrp] at hm
      injection hm with hm
      subst hm
      have hold := hinv rp e rel he hrel
      refine ⟨hold.1, fun _ => ?_⟩
      obtain ⟨x, hx, hpx, _⟩ := find_if_some _ _ _ hf
      rw [hrel] at hx
      injection hx with hx
      subst hx
      rw [is_release_at_iff] at hpx
      by_cases hsame : rel.time = e.time
      · -- the press the iteration stands on is a press of `E`
        obtain ⟨hi, _⟩ := List.getElem?_eq_some_iff.1 hk
        have hiE : i < E.length := hlen ▸ hi
        have hki := hinv i E[i] k (List.getElem?_eq_getElem hiE) hk
        have hkt : k.time = E[i].time := by
          by_contra hne
          have := (hki.2 hne).1
          rw [← hki.1, hkp] at this
          exact absurd this (by simp)
        refine ⟨by rw [← hold.1]; exact hpx.2.1, E[i], List.getElem_mem hiE, ?_, ?_, ?_⟩
        · rw [← hki.1]; exact hkp
        · rw [← hki.1, ← hold.1]; exact hpx.2.2.symm
        · rw [← hkt, ← hsame]; exact hpx.1.symm
      · exact hold.2 hsame
    · rw [List.getElem?_set_ne hj] at hm
      exact hinv j e m he hm

theorem collision_loop_frame (E out : List key_event) (h : collision_loop E = .ok out) :
    List.Forall₂ (frame_rel E) E out := by
  have := foldlM_range_inv collision_step
    (fun _ cur => cur.length = E.length ∧
      ∀ (j : Nat) (e m : key_event), E[j]? = some e → cur[j]? = some m → frame_rel E e m)
    E.length E out
    ⟨rfl, fun j e m he hm => by
      rw [he] at hm
      injection hm with hm
      subst hm
      exact ⟨rfl, fun hne => absurd rfl hne⟩⟩
    (fun i s s' _ hI hstep => collision_step_frame E s s' i hI.1 hI.2 hstep) h
  rw [List.forall₂_iff_get]
  refine ⟨this.1.symm, fun j h1 h2 => ?_⟩
  exact this.2 j _ _ (by rw [List.getElem?_eq_getElem h1]; rfl)
    (by rw [List.getElem?_eq_getElem h2]; rfl)

theorem raw_key_events_cons (n : note_t) (notes : List note_t) :
    raw_key_events (n :: notes) = note_events n ++ raw_key_events notes := by
  simp [raw_key_events]

theorem raw_key_events_length (notes : List note_t) :
    (raw_key_events notes).length = 2 * (notes.filter (fun n => n.is_played)).length := by
  induction notes with
  | nil => rfl
  | cons n tl ih =>
    rw [raw_key_events_cons, List.length_append, ih]
    cases hn : n.is_played <;> simp [note_events, List.filter_cons, hn]
    omega

theorem raw_key_events_pressed (notes : List note_t) :
    (raw_key_events notes).filter (fun e => e.data.ev_type == key_type.pressed) =
      (notes.filter (fun n => n.is_played)).map press_of := by
  induction notes with
  | nil => rfl
  | cons n tl ih =>
    rw [raw_key_events_cons, List.filter_append, ih]
    cases hn : n.is_played <;> simp [note_events, List.filter_cons, hn, press_of]

theorem mem_raw_key_events_pressed (notes : List note_t) (k : key_event)
    (hk : k ∈ raw_key_events notes) (hp : k.data.ev_type = .pressed) :
    ∃ n ∈ notes, n.is_played = true ∧ n.pitch = k.data.pitch ∧ n.start_time = k.time := by
  have : k ∈ (raw_key_events notes).filter (fun e => e.data.ev_type == key_type.pressed) := by
    rw [List.mem_filter]
    exact ⟨hk, by simp [hp]⟩
  rw [raw_key_events_pressed, List.mem_map] at this
  obtain ⟨n, hn, rfl⟩ := this
  rw [List.mem_filter] at hn
  exact ⟨n, hn.1, by simpa using hn.2, rfl, rfl⟩

theorem forall₂_filter_pressed (notes : List note_t) (l m : List key_event)
    (h : List.Forall₂ (note_frame notes) l m) :
    m.filter (fun e => e.data.ev_type == key_type.pressed) =
      l.filter (fun e => e.data.ev_type == key_type.pressed) := by
  induction h with
  | nil => rfl
  | @cons a b l1 l2 hab _ ih =>
    obtain ⟨hd, ht⟩ := hab
    cases hty : a.data.ev_type with
    | pressed =>
      have hbt : b.time = a.time := by
        by_contra hne
        have := (ht hne).1
        rw [hty] at this
        exact absurd this (by simp)
      have hba : b = a := by
        cases a; cases b
        simp only [key_event.mk.injEq]
        exact ⟨hbt, hd⟩
      subst hba
      simp [List.filter_cons, hty, ih]
    | released =>
      have hbty : b.data.ev_type = .released := by rw [hd]; exact hty
      simp [List.filter_cons, hty, hbty, ih]

/-- C7: whenever `get_key_events` returns, the output has two events for each
played note and none for the others; its presses are exactly the presses at
the start times of the played notes, with their pitch and staff number; and
the output is a rearrangement of the raw events in which every event keeps
its pitch, type and staff number, and in which only a release that stands at
the start time of a played note of the same pitch may have another time. -/
theorem get_key_events_frame (notes : List note_t) (out : List key_event)
    (h : get_key_events notes = .ok out) :
    out.length = 2 * (notes.filter (fun n => n.is_played)).length ∧
      (out.filter (fun e => e.data.ev_type == key_type.pressed)).Perm
        ((notes.filter (fun n => n.is_played)).map press_of) ∧
      ∃ moved, out.Perm moved ∧
        List.Forall₂ (note_frame notes) (raw_key_events notes) moved := by
  obtain ⟨_, mid, hloop, _, hout, _⟩ := separate_ok _ _ h
  have hframe := collision_loop_frame _ _ hloop
  have hinit : (stable_sort_by_time (raw_key_events notes)).Perm (raw_key_events notes) :=
    stable_sort_perm _
  have hframe2 : List.Forall₂ (note_frame notes)
      (stable_sort_by_time (raw_key_events notes)) mid := by
    refine hframe.imp ?_
    intro e m hem
    refine ⟨hem.1, fun hne => ?_⟩
    obtain ⟨hrel, k, hk, hkp, hkpitch, hkt⟩ := hem.2 hne
    refine ⟨hrel, ?_⟩
    obtain ⟨n, hn, hnp, hnpitch, hnt⟩ :=
      mem_raw_key_events_pressed notes k (hinit.subset hk) hkp
    exact ⟨n, hn, hnp, by rw [hnpitch, hkpitch], by rw [hnt, hkt]⟩
  have hcomp : Relation.Comp List.Perm (List.Forall₂ (note_frame notes))
      (raw_key_events notes) mid := ⟨_, hinit.symm, hframe2⟩
  rw [← List.forall₂_comp_perm_eq_perm_comp_forall₂] at hcomp
  obtain ⟨moved, hmoved, hperm⟩ := hcomp
  have hout2 : out.Perm moved := (hout ▸ stable_sort_perm mid).trans hperm.symm
  refine ⟨?_, ?_, moved, hout2, hmoved⟩
  · rw [hout2.length_eq, ← hmoved.length_eq, raw_key_events_length]
  · rw [← raw_key_events_pressed, ← forall₂_filter_pressed notes _ _ hmoved]
    exact hout2.filter _

/-! ## The staff scan -/

theorem staff_at_some (L : List line) (i : Nat) (r : rect) (h : staff_at L i = some r) :
    ∃ l0 l1 l2 l3 l4, L[i]? = some l0 ∧ L[i + 1]? = some l1 ∧ L[i + 2]? = some l2 ∧
      L[i + 3]? = some l3 ∧ L[i + 4]? = some l4 ∧ staff_test l0 l1 l2 l3 l4 = true ∧
      r = { top := l0.y1, bottom := l4.y1, left := l4.x1, right := l4.x2 } := by
  unfold staff_at at h
  split at h
  · rename_i l0 l1 l2 l3 l4 h0 h1 h2 h3 h4
    split at h
    · rename_i ht
      injection h with h
      exact ⟨l0, l1, l2, l3, l4, h0, h1, h2, h3, h4, ht, h.symm⟩
    · exact absurd h (by simp)
  · exact absurd h (by simp)

theorem staff_at_of_test (L : List line) (i : Nat) (l0 l1 l2 l3 l4 : line)
    (h0 : L[i]? = some l0) (h1 : L[i + 1]? = some l1) (h2 : L[i + 2]? = some l2)
    (h3 : L[i + 3]? = some l3) (h4 : L[i + 4]? = some l4) :
    staff_at L i = if staff_test l0 l1 l2 l3 l4
      then some { top := l0.y1, bottom := l4.y1, left := l4.x1, right := l4.x2 }
      else none := by
  unfold staff_at
  simp only [h0, h1, h2, h3, h4]

theorem line_le_iff (a b : line) :
    line_le a b ↔ a.y1 < b.y1 ∨ (a.y1 = b.y1 ∧ a.x1 ≤ b.x1) := by
  unfold line_le line_lt
  cases hdec : (decide (b.y1 < a.y1) || (b.y1 == a.y1 && decide (b.x1 < a.x1))) with
  | false =>
    simp only [Bool.or_eq_false_iff, Bool.and_eq_false_iff, decide_eq_false_iff_not,
      beq_eq_false_iff_ne] at hdec
    simp only [true_iff]
    omega
  | true =>
    simp only [Bool.or_eq_true, Bool.and_eq_true, decide_eq_true_eq, beq_iff_eq] at hdec
    simp only [Bool.true_eq_false, false_iff]
    omega

theorem line_lt_iff (a b : line) :
    line_lt a b = true ↔ a.y1 < b.y1 ∨ (a.y1 = b.y1 ∧ a.x1 < b.x1) := by
  unfold line_lt
  simp only [Bool.or_eq_true, Bool.and_eq_true, decide_eq_true_eq, beq_iff_eq]

/-- On lines in sorted order and inside the range of `uint32_t`, the test of
the loop says that the five lines form a staff. -/
theorem staff_test_iff (l0 l1 l2 l3 l4 : line)
    (h01 : l0.y1 ≤ l1.y1) (h12 : l1.y1 ≤ l2.y1) (h23 : l2.y1 ≤ l3.y1) (h34 : l3.y1 ≤ l4.y1)
    (hb : l4.y1 < 4294967296) :
    staff_test l0 l1 l2 l3 l4 = true ↔ is_staff l0 l1 l2 l3 l4 := by
  unfold staff_test is_staff sub_u32
  simp only [Bool.and_eq_true, beq_iff_eq, bne_iff_ne, ne_eq]
  constructor
  · rintro ⟨⟨⟨⟨⟨⟨⟨⟨⟨⟨⟨a1, a2⟩, a3⟩, a4⟩, a5⟩, a6⟩, a7⟩, a8⟩, d1⟩, d2⟩, d3⟩, d4⟩
    refine ⟨a1, a3, a5, a7, a2, a4, a6, a8, ?_, ?_, ?_, ?_⟩ <;> omega
  · rintro ⟨a1, a3, a5, a7, a2, a4, a6, a8, d1, d2, d3, d4⟩
    refine ⟨⟨⟨⟨⟨⟨⟨⟨⟨⟨⟨a1, a2⟩, a3⟩, a4⟩, a5⟩, a6⟩, a7⟩, a8⟩, ?_⟩, ?_⟩, ?_⟩, ?_⟩ <;> omega

theorem sorted_lines_get (L : List line) (hs : L.Pairwise line_le) (i j : Nat) (a b : line)
    (hij : i ≤ j) (ha : L[i]? = some a) (hb : L[j]? = some b) : a.y1 ≤ b.y1 := by
  obtain ⟨hi, rfl⟩ := List.getElem?_eq_some_iff.1 ha
  obtain ⟨hj, rfl⟩ := List.getElem?_eq_some_iff.1 hb
  rcases Nat.lt_or_eq_of_le hij with hlt | heq
  · have := List.pairwise_iff_getElem.1 hs i j hi hj hlt
    rw [line_le_iff] at this
    omega
  · subst heq
    exact le_refl _

/-- On a sorted list of lines inside the range of `uint32_t`, the loop pushes
`r` for the window at `i` exactly when that window forms a staff of rect
`r`. -/
theorem staff_at_iff (L : List line) (hs : L.Pairwise line_le)
    (hb : ∀ l ∈ L, l.y1 < 4294967296) (i : Nat) (r : rect) :
    staff_at L i = some r ↔ staff_window L i r := by
  constructor
  · intro h
    obtain ⟨l0, l1, l2, l3, l4, h0, h1, h2, h3, h4, ht, hr⟩ := staff_at_some L i r h
    have hst := (staff_test_iff l0 l1 l2 l3 l4
      (sorted_lines_get L hs _ _ _ _ (by omega) h0 h1)
      (sorted_lines_get L hs _ _ _ _ (by omega) h1 h2)
      (sorted_lines_get L hs _ _ _ _ (by omega) h2 h3)
      (sorted_lines_get L hs _ _ _ _ (by omega) h3 h4)
      (hb l4 (List.getElem?_mem h4))).1 ht
    refine ⟨l0, l1, l2, l3, l4, h0, h1, h2, h3, h4, hst, ?_⟩
    rw [hr]
    obtain ⟨a1, a3, a5, a7, a2, a4, a6, a8, _⟩ := hst
    simp only [rect.mk.injEq, true_and]
    omega
  · rintro ⟨l0, l1, l2, l3, l4, h0, h1, h2, h3, h4, hst, hr⟩
    have ht := (staff_test_iff l0 l1 l2 l3 l4
      (sorted_lines_get L hs _ _ _ _ (by omega) h0 h1)
      (sorted_lines_get L hs _ _ _ _ (by omega) h1 h2)
      (sorted_lines_get L hs _ _ _ _ (by omega) h2 h3)
      (sorted_lines_get L hs _ _ _ _ (by omega) h3 h4)
      (hb l4 (List.getElem?_mem h4))).2 hst
    rw [staff_at_of_test L i l0 l1 l2 l3 l4 h0 h1 h2 h3 h4, ht, hr]
    obtain ⟨a1, a3, a5, a7, a2, a4, a6, a8, _⟩ := hst
    simp only [if_true, Option.some.injEq, rect.mk.injEq, true_and]
    omega

/-- The rects pushed by the loop from `i` come from windows that pass the
test, at indices from `i` on that are at least five apart. -/
theorem staves_loop_windows (L : List line) :
    ∀ fuel i, ∃ idxs : List Nat,
      idxs.Pairwise (fun a b => a + 5 ≤ b) ∧ (∀ j ∈ idxs, i ≤ j ∧ j + 4 < L.length) ∧
        List.Forall₂ (fun j r => staff_at L j = some r) idxs (staves_loop L fuel i) := by
  intro fuel
  induction fuel with
  | zero => intro i; exact ⟨[], List.Pairwise.nil, by simp, by simp [staves_loop]⟩
  | succ fuel ih =>
    intro i
    unfold staves_loop
    by_cases hi : i + 4 < L.length
    · rw [if_pos hi]
      cases hst : staff_at L i with
      | none =>
        obtain ⟨idxs, hc, hge, hf⟩ := ih (i + 1)
        exact ⟨idxs, hc, fun j hj => ⟨by have := (hge j hj).1; omega, (hge j hj).2⟩, hf⟩
      | some r =>
        obtain ⟨idxs, hc, hge, hf⟩ := ih (i + 5)
        refine ⟨i :: idxs, List.Pairwise.cons (fun j hj => (hge j hj).1) hc, ?_,
          List.Forall₂.cons hst hf⟩
        intro j hj
        rcases List.mem_cons.1 hj with rfl | hj
        · exact ⟨le_refl _, hi⟩
        · exact ⟨by have := (hge j hj).1; omega, (hge j hj).2⟩
    · rw [if_neg hi]
      exact ⟨[], List.Pairwise.nil, by simp, List.Forall₂.nil⟩

theorem get_staves_surface_ok (std_sort : List line → List line) (lines : List line)
    (out : List rect) (h : get_staves_surface std_sort lines = .ok out) :
    (∀ l ∈ lines, l.y1 = l.y2) ∧
      out = staves_loop (std_sort lines) (std_sort lines).length 0 := by
  unfold get_staves_surface at h
  by_cases hany : lines.any (fun a => a.y1 != a.y2) = true
  · rw [if_pos hany] at h
    exact absurd h (by simp)
  · rw [if_neg hany] at h
    injection h with h
    refine ⟨?_, h.symm⟩
    intro l hl
    by_contra hne
    apply hany
    rw [List.any_eq_true]
    exact ⟨l, hl, by simpa using hne⟩

theorem get_staves_surface_of_horizontal (std_sort : List line → List line)
    (lines : List line) (hh : ∀ l ∈ lines, l.y1 = l.y2) :
    get_staves_surface std_sort lines =
      .ok (staves_loop (std_sort lines) (std_sort lines).length 0) := by
  unfold get_staves_surface
  rw [if_neg]
  intro hany
  rw [List.any_eq_true] at hany
  obtain ⟨l, hl, hne⟩ := hany
  exact absurd (hh l hl) (by simpa using hne)

/-- C10: every rect returned by `get_staves_surface` comes from a window of
five consecutive lines of the sorted list that have the same x1, the same x2
and four equal, non-zero gaps, the rect being top = y of the first, bottom = y
of the fifth, left = x1, right = x2; the windows of the rects start at least
five apart, so they are disjoint; and wherever the scan stands on a window
that forms a staff, it pushes the rect of that window and goes on five lines
further. -/
theorem get_staves_surface_windows (std_sort : List line → List line)
    (hsort : is_std_sort std_sort) (lines : List line) (out : List rect)
    (hbound : ∀ l ∈ lines, l.y1 < 4294967296)
    (h : get_staves_surface std_sort lines = .ok out) :
    (std_sort lines).Perm lines ∧
    (std_sort lines).Pairwise (fun a b => line_lt b a = false) ∧
    (∃ idxs : List Nat, idxs.Pairwise (fun i j => i + 5 ≤ j) ∧
      List.Forall₂ (fun i r => staff_window (std_sort lines) i r) idxs out) ∧
    (∀ fuel i r, i + 4 < (std_sort lines).length → staff_window (std_sort lines) i r →
      staves_loop (std_sort lines) (fuel + 1) i =
        r :: staves_loop (std_sort lines) fuel (i + 5)) := by
  obtain ⟨hperm, hsorted⟩ := hsort lines
  have hb : ∀ l ∈ std_sort lines, l.y1 < 4294967296 :=
    fun l hl => hbound l (hperm.subset hl)
  obtain ⟨_, hout⟩ := get_staves_surface_ok std_sort lines out h
  refine ⟨hperm, hsorted, ?_, ?_⟩
  · obtain ⟨idxs, hc, _, hf⟩ := staves_loop_windows (std_sort lines)
      (std_sort lines).length 0
    rw [← hout] at hf
    exact ⟨idxs, hc, hf.imp (fun i r hir => (staff_at_iff _ hsorted hb i r).1 hir)⟩
  · intro fuel i r hi hw
    rw [staves_loop, if_pos hi, (staff_at_iff _ hsorted hb i r).2 hw]

/-! ## C9: five staff lines and noise lines around them -/

/-- Any two amounts of fuel that cover the lines left give the same result:
the loop ends by its own test, not by the fuel. -/
theorem staves_loop_enough (L : List line) :
    ∀ fuel fuel' i, L.length ≤ fuel + i → L.length ≤ fuel' + i →
      staves_loop L fuel i = staves_loop L fuel' i := by
  intro fuel
  induction fuel with
  | zero =>
    intro fuel' i h1 _
    cases fuel' with
    | zero => rfl
    | succ f => rw [staves_loop, staves_loop, if_neg (by omega)]
  | succ fuel ih =>
    intro fuel' i h1 h2
    cases fuel' with
    | zero => rw [staves_loop, staves_loop, if_neg (by omega)]
    | succ f =>
      rw [staves_loop, staves_loop]
      by_cases h4 : i + 4 < L.length
      · rw [if_pos h4, if_pos h4, ih f (i + 5) (by omega) (by omega),
          ih f (i + 1) (by omega) (by omega)]
      · rw [if_neg h4, if_neg h4]

/-- The loop runs over windows that fail the test without pushing anything. -/
theorem staves_loop_skip (L : List line) :
    ∀ k i fuel, (∀ m, i ≤ m → m < i + k → staff_at L m = none) → L.length ≤ fuel + i →
      staves_loop L fuel i = staves_loop L fuel (i + k) := by
  intro k
  induction k with
  | zero => intro i fuel _ _; rfl
  | succ k ih =>
    intro i fuel hnone hfuel
    cases fuel with
    | zero => rw [staves_loop, staves_loop]
    | succ f =>
      rw [staves_loop]
      by_cases h4 : i + 4 < L.length
      · rw [if_pos h4, hnone i (le_refl _) (by omega)]
        simp only []
        rw [ih (i + 1) f (fun m h1 h2 => hnone m (by omega) (by omega)) (by omega)]
        rw [show i + 1 + k = i + (k + 1) by omega]
        exact staves_loop_enough L f (f + 1) _ (by omega) (by omega)
      · rw [if_neg h4, staves_loop, if_neg (by omega)]

theorem staves_loop_none (L : List line) :
    ∀ fuel i, (∀ m, i ≤ m → staff_at L m = none) → staves_loop L fuel i = [] := by
  intro fuel
  induction fuel with
  | zero => intro i _; rfl
  | succ f ih =>
    intro i hnone
    rw [staves_loop]
    by_cases h4 : i + 4 < L.length
    · rw [if_pos h4, hnone i (le_refl _)]
      exact ih (i + 1) (fun m hm => hnone m (by omega))
    · rw [if_neg h4]

/-- A sorted list is its elements satisfying a downward closed test followed
by the others. -/
theorem sorted_split_filter (p : line → Bool) (L : List line) (hs : L.Pairwise line_le)
    (hdown : ∀ a b, line_le a b → p b = true → p a = true) :
    L = L.filter p ++ L.filter (fun a => !p a) := by
  induction L with
  | nil => rfl
  | cons x t ih =>
    rw [List.pairwise_cons] at hs
    have iht := ih hs.2
    by_cases hx : p x = true
    · rw [List.filter_cons_of_pos hx, List.filter_cons_of_neg (by simp [hx])]
      rw [List.cons_append, ← iht]
    · have hall : ∀ b ∈ t, ¬ p b = true := fun b hb hpb => hx (hdown x b (hs.1 b hb) hpb)
      rw [List.filter_cons_of_neg hx, List.filter_cons_of_pos (by simpa using hx)]
      have h1 : t.filter p = [] := by
        rw [List.filter_eq_nil_iff]
        exact hall
      have h2 : t.filter (fun a => !p a) = t := by
        rw [List.filter_eq_self]
        intro b hb
        simpa using hall b hb
      rw [h1, h2]
      rfl

/-- Once sorted, five staff lines and noise lines that all go strictly before
the first or strictly after the fifth are: noise, the five staff lines in
order, noise. -/
theorem sorted_staff_noise (L noise : List line) (s0 s1 s2 s3 s4 : line)
    (hs : L.Pairwise line_le) (hperm : L.Perm ([s0, s1, s2, s3, s4] ++ noise))
    (hy : s0.y1 < s1.y1 ∧ s1.y1 < s2.y1 ∧ s2.y1 < s3.y1 ∧ s3.y1 < s4.y1)
    (hout : ∀ n ∈ noise, line_lt n s0 = true ∨ line_lt s4 n = true) :
    ∃ A B, L = A ++ ([s0, s1, s2, s3, s4] ++ B) ∧ (∀ a ∈ A, a ∈ noise) ∧
      (∀ b ∈ B, b ∈ noise) := by
  obtain ⟨h01, h12, h23, h34⟩ := hy
  -- the staff lines are neither before the first nor after the fifth
  have hS : ∀ a ∈ [s0, s1, s2, s3, s4], line_lt a s0 = false ∧ line_lt s4 a = false := by
    intro a ha
    simp only [List.mem_cons, List.mem_singleton, List.not_mem_nil, or_false] at ha
    rw [Bool.eq_false_iff, Bool.eq_false_iff, ne_eq, ne_eq, line_lt_iff, line_lt_iff]
    rcases ha with rfl | rfl | rfl | rfl | rfl <;> constructor <;> omega
  have hyinj : ∀ a ∈ [s0, s1, s2, s3, s4], ∀ b ∈ [s0, s1, s2, s3, s4],
      a.y1 = b.y1 → a = b := by
    intro a ha b hb hab
    simp only [List.mem_cons, List.mem_singleton, List.not_mem_nil, or_false] at ha hb
    rcases ha with rfl | rfl | rfl | rfl | rfl <;>
      rcases hb with rfl | rfl | rfl | rfl | rfl <;>
      first | rfl | (exfalso; omega)
  have hnodup : [s0, s1, s2, s3, s4].Nodup := by
    simp only [List.nodup_cons, List.mem_cons, List.mem_singleton, List.not_mem_nil,
      or_false, not_or, List.nodup_nil, and_true, not_false_eq_true]
    refine ⟨⟨?_, ?_, ?_, ?_⟩, ⟨?_, ?_, ?_⟩, ⟨?_, ?_⟩, ?_⟩ <;>
      (intro h; have := congrArg line.y1 h; omega)
  -- first split: the lines before the first staff line
  have hsplit1 := sorted_split_filter (fun a => line_lt a s0) L hs (by
    intro a b hab hb
    rw [line_le_iff] at hab
    rw [line_lt_iff] at hb ⊢
    omega)
  have hs1 : (L.filter (fun a => !line_lt a s0)).Pairwise line_le :=
    hs.sublist (List.filter_sublist _)
  -- second split: the lines after the fifth staff line
  have hsplit2 := sorted_split_filter (fun a => !line_lt s4 a)
    (L.filter (fun a => !line_lt a s0)) hs1 (by
    intro a b hab hb
    rw [line_le_iff] at hab
    simp only [Bool.not_eq_true', Bool.eq_false_iff, ne_eq, line_lt_iff] at hb ⊢
    omega)
  -- the middle part is the staff
  have hmid : ((L.filter (fun a => !line_lt a s0)).filter (fun a => !line_lt s4 a)).Perm
      [s0, s1, s2, s3, s4] := by
    rw [List.filter_filter]
    refine (hperm.filter _).trans ?_
    rw [List.filter_append]
    have hf1 : [s0, s1, s2, s3, s4].filter (fun a => !line_lt s4 a && !line_lt a s0) =
        [s0, s1, s2, s3, s4] := by
      rw [List.filter_eq_self]
      intro a ha
      rw [(hS a ha).1, (hS a ha).2]
      rfl
    have hf2 : noise.filter (fun a => !line_lt s4 a && !line_lt a s0) = [] := by
      rw [List.filter_eq_nil_iff]
      intro a ha
      rcases hout a ha with h | h <;> simp [h]
    rw [hf1, hf2, List.append_nil]
  have hmid_eq : (L.filter (fun a => !line_lt a s0)).filter (fun a => !line_lt s4 a) =
      [s0, s1, s2, s3, s4] := by
    haveI : IsAntisymm line (fun a b => line_lt a b = true) :=
      ⟨fun a b h1 h2 => by
        rw [line_lt_iff] at h1 h2
        exfalso
        omega⟩
    refine @List.eq_of_perm_of_sorted line (fun a b => line_lt a b = true) _ _ _ hmid ?_ ?_
    · have hpw : ((L.filter (fun a => !line_lt a s0)).filter
          (fun a => !line_lt s4 a)).Pairwise line_le := hs1.sublist (List.filter_sublist _)
      have hnd := (hmid.nodup_iff).2 hnodup
      refine (hpw.and hnd).imp_of_mem ?_
      intro a b ha hb hab
      have hay := hyinj a (hmid.subset ha) b (hmid.subset hb)
      have hle := (line_le_iff a b).1 hab.1
      rw [line_lt_iff]
      by_cases hyy : a.y1 = b.y1
      · exact absurd (hay hyy) hab.2
      · omega
    · simp only [List.Sorted, List.pairwise_cons, List.mem_cons, List.mem_singleton,
        List.not_mem_nil, or_false, forall_eq_or_imp, forall_eq, line_lt_iff,
        List.Pairwise.nil, and_true, IsEmpty.forall_iff, implies_true]
      omega
  refine ⟨L.filter (fun a => line_lt a s0),
    (L.filter (fun a => !line_lt a s0)).filter (fun a => !(!line_lt s4 a)), ?_, ?_, ?_⟩
  · rw [← hmid_eq, ← hsplit2]
    exact hsplit1
  · intro a ha
    rw [List.mem_filter] at ha
    rcases List.mem_append.1 (hperm.subset ha.1) with h | h
    · rw [(hS a h).1] at ha
      exact absurd ha.2 (by simp)
    · exact h
  · intro b hb
    rw [List.mem_filter, List.mem_filter] at hb
    rcases List.mem_append.1 (hperm.subset hb.1.1) with h | h
    · have := hb.2
      rw [(hS b h).2] at this
      exact absurd this (by simp)
    · exact h

/-- C9 (as stated, refuted): five equally spaced lines of equal width and one
noise line of another width whose y lies between the first two staff lines
give no rect at all. -/
theorem get_staves_surface_noise_inside :
    get_staves_surface insertion_sort_lines
      [⟨0, 0, 100, 0⟩, ⟨0, 10, 100, 10⟩, ⟨0, 20, 100, 20⟩, ⟨0, 30, 100, 30⟩,
        ⟨0, 40, 100, 40⟩, ⟨0, 5, 50, 5⟩] = .ok [] := by
  rfl

/-- C9 (amended): for five horizontal lines of the same x1 and x2, equally
spaced downwards with a non-zero gap, and any number of noise lines that are
part of no group of five equally spaced equal-width lines and that all sort
strictly before the first staff line or strictly after the fifth,
`get_staves_surface` returns exactly one rect: top = y of the first staff
line, bottom = y of the fifth, left and right = the shared x1 and x2. -/
theorem get_staves_surface_one_staff (std_sort : List line → List line)
    (hsort : is_std_sort std_sort) (s0 s1 s2 s3 s4 : line) (noise lines : List line)
    (hperm : lines.Perm ([s0, s1, s2, s3, s4] ++ noise))
    (hhoriz : ∀ l ∈ lines, l.y1 = l.y2)
    (hbound : ∀ l ∈ lines, l.y1 < 4294967296)
    (hstaff : is_staff s0 s1 s2 s3 s4) (hdown : s0.y1 < s1.y1)
    (hnoise : ∀ a ∈ lines, ∀ b ∈ lines, ∀ c ∈ lines, ∀ d ∈ lines, ∀ e ∈ lines,
      is_staff a b c d e → a ∉ noise ∧ b ∉ noise ∧ c ∉ noise ∧ d ∉ noise ∧ e ∉ noise)
    (hout : ∀ n ∈ noise, line_lt n s0 = true ∨ line_lt s4 n = true) :
    get_staves_surface std_sort lines =
      .ok [{ top := s0.y1, bottom := s4.y1, left := s0.x1, right := s0.x2 }] := by
  obtain ⟨hp, hsorted⟩ := hsort lines
  have hb : ∀ l ∈ std_sort lines, l.y1 < 4294967296 := fun l hl => hbound l (hp.subset hl)
  have hy : s0.y1 < s1.y1 ∧ s1.y1 < s2.y1 ∧ s2.y1 < s3.y1 ∧ s3.y1 < s4.y1 := by
    obtain ⟨_, _, _, _, _, _, _, _, d1, d2, d3, _⟩ := hstaff
    omega
  obtain ⟨A, B, hL, hA, hB⟩ := sorted_staff_noise (std_sort lines) noise s0 s1 s2 s3 s4
    hsorted (hp.trans hperm) hy hout
  rw [get_staves_surface_of_horizontal std_sort lines hhoriz]
  generalize std_sort lines = L at hp hsorted hb hL
  -- a window that passes the test does not begin on a noise line
  have hfail : ∀ m l, L[m]? = some l → l ∈ noise → staff_at L m = none := by
    intro m l hm hl
    cases hst : staff_at L m with
    | none => rfl
    | some r =>
      obtain ⟨l0, l1, l2, l3, l4, h0, h1, h2, h3, h4, hw, _⟩ :=
        (staff_at_iff L hsorted hb m r).1 hst
      rw [hm] at h0
      injection h0 with h0
      subst h0
      exact absurd hl (hnoise l (hp.subset (List.getElem?_mem hm))
        l1 (hp.subset (List.getElem?_mem h1)) l2 (hp.subset (List.getElem?_mem h2))
        l3 (hp.subset (List.getElem?_mem h3)) l4 (hp.subset (List.getElem?_mem h4)) hw).1
  have hlen : L.length = A.length + 5 + B.length := by
    rw [hL]
    simp only [List.length_append, List.length_cons, List.length_nil]
    omega
  have hbefore : ∀ m, 0 ≤ m → m < 0 + A.length → staff_at L m = none := by
    intro m _ hm
    have hmA : m < A.length := by omega
    have : L[m]? = some A[m] := by
      rw [hL, List.getElem?_append_left hmA, List.getElem?_eq_getElem hmA]
    exact hfail m A[m] this (hA _ (List.getElem_mem hmA))
  have hafter : ∀ m, A.length + 5 ≤ m → staff_at L m = none := by
    intro m hm
    by_cases hmL : m < L.length
    · have hmB : m - A.length - 5 < B.length := by omega
      have : L[m]? = some B[m - A.length - 5] := by
        rw [hL, List.getElem?_append_right (by omega),
          List.getElem?_append_right (by simp; omega), List.getElem?_eq_getElem (by simpa using hmB)]
        rfl
      exact hfail m _ this (hB _ (List.getElem_mem hmB))
    · cases hst : staff_at L m with
      | none => rfl
      | some r =>
        obtain ⟨l0, _, _, _, _, h0, _⟩ := staff_at_some L m r hst
        obtain ⟨hlt, _⟩ := List.getElem?_eq_some_iff.1 h0
        exact absurd hlt hmL
  have hget : ∀ k (hk : k < 5), L[A.length + k]? = [s0, s1, s2, s3, s4][k]? := by
    intro k hk
    rw [hL, List.getElem?_append_right (by omega),
      List.getElem?_append_left (by simp; omega)]
    congr 1
    omega
  have hwin : staff_at L A.length =
      some { top := s0.y1, bottom := s4.y1, left := s0.x1, right := s0.x2 } := by
    rw [staff_at_iff L hsorted hb]
    exact ⟨s0, s1, s2, s3, s4, by simpa using hget 0 (by omega), by simpa using hget 1 (by omega),
      by simpa using hget 2 (by omega), by simpa using hget 3 (by omega),
      by simpa using hget 4 (by omega), hstaff, rfl⟩
  rw [staves_loop_skip L A.length 0 L.length hbefore (by omega), Nat.zero_add]
  rw [staves_loop_enough L L.length (A.length + 4 + B.length + 1) A.length (by omega) (by omega)]
  rw [staves_loop, if_pos (by omega), hwin]
  simp only []
  rw [staves_loop_none L _ _ hafter]

/-! ## C8: `assert_song_valid` against the state machine of the specification -/

theorem get_key_events_example : get_key_events example_notes = .ok example_events := by
  set_option maxRecDepth 100000 in rfl

theorem insertion_sort_lines_is_std_sort : is_std_sort insertion_sort_lines := by
  intro l
  haveI : IsTotal line line_le := ⟨fun a b => by
    rw [line_le_iff, line_le_iff]
    omega⟩
  haveI : IsTrans line line_le := ⟨fun a b c hab hbc => by
    rw [line_le_iff] at hab hbc ⊢
    omega⟩
  exact ⟨List.perm_insertionSort line_le l, List.sorted_insertionSort line_le l⟩

/-- C1 at `example_notes`. -/
theorem get_key_events_sorted_alternating_example :
    get_key_events example_notes = .ok example_events ∧
      example_events.Pairwise (fun a b => a.time ≤ b.time) ∧
      ∀ pitch, alternates .pressed (types_of_pitch pitch example_events) = true :=
  ⟨get_key_events_example,
    get_key_events_sorted_alternating example_notes example_events get_key_events_example⟩

/-- C2 at `example_notes`. -/
theorem get_key_events_distinct_times_example :
    get_key_events example_notes = .ok example_events ∧
      example_events.Pairwise (fun a b => a.data.pitch = b.data.pitch → a.time ≠ b.time) :=
  ⟨get_key_events_example,
    get_key_events_distinct_times example_notes example_events get_key_events_example⟩

/-- C3 (amended) at the press of the second note of pitch 60 in
`example_sorted`: the release at index 2 moves from 1000000000 to
925000000. -/
theorem collision_step_shortens_example :
    collision_step example_sorted 3 =
        .ok (example_sorted.set 2 ⟨925000000, 60, .released, 1⟩) ∧
      (925000000 : Nat) < 1000000000 ∧ (0 : Nat) < 925000000 := by
  have h := collision_step_shortens example_sorted 3 2 0
    ⟨1000000000, 60, .pressed, 1⟩ ⟨1000000000, 60, .released, 1⟩ ⟨0, 60, .pressed, 1⟩
    rfl rfl rfl rfl rfl rfl (by decide) (by decide)
  exact ⟨h.1, h.2.2.1, h.2.2.2⟩

/-- C4 at `example_sorted`: the press at index 3, the release at index 2, the
latest press before it at time 0. -/
theorem collision_loop_retimes_first_release_example :
    collision_loop example_sorted = .ok example_events ∧
      ∃ rel, example_events[2]? = some rel ∧
        rel.data = (⟨1000000000, 60, .released, 1⟩ : key_event).data ∧
        rel.time = 1000000000 - min 75000000 ((1000000000 - 0) / 4) :=
  ⟨rfl,
    (collision_loop_retimes_first_release example_sorted 3 2
      ⟨1000000000, 60, .pressed, 1⟩ ⟨1000000000, 60, .released, 1⟩ ⟨0, 60, .pressed, 1⟩
      (by set_option maxRecDepth 100000 in rfl) (by decide) rfl rfl rfl ⟨rfl, rfl, rfl⟩
      (by
        intro j y hj hy
        have hj2 : j = 0 ∨ j = 1 := by omega
        rcases hj2 with rfl | rfl <;>
          · simp only [example_sorted] at hy
            injection hy with hy
            subst hy
            decide)
      (by decide) ⟨by decide, rfl, rfl⟩ (by decide)).2 example_events rfl⟩

/-- C5 (as stated, refuted): with b - a = 1 the two back-to-back notes of
pitch 60 make `get_key_events` raise instead of returning four events. -/
theorem get_key_events_short_note_raises :
    get_key_events
      [ { start_time := 0, stop_time := 1, pitch := 60, is_played := true, staff_number := 1 },
        { start_time := 1, stop_time := 2, pitch := 60, is_played := true, staff_number := 1 } ] =
      .error .pressed_and_released := by
  set_option maxRecDepth 100000 in rfl

/-- C5 (amended) at P = 60, a = 0, b = 1000000000, c = 2000000000: the first
release is at 925000000. -/
theorem get_key_events_back_to_back_example :
    get_key_events
      [ { start_time := 0, stop_time := 1000000000, pitch := 60, is_played := true,
          staff_number := 1 },
        { start_time := 1000000000, stop_time := 2000000000, pitch := 60, is_played := true,
          staff_number := 1 } ] =
      .ok [⟨0, 60, .pressed, 1⟩, ⟨925000000, 60, .released, 1⟩, ⟨1000000000, 60, .pressed, 1⟩,
        ⟨2000000000, 60, .released, 1⟩] :=
  get_key_events_back_to_back 60 1 1 0 1000000000 2000000000 (by decide) (by decide)
    (by decide) (by decide)

/-- C6 at `example_events`: the list is returned unchanged, the first time
and again. -/
theorem separate_release_pressed_events_idempotent_example :
    separate_release_pressed_events example_events = .ok example_events ∧
      (separate_release_pressed_events example_sorted = .ok example_events ∧
        separate_release_pressed_events example_events = .ok example_events) :=
  ⟨separate_release_pressed_events_idempotent.1 example_events
      (by set_option maxRecDepth 100000 in rfl) (by decide),
    by set_option maxRecDepth 100000 in rfl,
    separate_release_pressed_events_idempotent.2 example_sorted example_events
      (by set_option maxRecDepth 100000 in rfl)⟩

/-- C7 at `example_notes`. -/
theorem get_key_events_frame_example :
    get_key_events example_notes = .ok example_events ∧
      example_events.length = 2 * (example_notes.filter (fun n => n.is_played)).length ∧
      (example_events.filter (fun e => e.data.ev_type == key_type.pressed)).Perm
        ((example_notes.filter (fun n => n.is_played)).map press_of) ∧
      ∃ moved, example_events.Perm moved ∧
        List.Forall₂ (note_frame example_notes) (raw_key_events example_notes) moved :=
  ⟨get_key_events_example,
    get_key_events_frame example_notes example_events get_key_events_example⟩

/-- C9 (amended) at `example_lines`: one rect, from y = 10 to y = 50. -/
theorem get_staves_surface_one_staff_example :
    get_staves_surface insertion_sort_lines example_lines =
      .ok [{ top := 10, bottom := 50, left := 0, right := 100 }] :=
  get_staves_surface_one_staff insertion_sort_lines insertion_sort_lines_is_std_sort
    ⟨0, 10, 100, 10⟩ ⟨0, 20, 100, 20⟩ ⟨0, 30, 100, 30⟩ ⟨0, 40, 100, 40⟩ ⟨0, 50, 100, 50⟩
    example_noise example_lines (by decide) (by decide) (by decide)
    (by unfold is_staff; simp) (by decide)
    (by
      intro a ha b hb c hc d hd e he hst
      have key : ∀ x ∈ example_lines, ∀ y ∈ example_noise, x.x2 = y.x2 → x.y1 = y.y1 := by
        decide
      obtain ⟨_, _, _, _, x1, x2, x3, x4, d1, d2, d3, d4⟩ := hst
      refine ⟨fun h => ?_, fun h => ?_, fun h => ?_, fun h => ?_, fun h => ?_⟩
      · have := key b hb a h x1.symm
        omega
      · have := key a ha b h x1
        omega
      · have := key b hb c h x2
        omega
      · have := key c hc d h x3
        omega
      · have := key d hd e h x4
        omega)
    (by decide)

/-- C10 at `example_lines`. -/
theorem get_staves_surface_windows_example :
    get_staves_surface insertion_sort_lines example_lines =
        .ok [{ top := 10, bottom := 50, left := 0, right := 100 }] ∧
      ∃ idxs : List Nat, idxs.Pairwise (fun i j => i + 5 ≤ j) ∧
        List.Forall₂ (fun i r => staff_window (insertion_sort_lines example_lines) i r) idxs
          [{ top := 10, bottom := 50, left := 0, right := 100 }] :=
  ⟨rfl,
    (get_staves_surface_windows insertion_sort_lines insertion_sort_lines_is_std_sort
      example_lines [{ top := 10, bottom := 50, left := 0, right := 100 }]
      (by decide) rfl).2.2.1⟩

/-! ## C11: a line that is not horizontal -/

/-- C11: for every list of selected lines that contains a line with y1
different from y2, `get_staves_surface` raises its error and returns no
staves, whatever the other lines are. -/
theorem get_staves_surface_not_horizontal (std_sort : List line → List line)
    (lines : List line) (l : line) (hl : l ∈ lines) (hne : l.y1 ≠ l.y2) :
    get_staves_surface std_sort lines = .error .not_horizontal := by
  unfold get_staves_surface
  rw [if_pos]
  rw [List.any_eq_true]
  exact ⟨l, hl, by simpa using hne⟩

/-! ## C12: the format of numbers -/

theorem is_digit_eq (c : Char) : is_digit c = c.isDigit := by
  unfold is_digit Char.isDigit
  rfl

theorem not_is_digit_point : is_digit '.' = false := by decide

theorem not_is_digit_minus : is_digit '-' = false := by decide

theorem skip_digits_some (s : List Char) :
    ∀ r, skip_digits s = some r →
      ∃ ds, ds ≠ [] ∧ (∀ c ∈ ds, is_digit c = true) ∧ s = ds ++ r ∧ r.head? = some '.' := by
  induction s with
  | nil => intro r h; simp [skip_digits] at h
  | cons c rest ih =>
    intro r h
    unfold skip_digits at h
    by_cases hc : is_digit c = true
    · simp only [hc, Bool.not_true, Bool.false_eq_true, if_false] at h
      cases rest with
      | nil => simp [skip_digits] at h
      | cons d tl =>
        simp only [] at h
        by_cases hd : d = '.'
        · subst hd
          simp at h
          subst h
          exact ⟨[c], by simp, by simpa using hc, rfl, rfl⟩
        · simp only [bne_iff_ne, ne_eq, hd, not_false_eq_true, if_true] at h
          obtain ⟨ds, hne, hdig, hs, hr⟩ := ih r h
          refine ⟨c :: ds, by simp, ?_, by rw [hs]; rfl, hr⟩
          intro x hx
          rcases List.mem_cons.1 hx with rfl | hx
          · exact hc
          · exact hdig x hx
    · simp [hc] at h

theorem skip_digits_cons_cons (c d : Char) (tl : List Char) :
    skip_digits (c :: d :: tl) =
      if !is_digit c then none
      else if d != '.' then skip_digits (d :: tl) else some (d :: tl) := by
  rw [skip_digits]

theorem skip_digits_of_digits (ds : List Char) :
    ∀ r, ds ≠ [] → (∀ c ∈ ds, is_digit c = true) → r.head? = some '.' →
      skip_digits (ds ++ r) = some r := by
  induction ds with
  | nil => intro r h; exact absurd rfl h
  | cons c tl ih =>
    intro r _ hdig hr
    have hc : is_digit c = true := hdig c (by simp)
    cases tl with
    | nil =>
      cases r with
      | nil => simp at hr
      | cons d r2 =>
        simp at hr
        subst hr
        show skip_digits (c :: '.' :: r2) = some ('.' :: r2)
        rw [skip_digits_cons_cons]
        simp [hc]
    | cons c2 tl2 =>
      have hc2 : is_digit c2 = true := hdig c2 (by simp)
      have hne : c2 ≠ '.' := by
        intro h
        rw [h, not_is_digit_point] at hc2
        exact absurd hc2 (by simp)
      have := ih r (by simp) (fun x hx => hdig x (List.mem_cons_of_mem _ hx)) hr
      show skip_digits (c :: c2 :: (tl2 ++ r)) = some r
      rw [skip_digits_cons_cons]
      simp only [hc, Bool.not_true, Bool.false_eq_true, if_false, bne_iff_ne, ne_eq, hne,
        not_false_eq_true, if_true]
      exact this

theorem four_digits_some (n : Nat) :
    ∀ s r, four_digits n s = some r →
      ∃ fs, fs.length = n ∧ (∀ c ∈ fs, is_digit c = true) ∧ s = fs ++ r := by
  induction n with
  | zero =>
    intro s r h
    simp [four_digits] at h
    exact ⟨[], rfl, by simp, by simp [h]⟩
  | succ n ih =>
    intro s r h
    cases s with
    | nil => simp [four_digits] at h
    | cons c rest =>
      unfold four_digits at h
      by_cases hc : is_digit c = true
      · simp only [hc, Bool.not_true, Bool.false_eq_true, if_false] at h
        obtain ⟨fs, hlen, hdig, hs⟩ := ih rest r h
        refine ⟨c :: fs, by simp [hlen], ?_, by rw [hs]; rfl⟩
        intro x hx
        rcases List.mem_cons.1 hx with rfl | hx
        · exact hc
        · exact hdig x hx
      · simp [hc] at h

theorem four_digits_of_digits (fs : List Char) :
    ∀ r, (∀ c ∈ fs, is_digit c = true) → four_digits fs.length (fs ++ r) = some r := by
  induction fs with
  | nil => intro r _; rfl
  | cons c tl ih =>
    intro r hdig
    have hc : is_digit c = true := hdig c (by simp)
    rw [List.length_cons, List.cons_append, four_digits]
    simp only [hc, Bool.not_true, Bool.false_eq_true, if_false]
    exact ih r (fun x hx => hdig x (List.mem_cons_of_mem _ hx))

theorem is_valid_number_eq (s : List Char) :
    is_valid_number s =
      match skip_digits (s.drop (if s.head? == some '-' then 1 else 0)) with
      | none => false
      | some at_point =>
        match four_digits 4 (at_point.drop 1) with
        | none => false
        | some rest => rest.isEmpty := rfl

/-- What `is_valid_number` skips of a string in the format: the sign. -/
theorem drop_sign (sign ds rest : List Char) (hsign : sign = [] ∨ sign = ['-'])
    (hne : ds ≠ []) (hdig : ∀ c ∈ ds, is_digit c = true) :
    ((sign ++ ds ++ rest).head? == some '-') = (sign == ['-']) ∧
      (sign ++ ds ++ rest).drop (if (sign ++ ds ++ rest).head? == some '-' then 1 else 0) =
        ds ++ rest := by
  cases ds with
  | nil => exact absurd rfl hne
  | cons c tl =>
    have hc : c ≠ '-' := by
      intro h
      have := hdig c (by simp)
      rw [h, not_is_digit_minus] at this
      exact absurd this (by simp)
    rcases hsign with rfl | rfl
    · simp [hc]
    · simp

/-- The strings `is_valid_number` accepts, with the parts it finds. -/
theorem is_valid_number_iff (s : List Char) :
    is_valid_number s = true ↔
      ∃ sign ds fs, s = sign ++ ds ++ '.' :: fs ∧ (sign = [] ∨ sign = ['-']) ∧ ds ≠ [] ∧
        (∀ c ∈ ds, is_digit c = true) ∧ fs.length = 4 ∧ (∀ c ∈ fs, is_digit c = true) := by
  constructor
  · intro h
    rw [is_valid_number_eq] at h
    generalize hX : s.drop (if s.head? == some '-' then 1 else 0) = X at h
    cases hsk : skip_digits X with
    | none => rw [hsk] at h; exact absurd h (by simp)
    | some at_point =>
      rw [hsk] at h
      dsimp only at h
      obtain ⟨ds, hne, hdig, hs, hr⟩ := skip_digits_some _ _ hsk
      cases hfd : four_digits 4 (at_point.drop 1) with
      | none => rw [hfd] at h; exact absurd h (by simp)
      | some rest =>
        rw [hfd] at h
        dsimp only at h
        rw [List.isEmpty_iff] at h
        subst h
        obtain ⟨fs, hlen, hfdig, hfs⟩ := four_digits_some 4 _ _ hfd
        rw [List.append_nil] at hfs
        have hat : at_point = '.' :: fs := by
          cases at_point with
          | nil => simp at hr
          | cons d tl =>
            simp at hr hfs
            rw [hr, hfs]
        rw [hat] at hs
        rw [hs] at hX
        by_cases hm : s.head? = some '-'
        · refine ⟨['-'], ds, fs, ?_, Or.inr rfl, hne, hdig, hlen, hfdig⟩
          cases s with
          | nil => simp at hm
          | cons c tl =>
            simp at hm
            subst hm
            simp at hX
            simp [hX]
        · refine ⟨[], ds, fs, ?_, Or.inl rfl, hne, hdig, hlen, hfdig⟩
          simp [hm] at hX
          simp [hX]
  · rintro ⟨sign, ds, fs, hs, hsign, hne, hdig, hlen, hfdig⟩
    subst hs
    rw [is_valid_number_eq, (drop_sign sign ds ('.' :: fs) hsign hne hdig).2,
      skip_digits_of_digits ds ('.' :: fs) hne hdig rfl]
    dsimp only
    have := four_digits_of_digits fs [] hfdig
    rw [hlen, List.append_nil] at this
    rw [List.drop_succ_cons, List.drop_zero, this]
    rfl

/-- C12: `is_valid_number` is true exactly on the strings made of an optional
`'-'`, one or more decimal digits, a `'.'` and exactly four decimal digits;
`to_int_decimal_shift` raises exactly on the strings for which it is false,
and returns a value on the others. -/
theorem is_valid_number_format (s : List Char) :
    (is_valid_number s = true ↔ number_format s) ∧
      ((∃ e, to_int_decimal_shift s = .error e) ↔ is_valid_number s = false) ∧
      ((∃ v, to_int_decimal_shift s = .ok v) ↔ is_valid_number s = true) := by
  refine ⟨?_, ?_, ?_⟩
  · rw [is_valid_number_iff]
    unfold number_format
    simp only [is_digit_eq]
  · unfold to_int_decimal_shift
    cases is_valid_number s <;> simp
  · unfold to_int_decimal_shift
    cases is_valid_number s <;> simp

/-! ## C13: the value of a number -/

theorem digit_value_le (c : Char) (h : is_digit c = true) : digit_value c ≤ 9 := by
  unfold is_digit at h
  simp only [ge_iff_le, Bool.and_eq_true, decide_eq_true_eq] at h
  have h2 : c.val ≤ ('9' : Char).val := h.2
  have h3 : c.val.toNat ≤ 57 := h2
  unfold digit_value Char.toNat
  omega

theorem read_digits_append (ds : List Char) :
    ∀ (acc : Nat) (r : List Char), (∀ c ∈ ds, is_digit c = true) →
      (∀ c ∈ r.head?, is_digit c = false) →
      read_digits acc (ds ++ r) =
        (ds.foldl (fun acc c => 10 * acc + digit_value c) acc, r) := by
  induction ds with
  | nil =>
    intro acc r _ hr
    cases r with
    | nil => rfl
    | cons d tl =>
      have := hr d (by simp)
      simp [read_digits, this]
  | cons c tl ih =>
    intro acc r hdig hr
    have hc : is_digit c = true := hdig c (by simp)
    rw [List.cons_append, read_digits]
    simp only [hc, if_true, List.foldl_cons]
    exact ih _ r (fun x hx => hdig x (List.mem_cons_of_mem _ hx)) hr

theorem strtoul_digits (ds r : List Char) (hdig : ∀ c ∈ ds, is_digit c = true)
    (hr : ∀ c ∈ r.head?, is_digit c = false) :
    strtoul (ds ++ r) = (min (decimal_value ds) ulong_max, r) := by
  unfold strtoul
  rw [read_digits_append ds 0 r hdig hr]
  rfl

/-- What `to_int_decimal_shift` returns on a string in the format, from the
values of its two groups of digits. -/
theorem to_int_decimal_shift_of_format (sign ds fs : List Char)
    (hsign : sign = [] ∨ sign = ['-']) (hne : ds ≠ [])
    (hdig : ∀ c ∈ ds, is_digit c = true) (hlen : fs.length = 4)
    (hfdig : ∀ c ∈ fs, is_digit c = true) :
    to_int_decimal_shift (sign ++ ds ++ '.' :: fs) =
      .ok (if sign == ['-']
        then (4294967296 - (10000 * (min (decimal_value ds) ulong_max % 4294967296) +
          min (decimal_value fs) ulong_max % 4294967296) % 4294967296) % 4294967296
        else (10000 * (min (decimal_value ds) ulong_max % 4294967296) +
          min (decimal_value fs) ulong_max % 4294967296) % 4294967296) := by
  have hvalid : is_valid_number (sign ++ ds ++ '.' :: fs) = true :=
    (is_valid_number_iff _).2 ⟨sign, ds, fs, rfl, hsign, hne, hdig, hlen, hfdig⟩
  obtain ⟨hneg, hdrop⟩ := drop_sign sign ds ('.' :: fs) hsign hne hdig
  unfold to_int_decimal_shift
  simp only [hvalid, Bool.not_true, Bool.false_eq_true, if_false]
  rw [hdrop, hneg, strtoul_digits ds ('.' :: fs) hdig (by simp [not_is_digit_point])]
  simp only [List.drop_succ_cons, List.drop_zero]
  have := strtoul_digits fs [] hfdig (by simp)
  rw [List.append_nil] at this
  rw [this]

/-- C13: for a string in the format with integer part I and fraction F such
that 10000 I + F is below 2^32, `to_int_decimal_shift<uint32_t>` returns
10000 I + F without a leading `'-'`, and (2^32 - (10000 I + F)) mod 2^32 with
one. -/
theorem to_int_decimal_shift_value (int_digits frac_digits : List Char)
    (hne : int_digits ≠ []) (hdig : ∀ c ∈ int_digits, c.isDigit = true)
    (hlen : frac_digits.length = 4) (hfdig : ∀ c ∈ frac_digits, c.isDigit = true)
    (hbound : 10000 * decimal_value int_digits + decimal_value frac_digits < 4294967296) :
    to_int_decimal_shift (int_digits ++ '.' :: frac_digits) =
        .ok (10000 * decimal_value int_digits + decimal_value frac_digits) ∧
      to_int_decimal_shift ('-' :: int_digits ++ '.' :: frac_digits) =
        .ok ((4294967296 - (10000 * decimal_value int_digits + decimal_value frac_digits))
          % 4294967296) := by
  simp only [← is_digit_eq] at hdig hfdig
  have hI : min (decimal_value int_digits) ulong_max = decimal_value int_digits := by
    unfold ulong_max
    omega
  have hF : min (decimal_value frac_digits) ulong_max = decimal_value frac_digits := by
    unfold ulong_max
    omega
  have h1 := to_int_decimal_shift_of_format [] int_digits frac_digits (Or.inl rfl) hne hdig
    hlen hfdig
  have h2 := to_int_decimal_shift_of_format ['-'] int_digits frac_digits (Or.inr rfl) hne hdig
    hlen hfdig
  rw [hI, hF] at h1 h2
  constructor
  · rw [List.nil_append] at h1
    rw [h1]
    simp only [beq_iff_eq, List.nil_eq, reduceCtorEq, if_false]
    congr 1
    omega
  · rw [show '-' :: int_digits ++ '.' :: frac_digits =
      ['-'] ++ int_digits ++ '.' :: frac_digits from rfl, h2]
    simp only [beq_self_eq_true, if_true]
    congr 1
    omega

/-! ## C14, C15, C16: `get_line` -/

theorem number_format_iff (s : List Char) : number_format s ↔ is_valid_number s = true := by
  rw [is_valid_number_iff]
  unfold number_format
  simp only [is_digit_eq]

theorem takeWhile_digits (ds rest : List Char) (hdig : ∀ c ∈ ds, is_digit c = true) :
    (ds ++ '.' :: rest).takeWhile (fun c => c != '.') = ds ∧
      (ds ++ '.' :: rest).dropWhile (fun c => c != '.') = '.' :: rest := by
  induction ds with
  | nil => simp
  | cons c tl ih =>
    have hc : c ≠ '.' := by
      intro h
      have := hdig c (by simp)
      rw [h, not_is_digit_point] at this
      exact absurd this (by simp)
    obtain ⟨h1, h2⟩ := ih (fun x hx => hdig x (List.mem_cons_of_mem _ hx))
    constructor
    · rw [List.cons_append, List.takeWhile_cons_of_pos (by simpa using hc), h1]
    · rw [List.cons_append, List.dropWhile_cons_of_pos (by simpa using hc), h2]

/-- The parts of a string in the format are its integer and fraction
digits. -/
theorem parts_of_format (sign ds fs : List Char) (hsign : sign = [] ∨ sign = ['-'])
    (hne : ds ≠ []) (hdig : ∀ c ∈ ds, is_digit c = true) :
    integer_digits (sign ++ ds ++ '.' :: fs) = ds ∧
      fraction_digits (sign ++ ds ++ '.' :: fs) = fs ∧
      ((sign ++ ds ++ '.' :: fs).head? == some '-') = (sign == ['-']) := by
  obtain ⟨hneg, hdrop⟩ := drop_sign sign ds ('.' :: fs) hsign hne hdig
  have hbody : (if (sign ++ ds ++ '.' :: fs).head? == some '-'
      then (sign ++ ds ++ '.' :: fs).drop 1 else sign ++ ds ++ '.' :: fs) = ds ++ '.' :: fs := by
    rcases hsign with rfl | rfl
    · rw [hneg]
      rfl
    · rfl
  obtain ⟨h1, h2⟩ := takeWhile_digits ds fs hdig
  unfold integer_digits fraction_digits
  rw [hbody, h1, h2]
  exact ⟨rfl, rfl, hneg⟩

theorem decimal_value_four (fs : List Char) (hlen : fs.length = 4)
    (hfdig : ∀ c ∈ fs, is_digit c = true) : decimal_value fs ≤ 9999 := by
  match fs, hlen with
  | [a, b, c, d], _ =>
    have ha := digit_value_le a (hfdig a (by simp))
    have hb := digit_value_le b (hfdig b (by simp))
    have hc := digit_value_le c (hfdig c (by simp))
    have hd := digit_value_le d (hfdig d (by simp))
    simp only [decimal_value, List.foldl_cons, List.foldl_nil]
    omega

/-- On a valid number whose integer part does not make `strtoul` saturate,
`to_int_decimal_shift` returns the scaled value modulo 2^32. -/
theorem to_int_decimal_shift_scaled (s : List Char) (hvalid : is_valid_number s = true)
    (hsat : decimal_value (integer_digits s) ≤ ulong_max) :
    ∃ v, to_int_decimal_shift s = .ok v ∧ (v : Int) = scaled_value s % 4294967296 := by
  obtain ⟨sign, ds, fs, rfl, hsign, hne, hdig, hlen, hfdig⟩ := (is_valid_number_iff s).1 hvalid
  obtain ⟨hI, hF, hneg⟩ := parts_of_format sign ds fs hsign hne hdig
  have hF4 := decimal_value_four fs hlen hfdig
  rw [hI] at hsat
  refine ⟨_, to_int_decimal_shift_of_format sign ds fs hsign hne hdig hlen hfdig, ?_⟩
  unfold scaled_value
  rw [hI, hF, hneg]
  have hmin : min (decimal_value ds) ulong_max = decimal_value ds := by omega
  have hminF : min (decimal_value fs) ulong_max = decimal_value fs := by
    unfold ulong_max
    omega
  rw [hmin, hminF]
  rcases hsign with rfl | rfl
  · simp only [beq_iff_eq, List.nil_eq, reduceCtorEq, if_false]
    omega
  · simp only [beq_self_eq_true, if_true]
    omega

theorem find_separator_append (pre rest : List Char) (hpre : ∀ c ∈ pre, c ≠ ',') :
    find_separator (pre ++ ',' :: ' ' :: rest) = some pre.length := by
  induction pre with
  | nil => simp [find_separator]
  | cons c tl ih =>
    have hc : c ≠ ',' := hpre c (by simp)
    rw [List.cons_append, find_separator]
    simp only [beq_iff_eq, hc, false_and, Bool.and_eq_true, if_false]
    rw [ih (fun x hx => hpre x (List.mem_cons_of_mem _ hx))]
    rfl

theorem no_comma_of_valid (s : List Char) (hvalid : is_valid_number s = true) :
    ∀ c ∈ s, c ≠ ',' := by
  obtain ⟨sign, ds, fs, rfl, hsign, _, hdig, _, hfdig⟩ := (is_valid_number_iff s).1 hvalid
  have hd : ∀ c, is_digit c = true → c ≠ ',' := by
    intro c hc h
    rw [h] at hc
    exact absurd hc (by decide)
  intro c hc
  simp only [List.mem_append, List.mem_cons] at hc
  rcases hc with (hc | hc) | hc | hc
  · rcases hsign with rfl | rfl
    · simp at hc
    · simp at hc
      rw [hc]
      decide
  · exact hd c (hdig c hc)
  · rw [hc]
    decide
  · exact hd c (hfdig c hc)

/-- The two strings `get_line` cuts out of a transform of the form
`translate(` dx `, ` dy, one more character. -/
theorem get_line_of_translate (node : line_node) (dx dy : List Char) (last : Char)
    (ht : node.transform = translate_str ++ dx ++ ',' :: ' ' :: (dy ++ [last]))
    (hdx : ∀ c ∈ dx, c ≠ ',') :
    get_line node = translated_line dx dy node.x1 node.y1 node.x2 node.y2 := by
  have hbegins : begins_by node.transform translate_str = true := by
    unfold begins_by
    rw [ht, List.append_assoc]
    exact List.isPrefixOf_iff_prefix.2 (List.prefix_append _ _)
  have hpre : ∀ c ∈ translate_str ++ dx, c ≠ ',' := by
    intro c hc
    rcases List.mem_append.1 hc with h | h
    · have hall : ∀ x ∈ translate_str, x ≠ ',' := by decide
      exact hall c h
    · exact hdx c h
  have hsep := find_separator_append (translate_str ++ dx) (dy ++ [last]) hpre
  rw [← ht] at hsep
  have hlen : node.transform.length = translate_str.length + dx.length + 2 + dy.length + 1 := by
    rw [ht]
    simp only [List.length_append, List.length_cons, List.length_nil]
    omega
  have hx : (node.transform.take (translate_str ++ dx).length).drop translate_str.length = dx := by
    rw [ht, List.take_left, List.drop_left]
  have hy : (node.transform.take (node.transform.length - 1)).drop
      ((translate_str ++ dx).length + 2) = dy := by
    have h1 : node.transform = (translate_str ++ dx ++ [',', ' '] ++ dy) ++ [last] := by
      rw [ht]
      simp
    have h2 : node.transform.length - 1 = (translate_str ++ dx ++ [',', ' '] ++ dy).length := by
      rw [hlen]
      simp only [List.length_append, List.length_cons, List.length_nil]
      omega
    rw [h2]
    conv => lhs; rw [h1]
    rw [List.take_left]
    have h3 : (translate_str ++ dx).length + 2 = (translate_str ++ dx ++ [',', ' ']).length := by
      simp only [List.length_append, List.length_cons, List.length_nil]
    rw [h3, List.drop_left]
  unfold get_line
  simp only [hbegins, Bool.not_true, Bool.false_eq_true, if_false, hsep]
  rw [if_neg (by rw [hlen]; simp only [List.length_append]; omega), hx, hy]

/-- C14 (as stated, refuted): the raw x1 is 2^64 and the offset -(2^64 - 1),
both valid numbers; the true scaled sum is 10000, inside the range, and
`get_line` returns 0, because `strtoul` saturates on the raw coordinate. -/
theorem get_line_saturated :
    number_format "18446744073709551616.0000".toList ∧
      number_format "-18446744073709551615.0000".toList ∧
      scaled_value "18446744073709551616.0000".toList +
        scaled_value "-18446744073709551615.0000".toList = 10000 ∧
      get_line
        { transform := "translate(-18446744073709551615.0000, 5.0000)".toList,
          x1 := "18446744073709551616.0000".toList, y1 := "2.0000".toList,
          x2 := "18446744073709551617.0000".toList, y2 := "2.0000".toList } =
        .ok { x1 := 0, y1 := 70000, x2 := 0, y2 := 70000 } :=
  ⟨(number_format_iff _).2 rfl, (number_format_iff _).2 rfl, by decide, rfl⟩

/-- C14 (amended): for a line node whose x1, y1, x2, y2 are valid numbers and
whose transform is `translate(` DX `, ` DY `)` with DX and DY valid numbers,
the integer part of each of the six at most `ULONG_MAX`, `get_line` returns
the line whose coordinates are (scaled raw coordinate + scaled offset) modulo
2^32, the scaled values taken with their sign; under
`translate(10.0000, 5.0000)` the offsets are 100000 and 50000. -/
theorem get_line_translate (node : line_node) (dx dy : List Char)
    (ht : node.transform = "translate(".toList ++ dx ++ ", ".toList ++ dy ++ ")".toList)
    (hdx : number_format dx) (hdy : number_format dy)
    (hx1 : number_format node.x1) (hy1 : number_format node.y1)
    (hx2 : number_format node.x2) (hy2 : number_format node.y2)
    (hsat : ∀ s ∈ [dx, dy, node.x1, node.y1, node.x2, node.y2],
      decimal_value (integer_digits s) ≤ ulong_max) :
    ∃ l, get_line node = .ok l ∧
      (l.x1 : Int) = (scaled_value node.x1 + scaled_value dx) % 4294967296 ∧
      (l.y1 : Int) = (scaled_value node.y1 + scaled_value dy) % 4294967296 ∧
      (l.x2 : Int) = (scaled_value node.x2 + scaled_value dx) % 4294967296 ∧
      (l.y2 : Int) = (scaled_value node.y2 + scaled_value dy) % 4294967296 ∧
      (dx = "10.0000".toList → dy = "5.0000".toList →
        (l.x1 : Int) = (scaled_value node.x1 + 100000) % 4294967296 ∧
        (l.y1 : Int) = (scaled_value node.y1 + 50000) % 4294967296 ∧
        (l.x2 : Int) = (scaled_value node.x2 + 100000) % 4294967296 ∧
        (l.y2 : Int) = (scaled_value node.y2 + 50000) % 4294967296) := by
  rw [number_format_iff] at hdx hdy hx1 hy1 hx2 hy2
  have ht2 : node.transform = translate_str ++ dx ++ ',' :: ' ' :: (dy ++ [')']) := by
    rw [ht]
    simp [translate_str]
  obtain ⟨vdx, hvdx, hedx⟩ := to_int_decimal_shift_scaled dx hdx (hsat dx (by simp))
  obtain ⟨vdy, hvdy, hedy⟩ := to_int_decimal_shift_scaled dy hdy (hsat dy (by simp))
  obtain ⟨vx1, hvx1, hex1⟩ := to_int_decimal_shift_scaled node.x1 hx1 (hsat _ (by simp))
  obtain ⟨vy1, hvy1, hey1⟩ := to_int_decimal_shift_scaled node.y1 hy1 (hsat _ (by simp))
  obtain ⟨vx2, hvx2, hex2⟩ := to_int_decimal_shift_scaled node.x2 hx2 (hsat _ (by simp))
  obtain ⟨vy2, hvy2, hey2⟩ := to_int_decimal_shift_scaled node.y2 hy2 (hsat _ (by simp))
  have hget := get_line_of_translate node dx dy ')' ht2 (no_comma_of_valid dx hdx)
  unfold translated_line at hget
  rw [hvdx, hvdy, hvx1, hvy1, hvx2, hvy2] at hget
  refine ⟨_, hget, by dsimp only; omega, by dsimp only; omega, by dsimp only; omega,
    by dsimp only; omega, ?_⟩
  intro h1 h2
  have s1 : scaled_value dx = 100000 := by rw [h1]; decide
  have s2 : scaled_value dy = 50000 := by rw [h2]; decide
  rw [s1] at hedx
  rw [s2] at hedy
  exact ⟨by dsimp only; omega, by dsimp only; omega, by dsimp only; omega,
    by dsimp only; omega⟩

/-- C15 (as stated, refuted): a node with valid coordinates and no transform
makes `get_line` raise instead of returning the scaled coordinates. -/
theorem get_line_without_transform :
    get_line
      { transform := [], x1 := "1.5000".toList, y1 := "2.0000".toList,
        x2 := "3.0000".toList, y2 := "2.0000".toList } = .error .no_translate := by
  rfl

/-- C15 (amended): for every line node that has no transform (an absent or
empty attribute), whatever its x1, y1, x2 and y2, `get_line` raises the error
that the line must have a translate transformation. -/
theorem get_line_no_transform (node : line_node) (h : node.transform = []) :
    get_line node = .error .no_translate := by
  unfold get_line
  rw [h]
  rfl

/-- C16 (as stated, refuted): with valid coordinates, `get_line` accepts the
transform `translate(14.2264, 33.0230]`, whose last character is not `)`, and
returns the same line as for `translate(14.2264, 33.0230)`; on
`translate(14.2264, ` it builds a string from an iterator past the end one;
on `translate(14.2264, 33.0230[dd` it raises. -/
theorem get_line_last_character :
    get_line
        { transform := "translate(14.2264, 33.0230]".toList,
          x1 := "1.5000".toList, y1 := "2.0000".toList,
          x2 := "3.0000".toList, y2 := "2.0000".toList } =
        .ok { x1 := 157264, y1 := 350230, x2 := 172264, y2 := 350230 } ∧
      get_line
        { transform := "translate(14.2264, 33.0230)".toList,
          x1 := "1.5000".toList, y1 := "2.0000".toList,
          x2 := "3.0000".toList, y2 := "2.0000".toList } =
        .ok { x1 := 157264, y1 := 350230, x2 := 172264, y2 := 350230 } ∧
      get_line
        { transform := "translate(14.2264, ".toList,
          x1 := "1.5000".toList, y1 := "2.0000".toList,
          x2 := "3.0000".toList, y2 := "2.0000".toList } = .error .invalid_range ∧
      get_line
        { transform := "translate(14.2264, 33.0230[dd".toList,
          x1 := "1.5000".toList, y1 := "2.0000".toList,
          x2 := "3.0000".toList, y2 := "2.0000".toList } = .error .invalid_number :=
  ⟨rfl, rfl, rfl, rfl⟩

theorem find_separator_some (t : List Char) :
    ∀ sep, find_separator t = some sep →
      t.drop sep = ',' :: ' ' :: t.drop (sep + 2) ∧ sep + 2 ≤ t.length := by
  induction t with
  | nil => intro sep h; simp [find_separator] at h
  | cons c rest ih =>
    intro sep h
    unfold find_separator at h
    by_cases hc : (c == ',' && rest.head? == some ' ') = true
    · rw [if_pos hc] at h
      injection h with h
      subst h
      simp only [Bool.and_eq_true, beq_iff_eq] at hc
      cases rest with
      | nil => simp at hc
      | cons d tl =>
        simp at hc
        rw [hc.1, hc.2]
        simp
    · rw [if_neg hc] at h
      cases hr : find_separator rest with
      | none => simp [hr] at h
      | some sep2 =>
        simp [hr] at h
        subst h
        obtain ⟨h1, h2⟩ := ih sep2 hr
        exact ⟨by simpa using h1, by simp; omega⟩

theorem to_int_decimal_shift_error (s : List Char) (e : svg_error)
    (h : to_int_decimal_shift s = .error e) : e = .invalid_number := by
  unfold to_int_decimal_shift at h
  cases hv : is_valid_number s with
  | true => simp [hv] at h
  | false =>
    simp [hv] at h
    exact h.symm

theorem to_int_decimal_shift_ok (s : List Char) :
    (∃ v, to_int_decimal_shift s = .ok v) ↔ is_valid_number s = true := by
  unfold to_int_decimal_shift
  cases is_valid_number s <;> simp

theorem translated_line_error (x_tr y_tr x1 y1 x2 y2 : List Char) (e : svg_error)
    (h : translated_line x_tr y_tr x1 y1 x2 y2 = .error e) : e = .invalid_number := by
  unfold translated_line at h
  split at h
  · rename_i e1 h1
    injection h with h
    subst h
    exact to_int_decimal_shift_error _ _ h1
  · split at h
    · rename_i e2 h2
      injection h with h
      subst h
      exact to_int_decimal_shift_error _ _ h2
    · split at h
      · exact absurd h (by simp)
      · injection h with h
        exact h.symm

theorem translated_line_ok_iff (x_tr y_tr x1 y1 x2 y2 : List Char) :
    (∃ l, translated_line x_tr y_tr x1 y1 x2 y2 = .ok l) ↔
      is_valid_number x_tr = true ∧ is_valid_number y_tr = true ∧
        is_valid_number x1 = true ∧ is_valid_number y1 = true ∧
        is_valid_number x2 = true ∧ is_valid_number y2 = true := by
  simp only [← to_int_decimal_shift_ok]
  constructor
  · rintro ⟨l, h⟩
    unfold translated_line at h
    split at h
    · exact absurd h (by simp)
    · rename_i vx hx
      split at h
      · exact absurd h (by simp)
      · rename_i vy hy
        split at h
        · rename_i a b c d ha hb hc hd
          exact ⟨⟨_, hx⟩, ⟨_, hy⟩, ⟨_, ha⟩, ⟨_, hb⟩, ⟨_, hc⟩, ⟨_, hd⟩⟩
        · exact absurd h (by simp)
  · rintro ⟨⟨vx, hx⟩, ⟨vy, hy⟩, ⟨a, ha⟩, ⟨b, hb⟩, ⟨c, hc⟩, ⟨d, hd⟩⟩
    unfold translated_line
    rw [hx, hy, ha, hb, hc, hd]
    exact ⟨_, rfl⟩

/-- How `get_line` ends, by the tests it makes on the transform. -/
theorem get_line_cases (node : line_node) :
    get_line node = .error .no_translate ∨ get_line node = .error .no_separator ∨
      (∃ sep, find_separator node.transform = some sep ∧
        node.transform.length - 1 < sep + 2 ∧ get_line node = .error .invalid_range) ∨
      (∃ sep, begins_by node.transform translate_str = true ∧
        find_separator node.transform = some sep ∧ sep + 2 ≤ node.transform.length - 1 ∧
        get_line node = translated_line
          ((node.transform.take sep).drop translate_str.length)
          ((node.transform.take (node.transform.length - 1)).drop (sep + 2))
          node.x1 node.y1 node.x2 node.y2) := by
  unfold get_line
  cases hb : begins_by node.transform translate_str with
  | false => left; rfl
  | true =>
    simp only [Bool.not_true, Bool.false_eq_true, if_false]
    cases hs : find_separator node.transform with
    | none => right; left; rfl
    | some sep =>
      simp only []
      by_cases hr : node.transform.length - 1 < sep + 2
      · right; right; left
        exact ⟨sep, rfl, hr, by rw [if_pos hr]⟩
      · right; right; right
        exact ⟨sep, by trivial, rfl, by omega, by rw [if_neg hr]⟩

/-- The transform cut at the places `get_line` cuts it. -/
theorem transform_split (t : List Char) (sep : Nat)
    (hb : begins_by t translate_str = true) (hs : find_separator t = some sep)
    (hr : sep + 2 ≤ t.length - 1) :
    ∃ last, t = translate_str ++ (t.take sep).drop translate_str.length ++
      ',' :: ' ' :: ((t.take (t.length - 1)).drop (sep + 2) ++ [last]) := by
  obtain ⟨hdrop, hlen⟩ := find_separator_some t sep hs
  have htake : t.take translate_str.length = translate_str := by
    unfold begins_by at hb
    exact ((List.prefix_iff_eq_take).1 (List.isPrefixOf_iff_prefix.1 hb)).symm
  -- the separator is after the prefix
  have hsep : translate_str.length ≤ sep := by
    by_contra hlt
    have h1 : t[sep]? = some ',' := by
      have := congrArg (fun l => l[0]?) hdrop
      simpa using this
    have h2 : (t.take translate_str.length)[sep]? = some ',' := by
      rw [List.getElem?_take_of_lt (by omega)]
      exact h1
    rw [htake] at h2
    have hall : ∀ x ∈ translate_str, x ≠ ',' := by decide
    exact hall _ (List.getElem?_mem h2) rfl
  have hrest : t.drop (sep + 2) ≠ [] := by
    intro h
    have := congrArg List.length h
    simp at this
    omega
  refine ⟨(t.drop (sep + 2)).getLast hrest, ?_⟩
  have h1 : (t.take sep).take translate_str.length = translate_str := by
    rw [List.take_take, Nat.min_eq_left hsep, htake]
  have h2 : t.take sep = translate_str ++ (t.take sep).drop translate_str.length := by
    conv => lhs; rw [← List.take_append_drop translate_str.length (t.take sep), h1]
  have h3 : (t.take (t.length - 1)).drop (sep + 2) = (t.drop (sep + 2)).dropLast := by
    rw [List.drop_take, List.dropLast_eq_take, List.length_drop]
    congr 1
    omega
  rw [h3, List.dropLast_append_getLast hrest, ← hdrop, ← h2, List.take_append_drop]

/-- The transforms and coordinates on which `get_line` returns a line:
`translate(`, a valid number, a comma and a space, a valid number and one more
character, with four valid coordinates. -/
theorem get_line_ok_iff (node : line_node) :
    (∃ l, get_line node = .ok l) ↔
      (∃ dx dy last, node.transform = translate_str ++ dx ++ ',' :: ' ' :: (dy ++ [last]) ∧
        is_valid_number dx = true ∧ is_valid_number dy = true) ∧
      is_valid_number node.x1 = true ∧ is_valid_number node.y1 = true ∧
      is_valid_number node.x2 = true ∧ is_valid_number node.y2 = true := by
  constructor
  · rintro ⟨l, h⟩
    rcases get_line_cases node with h1 | h1 | ⟨sep, _, _, h1⟩ | ⟨sep, hb, hs, hr, h1⟩
    · rw [h1] at h; exact absurd h (by simp)
    · rw [h1] at h; exact absurd h (by simp)
    · rw [h1] at h; exact absurd h (by simp)
    · rw [h1] at h
      obtain ⟨hx, hy, c1, c2, c3, c4⟩ := (translated_line_ok_iff _ _ _ _ _ _).1 ⟨l, h⟩
      obtain ⟨last, hsplit⟩ := transform_split node.transform sep hb hs hr
      exact ⟨⟨_, _, last, hsplit, hx, hy⟩, c1, c2, c3, c4⟩
  · rintro ⟨⟨dx, dy, last, ht, hx, hy⟩, c1, c2, c3, c4⟩
    rw [get_line_of_translate node dx dy last ht (no_comma_of_valid dx hx)]
    exact (translated_line_ok_iff _ _ _ _ _ _).2 ⟨hx, hy, c1, c2, c3, c4⟩

/-- C16 (amended): for every transform that is not `translate(` followed by a
valid number, a comma and a space, a valid number and exactly one more
character (which need not be `)`), and whose first comma-space is not the end
of the string, `get_line` raises one of its errors. -/
theorem get_line_malformed (node : line_node)
    (hshape : ¬ ∃ dx dy last,
      node.transform = "translate(".toList ++ dx ++ ", ".toList ++ dy ++ [last] ∧
        number_format dx ∧ number_format dy)
    (hend : ∀ sep, find_separator node.transform = some sep →
      sep + 2 < node.transform.length) :
    get_line node = .error .no_translate ∨ get_line node = .error .no_separator ∨
      get_line node = .error .invalid_number := by
  rcases get_line_cases node with h1 | h1 | ⟨sep, hs, hr, _⟩ | ⟨sep, hb, hs, hr, h1⟩
  · exact Or.inl h1
  · exact Or.inr (Or.inl h1)
  · have := hend sep hs
    omega
  · right; right
    cases hres : get_line node with
    | error e =>
      rw [h1] at hres
      rw [translated_line_error _ _ _ _ _ _ e hres]
    | ok l =>
      exfalso
      apply hshape
      obtain ⟨⟨dx, dy, last, ht, hx, hy⟩, _⟩ := (get_line_ok_iff node).1 ⟨l, hres⟩
      refine ⟨dx, dy, last, ?_, (number_format_iff dx).2 hx, (number_format_iff dy).2 hy⟩
      rw [ht]
      simp [translate_str]

/-! ## C17 to C20: `get_staves` -/

theorem min_element_fold (rest : List h_segment) :
    ∀ s : h_segment,
      (rest.foldl (fun smallest a => if a.y < smallest.y then a else smallest) s) ∈ s :: rest ∧
        ∀ x ∈ s :: rest,
          (rest.foldl (fun smallest a => if a.y < smallest.y then a else smallest) s).y ≤ x.y := by
  induction rest with
  | nil => intro s; simp
  | cons a tl ih =>
    intro s
    rw [List.foldl_cons]
    have hinit : (if a.y < s.y then a else s).y ≤ s.y ∧ (if a.y < s.y then a else s).y ≤ a.y ∧
        ((if a.y < s.y then a else s) = a ∨ (if a.y < s.y then a else s) = s) := by
      by_cases hlt : a.y < s.y
      · rw [if_pos hlt]; exact ⟨by omega, le_refl _, Or.inl rfl⟩
      · rw [if_neg hlt]; exact ⟨le_refl _, by omega, Or.inr rfl⟩
    obtain ⟨hmem, hle⟩ := ih (if a.y < s.y then a else s)
    generalize (if a.y < s.y then a else s) = init at hinit hmem hle ⊢
    have h0 := hle init (by simp)
    constructor
    · rcases List.mem_cons.1 hmem with h | h
      · rw [h]
        rcases hinit.2.2 with h2 | h2 <;> simp [h2]
      · exact List.mem_cons_of_mem _ (List.mem_cons_of_mem _ h)
    · intro x hx
      rcases List.mem_cons.1 hx with h | hx
      · rw [h]; omega
      · rcases List.mem_cons.1 hx with h | hx
        · rw [h]; omega
        · exact hle x (List.mem_cons_of_mem _ hx)

theorem max_element_fold (rest : List h_segment) :
    ∀ s : h_segment,
      (rest.foldl (fun largest a => if largest.y < a.y then a else largest) s) ∈ s :: rest ∧
        ∀ x ∈ s :: rest,
          x.y ≤ (rest.foldl (fun largest a => if largest.y < a.y then a else largest) s).y := by
  induction rest with
  | nil => intro s; simp
  | cons a tl ih =>
    intro s
    rw [List.foldl_cons]
    have hinit : s.y ≤ (if s.y < a.y then a else s).y ∧ a.y ≤ (if s.y < a.y then a else s).y ∧
        ((if s.y < a.y then a else s) = a ∨ (if s.y < a.y then a else s) = s) := by
      by_cases hlt : s.y < a.y
      · rw [if_pos hlt]; exact ⟨by omega, le_refl _, Or.inl rfl⟩
      · rw [if_neg hlt]; exact ⟨le_refl _, by omega, Or.inr rfl⟩
    obtain ⟨hmem, hle⟩ := ih (if s.y < a.y then a else s)
    generalize (if s.y < a.y then a else s) = init at hinit hmem hle ⊢
    have h0 := hle init (by simp)
    constructor
    · rcases List.mem_cons.1 hmem with h | h
      · rw [h]
        rcases hinit.2.2 with h2 | h2 <;> simp [h2]
      · exact List.mem_cons_of_mem _ (List.mem_cons_of_mem _ h)
    · intro x hx
      rcases List.mem_cons.1 hx with h | hx
      · rw [h]; omega
      · rcases List.mem_cons.1 hx with h | hx
        · rw [h]; omega
        · exact hle x (List.mem_cons_of_mem _ hx)

/-- The element `std::min_element` returns is in the list and of least `y`;
it returns `end` only on the empty list. -/
theorem min_element_spec (l : List h_segment) :
    (min_element l = none ↔ l = []) ∧
      ∀ m, min_element l = some m → m ∈ l ∧ ∀ x ∈ l, m.y ≤ x.y := by
  cases l with
  | nil => simp [min_element]
  | cons s rest =>
    refine ⟨by simp [min_element], ?_⟩
    intro m hm
    unfold min_element at hm
    injection hm with hm
    subst hm
    exact min_element_fold rest s

/-- The element `std::max_element` returns is in the list and of greatest
`y`; it returns `end` only on the empty list. -/
theorem max_element_spec (l : List h_segment) :
    (max_element l = none ↔ l = []) ∧
      ∀ m, max_element l = some m → m ∈ l ∧ ∀ x ∈ l, x.y ≤ m.y := by
  cases l with
  | nil => simp [max_element]
  | cons s rest =>
    refine ⟨by simp [max_element], ?_⟩
    intro m hm
    unfold max_element at hm
    injection hm with hm
    subst hm
    exact max_element_fold rest s

theorem mem_filter_segments (vec : List h_segment) (min_left max_right : Nat) (s : h_segment) :
    s ∈ filter_segments vec min_left max_right ↔
      s ∈ vec ∧ min_left ≤ s.x1 ∧ s.x2 ≤ max_right := by
  unfold filter_segments
  simp [List.mem_filter]

/-- What the body of the loop returns when it does not throw. -/
theorem staff_of_ok (r : rect) (t b : skyline) (st : staff) (h : staff_of r t b = .ok st) :
    ∃ mt mb, min_element (filter_segments t.full_line r.left r.right) = some mt ∧
      max_element (filter_segments b.full_line r.left r.right) = some mb ∧
      st = { x := r.left, y := r.top, width := sub_u32 r.right r.left,
             height := sub_u32 r.bottom r.top, top_skyline := mt.y, bottom_skyline := mb.y,
             full_top_skyline := filter_segments t.full_line r.left r.right,
             full_bottom_skyline := filter_segments b.full_line r.left r.right } := by
  unfold staff_of at h
  dsimp only at h
  split at h
  · rename_i mt mb hmt hmb
    injection h with h
    exact ⟨mt, mb, hmt, hmb, h.symm⟩
  · exact absurd h (by simp)

/-- The body of the loop succeeds exactly when both filtered skylines have a
segment. -/
theorem staff_of_ok_iff (r : rect) (t b : skyline) :
    (∃ st, staff_of r t b = .ok st) ↔
      filter_segments t.full_line r.left r.right ≠ [] ∧
        filter_segments b.full_line r.left r.right ≠ [] := by
  constructor
  · rintro ⟨st, h⟩
    obtain ⟨mt, mb, hmt, hmb, _⟩ := staff_of_ok r t b st h
    constructor
    · intro hnil
      rw [(min_element_spec _).1.2 hnil] at hmt
      exact absurd hmt (by simp)
    · intro hnil
      rw [(max_element_spec _).1.2 hnil] at hmb
      exact absurd hmb (by simp)
  · rintro ⟨h1, h2⟩
    unfold staff_of
    dsimp only
    cases hmt : min_element (filter_segments t.full_line r.left r.right) with
    | none => exact absurd ((min_element_spec _).1.1 hmt) h1
    | some mt =>
      cases hmb : max_element (filter_segments b.full_line r.left r.right) with
      | none => exact absurd ((max_element_spec _).1.1 hmb) h2
      | some mb => exact ⟨_, rfl⟩

/-- The loop succeeds exactly when its body does at every index, and returns
the staves of the bodies in order. -/
theorem staves_of_ok_iff (rs : List rect) :
    ∀ (ts bs : List skyline) (out : List staff), ts.length = rs.length →
      bs.length = rs.length →
      (staves_of rs ts bs = .ok out ↔
        out.length = rs.length ∧
          ∀ (i : Nat) (r : rect) (t b : skyline), rs[i]? = some r → ts[i]? = some t →
            bs[i]? = some b → ∃ st, out[i]? = some st ∧ staff_of r t b = .ok st) := by
  induction rs with
  | nil =>
    intro ts bs out _ _
    unfold staves_of
    constructor
    · intro h
      injection h with h
      subst h
      exact ⟨rfl, fun i r t b hr => by simp at hr⟩
    · rintro ⟨hlen, _⟩
      rw [List.length_nil, List.length_eq_zero] at hlen
      rw [hlen]
  | cons r rs ih =>
    intro ts bs out hts hbs
    cases ts with
    | nil => simp at hts
    | cons t ts =>
      cases bs with
      | nil => simp at hbs
      | cons b bs =>
        have hts2 : ts.length = rs.length := by simpa using hts
        have hbs2 : bs.length = rs.length := by simpa using hbs
        unfold staves_of
        constructor
        · intro h
          cases hst : staff_of r t b with
          | error e => rw [hst] at h; exact absurd h (by simp)
          | ok st =>
            rw [hst] at h
            dsimp only at h
            cases hrest : staves_of rs ts bs with
            | error e => rw [hrest] at h; exact absurd h (by simp)
            | ok res =>
              rw [hrest] at h
              dsimp only at h
              injection h with h
              subst h
              obtain ⟨hlen, hidx⟩ := (ih ts bs res hts2 hbs2).1 hrest
              refine ⟨by simp [hlen], ?_⟩
              intro i r2 t2 b2 hr ht hb
              cases i with
              | zero =>
                simp at hr ht hb
                subst hr ht hb
                exact ⟨st, by simp, hst⟩
              | succ i =>
                simp at hr ht hb
                obtain ⟨st2, h1, h2⟩ := hidx i r2 t2 b2 hr ht hb
                exact ⟨st2, by simpa using h1, h2⟩
        · rintro ⟨hlen, hidx⟩
          obtain ⟨st, hst0, hst⟩ := hidx 0 r t b (by simp) (by simp) (by simp)
          cases out with
          | nil => simp at hst0
          | cons o res =>
            simp at hst0
            subst hst0
            have hrest := (ih ts bs res hts2 hbs2).2 ⟨by simpa using hlen, by
              intro i r2 t2 b2 hr ht hb
              obtain ⟨st2, h1, h2⟩ := hidx (i + 1) r2 t2 b2 (by simpa using hr)
                (by simpa using ht) (by simpa using hb)
              exact ⟨st2, by simpa using h1, h2⟩⟩
            rw [hst]
            dsimp only
            rw [hrest]

/-- The successful runs of `get_staves`. -/
theorem get_staves_ok_iff (staves : List rect) (top bottom : List skyline) (out : List staff) :
    get_staves staves top bottom = .ok out ↔
      top.length = staves.length ∧ bottom.length = staves.length ∧
        out.length = staves.length ∧
        ∀ (i : Nat) (r : rect) (t b : skyline), staves[i]? = some r → top[i]? = some t →
          bottom[i]? = some b → ∃ st, out[i]? = some st ∧ staff_of r t b = .ok st := by
  unfold get_staves
  by_cases hb : bottom.length = staves.length
  · by_cases ht : top.length = staves.length
    · simp only [hb, ht, bne_self_eq_false, Bool.false_eq_true, if_false, true_and]
      exact staves_of_ok_iff staves top bottom out ht hb
    · simp [hb, ht]
  · simp [hb]

theorem staves_of_succeeds (rs : List rect) :
    ∀ (ts bs : List skyline), ts.length = rs.length → bs.length = rs.length →
      (∀ (i : Nat) (r : rect) (t b : skyline), rs[i]? = some r → ts[i]? = some t →
        bs[i]? = some b → ∃ st, staff_of r t b = .ok st) →
      ∃ out, staves_of rs ts bs = .ok out := by
  induction rs with
  | nil => intro ts bs _ _ _; exact ⟨[], by unfold staves_of; rfl⟩
  | cons r rs ih =>
    intro ts bs hts hbs hall
    cases ts with
    | nil => simp at hts
    | cons t ts =>
      cases bs with
      | nil => simp at hbs
      | cons b bs =>
        obtain ⟨st, hst⟩ := hall 0 r t b (by simp) (by simp) (by simp)
        obtain ⟨res, hres⟩ := ih ts bs (by simpa using hts) (by simpa using hbs)
          (fun i r2 t2 b2 hr ht hb => hall (i + 1) r2 t2 b2 (by simpa using hr)
            (by simpa using ht) (by simpa using hb))
        refine ⟨st :: res, ?_⟩
        unfold staves_of
        rw [hst]
        dsimp only
        rw [hres]

theorem filter_segments_ne_nil (vec : List h_segment) (min_left max_right : Nat) :
    filter_segments vec min_left max_right ≠ [] ↔
      ∃ s ∈ vec, s.x1 ≥ min_left ∧ s.x2 ≤ max_right := by
  constructor
  · intro h
    obtain ⟨s, hs⟩ := List.exists_mem_of_ne_nil _ h
    exact ⟨s, ((mem_filter_segments _ _ _ s).1 hs).1, ((mem_filter_segments _ _ _ s).1 hs).2⟩
  · rintro ⟨s, hs, h1, h2⟩ hnil
    have := (mem_filter_segments vec min_left max_right s).2 ⟨hs, h1, h2⟩
    rw [hnil] at this
    exact absurd this (by simp)

/-- C17: the assembly of `get_staves` succeeds exactly when the three lists
have the same length and, at every index, both skylines have a segment with
x1 at least the left and x2 at most the right of the staff rect; on success
it returns one staff for each rect, in the order of the rects. -/
theorem get_staves_succeeds_iff (staves : List rect) (top bottom : List skyline) :
    ((∃ out, get_staves staves top bottom = .ok out) ↔
      top.length = staves.length ∧ bottom.length = staves.length ∧
        ∀ (i : Nat) (r : rect) (t b : skyline), staves[i]? = some r → top[i]? = some t →
          bottom[i]? = some b →
          (∃ s ∈ t.full_line, s.x1 ≥ r.left ∧ s.x2 ≤ r.right) ∧
            (∃ s ∈ b.full_line, s.x1 ≥ r.left ∧ s.x2 ≤ r.right)) ∧
    (∀ out, get_staves staves top bottom = .ok out →
      out.length = staves.length ∧
        ∀ (i : Nat) (r : rect), staves[i]? = some r →
          ∃ st, out[i]? = some st ∧ st.x = r.left ∧ st.y = r.top ∧
            st.width = sub_u32 r.right r.left ∧ st.height = sub_u32 r.bottom r.top) := by
  constructor
  · constructor
    · rintro ⟨out, h⟩
      obtain ⟨ht, hb, _, hidx⟩ := (get_staves_ok_iff staves top bottom out).1 h
      refine ⟨ht, hb, ?_⟩
      intro i r t b hr htt hbb
      obtain ⟨st, _, hst⟩ := hidx i r t b hr htt hbb
      have := (staff_of_ok_iff r t b).1 ⟨st, hst⟩
      exact ⟨(filter_segments_ne_nil _ _ _).1 this.1, (filter_segments_ne_nil _ _ _).1 this.2⟩
    · rintro ⟨ht, hb, hall⟩
      have := staves_of_succeeds staves top bottom ht hb (by
        intro i r t b hr htt hbb
        obtain ⟨h1, h2⟩ := hall i r t b hr htt hbb
        exact (staff_of_ok_iff r t b).2
          ⟨(filter_segments_ne_nil _ _ _).2 h1, (filter_segments_ne_nil _ _ _).2 h2⟩)
      unfold get_staves
      simpa [ht, hb] using this
  · intro out h
    obtain ⟨ht, hb, hlen, hidx⟩ := (get_staves_ok_iff staves top bottom out).1 h
    refine ⟨hlen, ?_⟩
    intro i r hr
    obtain ⟨hi, _⟩ := List.getElem?_eq_some_iff.1 hr
    obtain ⟨st, hst, hof⟩ := hidx i r top[i] bottom[i] hr
      (List.getElem?_eq_getElem (by omega)) (List.getElem?_eq_getElem (by omega))
    obtain ⟨mt, mb, _, _, heq⟩ := staff_of_ok _ _ _ _ hof
    exact ⟨st, hst, by rw [heq], by rw [heq], by rw [heq], by rw [heq]⟩

/-- C18: for a staff returned by `get_staves` at index i, `top_skyline` is the
least y of the segments of top skyline i that pass the filter,
`bottom_skyline` the greatest y of the segments of bottom skyline i that pass
it, and x, y, width, height are left, top, right - left and bottom - top of
rect i, the differences taken as the code takes them, in `uint32_t`. -/
theorem get_staves_values (staves : List rect) (top bottom : List skyline) (out : List staff)
    (i : Nat) (st : staff) (r : rect) (t b : skyline)
    (h : get_staves staves top bottom = .ok out) (hst : out[i]? = some st)
    (hr : staves[i]? = some r) (ht : top[i]? = some t) (hb : bottom[i]? = some b) :
    (∃ s ∈ t.full_line, r.left ≤ s.x1 ∧ s.x2 ≤ r.right ∧ s.y = st.top_skyline) ∧
    (∀ s ∈ t.full_line, r.left ≤ s.x1 → s.x2 ≤ r.right → st.top_skyline ≤ s.y) ∧
    (∃ s ∈ b.full_line, r.left ≤ s.x1 ∧ s.x2 ≤ r.right ∧ s.y = st.bottom_skyline) ∧
    (∀ s ∈ b.full_line, r.left ≤ s.x1 → s.x2 ≤ r.right → s.y ≤ st.bottom_skyline) ∧
    st.x = r.left ∧ st.y = r.top ∧
    st.width = sub_u32 r.right r.left ∧ st.height = sub_u32 r.bottom r.top ∧
    (r.left ≤ r.right → r.right < 4294967296 → st.width = r.right - r.left) ∧
    (r.top ≤ r.bottom → r.bottom < 4294967296 → st.height = r.bottom - r.top) := by
  obtain ⟨_, _, _, hidx⟩ := (get_staves_ok_iff staves top bottom out).1 h
  obtain ⟨st2, hst2, hof⟩ := hidx i r t b hr ht hb
  rw [hst] at hst2
  injection hst2 with hst2
  subst hst2
  obtain ⟨mt, mb, hmt, hmb, heq⟩ := staff_of_ok _ _ _ _ hof
  obtain ⟨hmt1, hmt2⟩ := (min_element_spec _).2 mt hmt
  obtain ⟨hmb1, hmb2⟩ := (max_element_spec _).2 mb hmb
  rw [mem_filter_segments] at hmt1 hmb1
  subst heq
  refine ⟨⟨mt, hmt1.1, hmt1.2.1, hmt1.2.2, rfl⟩, ?_, ⟨mb, hmb1.1, hmb1.2.1, hmb1.2.2, rfl⟩, ?_,
    rfl, rfl, rfl, rfl, ?_, ?_⟩
  · intro s hs h1 h2
    exact hmt2 s ((mem_filter_segments _ _ _ s).2 ⟨hs, h1, h2⟩)
  · intro s hs h1 h2
    exact hmb2 s ((mem_filter_segments _ _ _ s).2 ⟨hs, h1, h2⟩)
  · intro h1 h2
    show sub_u32 r.right r.left = _
    unfold sub_u32
    omega
  · intro h1 h2
    show sub_u32 r.bottom r.top = _
    unfold sub_u32
    omega

/-- C19 (as stated, refuted): `get_staves` succeeds on a staff whose top
skyline segments are at y = 100 and whose bottom skyline segments are at
y = 50, and returns `top_skyline` 100 above `bottom_skyline` 50. -/
theorem get_staves_inverted_skylines :
    get_staves [{ top := 10, bottom := 50, left := 0, right := 100 }]
        [{ surface := { top := 100, bottom := 100, left := 0, right := 10 },
           full_line := [⟨0, 10, 100⟩] }]
        [{ surface := { top := 50, bottom := 50, left := 0, right := 10 },
           full_line := [⟨0, 10, 50⟩] }] =
      .ok [{ x := 0, y := 10, width := 100, height := 40, top_skyline := 100,
             bottom_skyline := 50, full_top_skyline := [⟨0, 10, 100⟩],
             full_bottom_skyline := [⟨0, 10, 50⟩] }] ∧
      ¬ (100 : Nat) ≤ 50 :=
  ⟨rfl, by decide⟩

/-- C19 (amended): for a staff returned by `get_staves` at index i,
`top_skyline` is at most `bottom_skyline` exactly when some segment of top
skyline i that passes the filter has a y at most the y of some segment of
bottom skyline i that passes the filter. -/
theorem get_staves_skyline_order (staves : List rect) (top bottom : List skyline)
    (out : List staff) (i : Nat) (st : staff) (r : rect) (t b : skyline)
    (h : get_staves staves top bottom = .ok out) (hst : out[i]? = some st)
    (hr : staves[i]? = some r) (ht : top[i]? = some t) (hb : bottom[i]? = some b) :
    st.top_skyline ≤ st.bottom_skyline ↔
      ∃ s ∈ t.full_line, ∃ s2 ∈ b.full_line, r.left ≤ s.x1 ∧ s.x2 ≤ r.right ∧
        r.left ≤ s2.x1 ∧ s2.x2 ≤ r.right ∧ s.y ≤ s2.y := by
  obtain ⟨_, _, _, hidx⟩ := (get_staves_ok_iff staves top bottom out).1 h
  obtain ⟨st2, hst2, hof⟩ := hidx i r t b hr ht hb
  rw [hst] at hst2
  injection hst2 with hst2
  subst hst2
  obtain ⟨mt, mb, hmt, hmb, heq⟩ := staff_of_ok _ _ _ _ hof
  obtain ⟨hmt1, hmt2⟩ := (min_element_spec _).2 mt hmt
  obtain ⟨hmb1, hmb2⟩ := (max_element_spec _).2 mb hmb
  rw [mem_filter_segments] at hmt1 hmb1
  subst heq
  constructor
  · intro hle
    exact ⟨mt, hmt1.1, mb, hmb1.1, hmt1.2.1, hmt1.2.2, hmb1.2.1, hmb1.2.2, hle⟩
  · rintro ⟨s, hs, s2, hs2, h1, h2, h3, h4, hle⟩
    have a1 := hmt2 s ((mem_filter_segments _ _ _ s).2 ⟨hs, h1, h2⟩)
    have a2 := hmb2 s2 ((mem_filter_segments _ _ _ s2).2 ⟨hs2, h3, h4⟩)
    show mt.y ≤ mb.y
    omega

/-- C20: for a staff returned by `get_staves` at index i, `full_top_skyline`
and `full_bottom_skyline` are the segments of top and bottom skyline i with
left ≤ x1 and x2 ≤ right, in their original order: each kept segment lies
within the staff and no such segment is dropped. -/
theorem get_staves_full_skylines (staves : List rect) (top bottom : List skyline)
    (out : List staff) (i : Nat) (st : staff) (r : rect) (t b : skyline)
    (h : get_staves staves top bottom = .ok out) (hst : out[i]? = some st)
    (hr : staves[i]? = some r) (ht : top[i]? = some t) (hb : bottom[i]? = some b) :
    st.full_top_skyline =
        t.full_line.filter (fun s => decide (r.left ≤ s.x1 ∧ s.x2 ≤ r.right)) ∧
      st.full_bottom_skyline =
        b.full_line.filter (fun s => decide (r.left ≤ s.x1 ∧ s.x2 ≤ r.right)) ∧
      st.full_top_skyline.Sublist t.full_line ∧
      st.full_bottom_skyline.Sublist b.full_line ∧
      (∀ s, s ∈ st.full_top_skyline ↔ s ∈ t.full_line ∧ r.left ≤ s.x1 ∧ s.x2 ≤ r.right) ∧
      (∀ s, s ∈ st.full_bottom_skyline ↔ s ∈ b.full_line ∧ r.left ≤ s.x1 ∧ s.x2 ≤ r.right) := by
  obtain ⟨_, _, _, hidx⟩ := (get_staves_ok_iff staves top bottom out).1 h
  obtain ⟨st2, hst2, hof⟩ := hidx i r t b hr ht hb
  rw [hst] at hst2
  injection hst2 with hst2
  subst hst2
  obtain ⟨mt, mb, _, _, heq⟩ := staff_of_ok _ _ _ _ hof
  subst heq
  have hf : ∀ vec : List h_segment, filter_segments vec r.left r.right =
      vec.filter (fun s => decide (r.left ≤ s.x1 ∧ s.x2 ≤ r.right)) := by
    intro vec
    unfold filter_segments
    congr 1
    funext s
    simp [Bool.decide_and]
  refine ⟨hf _, hf _, ?_, ?_, ?_, ?_⟩
  · exact List.filter_sublist _
  · exact List.filter_sublist _
  · exact fun s => mem_filter_segments _ _ _ s
  · exact fun s => mem_filter_segments _ _ _ s

/-! ## The theorems of `svg_extractor.cc` at concrete inputs -/

theorem get_staves_example :
    get_staves example_rects example_top example_bottom = .ok example_staves := by
  rfl

/-- C11 at two lines of which the second goes from y = 10 to y = 12. -/
theorem get_staves_surface_not_horizontal_example :
    get_staves_surface insertion_sort_lines [⟨0, 0, 100, 0⟩, ⟨0, 10, 100, 12⟩] =
      .error .not_horizontal :=
  get_staves_surface_not_horizontal insertion_sort_lines _ ⟨0, 10, 100, 12⟩ (by decide)
    (by decide)

/-- C13 at the digits 12 and 3456. -/
theorem to_int_decimal_shift_value_example :
    to_int_decimal_shift "12.3456".toList = .ok 123456 ∧
      to_int_decimal_shift "-12.3456".toList = .ok 4294843840 :=
  to_int_decimal_shift_value "12".toList "3456".toList (by decide) (by decide) rfl (by decide)
    (by decide)

/-- C14 (amended) at `example_node`: x1 is -35000 + 100000. -/
theorem get_line_translate_example :
    get_line example_node = .ok { x1 := 65000, y1 := 70000, x2 := 130000, y2 := 70000 } ∧
      ∃ l, get_line example_node = .ok l ∧
        (l.x1 : Int) = (scaled_value example_node.x1 + scaled_value "10.0000".toList)
          % 4294967296 ∧
        (l.y1 : Int) = (scaled_value example_node.y1 + scaled_value "5.0000".toList)
          % 4294967296 ∧
        (l.x2 : Int) = (scaled_value example_node.x2 + scaled_value "10.0000".toList)
          % 4294967296 ∧
        (l.y2 : Int) = (scaled_value example_node.y2 + scaled_value "5.0000".toList)
          % 4294967296 ∧
        ("10.0000".toList = "10.0000".toList → "5.0000".toList = "5.0000".toList →
          (l.x1 : Int) = (scaled_value example_node.x1 + 100000) % 4294967296 ∧
          (l.y1 : Int) = (scaled_value example_node.y1 + 50000) % 4294967296 ∧
          (l.x2 : Int) = (scaled_value example_node.x2 + 100000) % 4294967296 ∧
          (l.y2 : Int) = (scaled_value example_node.y2 + 50000) % 4294967296) :=
  ⟨rfl,
    get_line_translate example_node "10.0000".toList "5.0000".toList rfl
      ((number_format_iff _).2 rfl) ((number_format_iff _).2 rfl)
      ((number_format_iff _).2 rfl) ((number_format_iff _).2 rfl)
      ((number_format_iff _).2 rfl) ((number_format_iff _).2 rfl) (by decide)⟩

/-- C15 (amended) at a node without transform whose coordinates are not even
numbers. -/
theorem get_line_no_transform_example :
    get_line
      { transform := [], x1 := "abc".toList, y1 := [], x2 := "3.0000".toList,
        y2 := "2.0000".toList } = .error .no_translate :=
  get_line_no_transform _ rfl

/-- C16 (amended) at `translate(14.2264, 33.0230[dd`. -/
theorem get_line_malformed_example :
    get_line
        { transform := "translate(14.2264, 33.0230[dd".toList,
          x1 := "1.5000".toList, y1 := "2.0000".toList,
          x2 := "3.0000".toList, y2 := "2.0000".toList } = .error .no_translate ∨
      get_line
        { transform := "translate(14.2264, 33.0230[dd".toList,
          x1 := "1.5000".toList, y1 := "2.0000".toList,
          x2 := "3.0000".toList, y2 := "2.0000".toList } = .error .no_separator ∨
      get_line
        { transform := "translate(14.2264, 33.0230[dd".toList,
          x1 := "1.5000".toList, y1 := "2.0000".toList,
          x2 := "3.0000".toList, y2 := "2.0000".toList } = .error .invalid_number :=
  get_line_malformed _
    (by
      rintro ⟨dx, dy, last, ht, hx, hy⟩
      have hok := (get_line_ok_iff
        { transform := "translate(14.2264, 33.0230[dd".toList,
          x1 := "1.5000".toList, y1 := "2.0000".toList,
          x2 := "3.0000".toList, y2 := "2.0000".toList }).2
        ⟨⟨dx, dy, last, by rw [ht]; simp [translate_str],
          (number_format_iff dx).1 hx, (number_format_iff dy).1 hy⟩, rfl, rfl, rfl, rfl⟩
      obtain ⟨l, hl⟩ := hok
      have herr : get_line
          { transform := "translate(14.2264, 33.0230[dd".toList,
            x1 := "1.5000".toList, y1 := "2.0000".toList,
            x2 := "3.0000".toList, y2 := "2.0000".toList } = .error .invalid_number := rfl
      rw [herr] at hl
      exact absurd hl (by simp))
    (by
      intro sep hsep
      have h17 : find_separator "translate(14.2264, 33.0230[dd".toList = some 17 := rfl
      have : sep = 17 := by
        have h2 : find_separator "translate(14.2264, 33.0230[dd".toList = some sep := hsep
        rw [h17] at h2
        injection h2 with h2
        exact h2.symm
      subst this
      decide)

/-- C17 at the two staves of the example page. -/
theorem get_staves_succeeds_iff_example :
    get_staves example_rects example_top example_bottom = .ok example_staves ∧
      example_staves.length = example_rects.length ∧
      ∀ (i : Nat) (r : rect), example_rects[i]? = some r →
        ∃ st, example_staves[i]? = some st ∧ st.x = r.left ∧ st.y = r.top ∧
          st.width = sub_u32 r.right r.left ∧ st.height = sub_u32 r.bottom r.top :=
  ⟨get_staves_example,
    (get_staves_succeeds_iff example_rects example_top example_bottom).2 example_staves
      get_staves_example⟩

/-- C18 at the first staff of the example page. -/
theorem get_staves_values_example :
    (∃ s ∈ example_top_skyline.full_line,
      example_rect.left ≤ s.x1 ∧ s.x2 ≤ example_rect.right ∧ s.y = example_staff.top_skyline) ∧
    (∀ s ∈ example_top_skyline.full_line, example_rect.left ≤ s.x1 →
      s.x2 ≤ example_rect.right → example_staff.top_skyline ≤ s.y) ∧
    (∃ s ∈ example_bottom_skyline.full_line,
      example_rect.left ≤ s.x1 ∧ s.x2 ≤ example_rect.right ∧
        s.y = example_staff.bottom_skyline) ∧
    (∀ s ∈ example_bottom_skyline.full_line, example_rect.left ≤ s.x1 →
      s.x2 ≤ example_rect.right → s.y ≤ example_staff.bottom_skyline) ∧
    example_staff.x = example_rect.left ∧ example_staff.y = example_rect.top ∧
    example_staff.width = sub_u32 example_rect.right example_rect.left ∧
    example_staff.height = sub_u32 example_rect.bottom example_rect.top ∧
    (example_rect.left ≤ example_rect.right → example_rect.right < 4294967296 →
      example_staff.width = example_rect.right - example_rect.left) ∧
    (example_rect.top ≤ example_rect.bottom → example_rect.bottom < 4294967296 →
      example_staff.height = example_rect.bottom - example_rect.top) :=
  get_staves_values example_rects example_top example_bottom example_staves 0 example_staff
    example_rect example_top_skyline example_bottom_skyline get_staves_example rfl rfl rfl rfl

/-- C19 (amended) at the first staff of the example page, whose top skyline
is above its bottom skyline. -/
theorem get_staves_skyline_order_example :
    example_staff.top_skyline ≤ example_staff.bottom_skyline ↔
      ∃ s ∈ example_top_skyline.full_line, ∃ s2 ∈ example_bottom_skyline.full_line,
        example_rect.left ≤ s.x1 ∧ s.x2 ≤ example_rect.right ∧
        example_rect.left ≤ s2.x1 ∧ s2.x2 ≤ example_rect.right ∧ s.y ≤ s2.y :=
  get_staves_skyline_order example_rects example_top example_bottom example_staves 0
    example_staff example_rect example_top_skyline example_bottom_skyline get_staves_example
    rfl rfl rfl rfl

/-- C20 at the first staff of the example page: the third top segment is
dropped. -/
theorem get_staves_full_skylines_example :
    example_staff.full_top_skyline =
        example_top_skyline.full_line.filter
          (fun s => decide (example_rect.left ≤ s.x1 ∧ s.x2 ≤ example_rect.right)) ∧
      example_staff.full_bottom_skyline =
        example_bottom_skyline.full_line.filter
          (fun s => decide (example_rect.left ≤ s.x1 ∧ s.x2 ≤ example_rect.right)) ∧
      example_staff.full_top_skyline.Sublist example_top_skyline.full_line ∧
      example_staff.full_bottom_skyline.Sublist example_bottom_skyline.full_line ∧
      (∀ s, s ∈ example_staff.full_top_skyline ↔
        s ∈ example_top_skyline.full_line ∧ example_rect.left ≤ s.x1 ∧
          s.x2 ≤ example_rect.right) ∧
      (∀ s, s ∈ example_staff.full_bottom_skyline ↔
        s ∈ example_bottom_skyline.full_line ∧ example_rect.left ≤ s.x1 ∧
          s.x2 ≤ example_rect.right) :=
  get_staves_full_skylines example_rects example_top example_bottom example_staves 0
    example_staff example_rect example_top_skyline example_bottom_skyline get_staves_example
    rfl rfl rfl rfl

/-! ## C21, C22, C24: the rects of `get_staves_surface` -/

/-- The loop pushes at most one rect for every five lines left. -/
theorem staves_loop_length (L : List line) :
    ∀ fuel i, 5 * (staves_loop L fuel i).length ≤ L.length - i := by
  intro fuel
  induction fuel with
  | zero => intro i; simp [staves_loop]
  | succ fuel ih =>
    intro i
    unfold staves_loop
    by_cases hi : i + 4 < L.length
    · rw [if_pos hi]
      cases hst : staff_at L i with
      | none =>
        have := ih (i + 1)
        simp only
        omega
      | some r =>
        have := ih (i + 5)
        simp only [List.length_cons]
        omega
    · rw [if_neg hi]
      simp

/-- On a sorted list of lines inside the range of `uint32_t`, the rects
pushed by the loop are strictly higher than zero, each one ends above the
beginning of the next, and their sides are the ends of a line of the list. -/
theorem staves_loop_order (L : List line) (hs : L.Pairwise line_le)
    (hb : ∀ l ∈ L, l.y1 < 4294967296) (fuel i0 : Nat) :
    (∀ r ∈ staves_loop L fuel i0, r.top < r.bottom ∧ r.bottom < 4294967296 ∧
      ∃ l ∈ L, r.left = l.x1 ∧ r.right = l.x2) ∧
    ∀ (i : Nat) (r r2 : rect), (staves_loop L fuel i0)[i]? = some r →
      (staves_loop L fuel i0)[i + 1]? = some r2 → r.bottom ≤ r2.top := by
  obtain ⟨idxs, hc, _, hf⟩ := staves_loop_windows L fuel i0
  rw [List.forall₂_iff_get] at hf
  obtain ⟨hlen, hf⟩ := hf
  have hwin : ∀ (i : Nat) (r : rect), (staves_loop L fuel i0)[i]? = some r →
      ∃ j, idxs[i]? = some j ∧ staff_window L j r := by
    intro i r hr
    obtain ⟨hi, rfl⟩ := List.getElem?_eq_some_iff.1 hr
    have hi2 : i < idxs.length := by omega
    refine ⟨idxs[i], List.getElem?_eq_getElem hi2, ?_⟩
    exact (staff_at_iff L hs hb _ _).1 (hf i hi2 hi)
  constructor
  · intro r hr
    obtain ⟨i, hi⟩ := List.getElem?_of_mem hr
    obtain ⟨j, _, l0, l1, l2, l3, l4, h0, h1, h2, h3, h4, hst, hrect⟩ := hwin i r hi
    have s01 := sorted_lines_get L hs _ _ _ _ (by omega) h0 h1
    have s12 := sorted_lines_get L hs _ _ _ _ (by omega) h1 h2
    have s23 := sorted_lines_get L hs _ _ _ _ (by omega) h2 h3
    have s34 := sorted_lines_get L hs _ _ _ _ (by omega) h3 h4
    obtain ⟨_, _, _, _, _, _, _, _, d1, d2, d3, d4⟩ := hst
    rw [hrect]
    exact ⟨by dsimp only; omega, hb l4 (List.getElem?_mem h4), l0, List.getElem?_mem h0, rfl,
      rfl⟩
  · intro i r r2 hr hr2
    obtain ⟨j, hj, l0, l1, l2, l3, l4, h0, h1, h2, h3, h4, _, hrect⟩ := hwin i r hr
    obtain ⟨j2, hj2, m0, m1, m2, m3, m4, g0, _, _, _, _, _, hrect2⟩ := hwin (i + 1) r2 hr2
    obtain ⟨hi, rfl⟩ := List.getElem?_eq_some_iff.1 hj
    obtain ⟨hi2, rfl⟩ := List.getElem?_eq_some_iff.1 hj2
    have hapart := List.pairwise_iff_getElem.1 hc i (i + 1) hi hi2 (by omega)
    have := sorted_lines_get L hs (idxs[i] + 4) idxs[i + 1] l4 m0 (by omega) h4 g0
    rw [hrect, hrect2]
    exact this

/-- On horizontal lines inside the range of `uint32_t`, whatever sort
`std::sort` is, every rect of `get_staves_surface` has its top strictly above
its bottom, and its left and right are the x1 and x2 of one of the lines: left
is at most right when the lines go from left to right. -/
theorem get_staves_surface_rect_order (std_sort : List line → List line)
    (hsort : is_std_sort std_sort) (lines : List line) (out : List rect)
    (hbound : ∀ l ∈ lines, l.y1 < 4294967296)
    (h : get_staves_surface std_sort lines = .ok out) :
    ∀ r ∈ out, r.top < r.bottom ∧ r.bottom < 4294967296 ∧
      ∃ l ∈ lines, r.left = l.x1 ∧ r.right = l.x2 := by
  obtain ⟨hperm, hsorted⟩ := hsort lines
  obtain ⟨_, hout⟩ := get_staves_surface_ok std_sort lines out h
  intro r hr
  rw [hout] at hr
  obtain ⟨h1, h3, l, hl, h2⟩ := (staves_loop_order (std_sort lines) hsorted
    (fun l hl => hbound l (hperm.subset hl)) _ 0).1 r hr
  exact ⟨h1, h3, l, hperm.subset hl, h2⟩

/-- C21 (the code at the failing input): five equally spaced horizontal lines
of the same ends, each written from x1 = 100 to x2 = 0.  The scan returns the
rect of left 100 and right 0, and the width computed from it in `uint32_t` is
2^32 - 100. -/
theorem get_staves_surface_reversed_lines :
    get_staves_surface insertion_sort_lines
        [⟨100, 0, 0, 0⟩, ⟨100, 10, 0, 10⟩, ⟨100, 20, 0, 20⟩, ⟨100, 30, 0, 30⟩,
          ⟨100, 40, 0, 40⟩] =
      .ok [{ top := 0, bottom := 40, left := 100, right := 0 }] ∧
    ¬ (100 : Nat) ≤ 0 ∧ sub_u32 0 100 = 4294967196 :=
  ⟨by rfl, by decide, by decide⟩

/-- C22: the rects returned by `get_staves_surface` go from top to bottom
without overlap: every rect has its top strictly above its bottom, and the
bottom of a rect is at most the top of the next one; `get_staves` returns one
staff for each rect at the same index, so its staves are in the same order,
each one ending (y + height) at most where the next one begins. -/
theorem get_staves_surface_top_to_bottom (std_sort : List line → List line)
    (hsort : is_std_sort std_sort) (lines : List line) (out : List rect)
    (hbound : ∀ l ∈ lines, l.y1 < 4294967296)
    (h : get_staves_surface std_sort lines = .ok out) :
    (∀ r ∈ out, r.top < r.bottom) ∧
    (∀ (i : Nat) (r r2 : rect), out[i]? = some r → out[i + 1]? = some r2 →
      r.top < r.bottom ∧ r.bottom ≤ r2.top) ∧
    ∀ (top bottom : List skyline) (staves : List staff),
      get_staves out top bottom = .ok staves →
      List.Forall₂ (fun r st => st.x = r.left ∧ st.y = r.top ∧ st.y + st.height = r.bottom)
        out staves ∧
      ∀ (i : Nat) (st st2 : staff), staves[i]? = some st → staves[i + 1]? = some st2 →
        st.y < st.y + st.height ∧ st.y + st.height ≤ st2.y := by
  have hrect := get_staves_surface_rect_order std_sort hsort lines out hbound h
  obtain ⟨hperm, hsorted⟩ := hsort lines
  obtain ⟨_, hout⟩ := get_staves_surface_ok std_sort lines out h
  have hnext : ∀ (i : Nat) (r r2 : rect), out[i]? = some r → out[i + 1]? = some r2 →
      r.top < r.bottom ∧ r.bottom ≤ r2.top := by
    intro i r r2 hr hr2
    refine ⟨(hrect r (List.getElem?_mem hr)).1, ?_⟩
    rw [hout] at hr hr2
    exact (staves_loop_order (std_sort lines) hsorted
      (fun l hl => hbound l (hperm.subset hl)) _ 0).2 i r r2 hr hr2
  refine ⟨fun r hr => (hrect r hr).1, hnext, ?_⟩
  intro top bottom staves hst
  obtain ⟨ht, hb, hlen, hidx⟩ := (get_staves_ok_iff out top bottom staves).1 hst
  have hfield : ∀ (i : Nat) (r : rect) (st : staff), out[i]? = some r → staves[i]? = some st →
      st.x = r.left ∧ st.y = r.top ∧ st.y + st.height = r.bottom := by
    intro i r st hr hs
    obtain ⟨hi, _⟩ := List.getElem?_eq_some_iff.1 hr
    obtain ⟨st2, hst2, hof⟩ := hidx i r top[i] bottom[i] hr
      (List.getElem?_eq_getElem (by omega)) (List.getElem?_eq_getElem (by omega))
    rw [hs] at hst2
    injection hst2 with hst2
    subst hst2
    obtain ⟨mt, mb, _, _, heq⟩ := staff_of_ok _ _ _ _ hof
    obtain ⟨h1, h2, _⟩ := hrect r (List.getElem?_mem hr)
    rw [heq]
    refine ⟨rfl, rfl, ?_⟩
    show r.top + sub_u32 r.bottom r.top = r.bottom
    unfold sub_u32
    omega
  constructor
  · rw [List.forall₂_iff_get]
    refine ⟨hlen.symm, fun i h1 h2 => ?_⟩
    exact hfield i _ _ (by rw [List.getElem?_eq_getElem h1]; rfl)
      (by rw [List.getElem?_eq_getElem h2]; rfl)
  · intro i st st2 hs hs2
    obtain ⟨hi, _⟩ := List.getElem?_eq_some_iff.1 hs
    obtain ⟨hi2, _⟩ := List.getElem?_eq_some_iff.1 hs2
    have hr : out[i]? = some out[i] := List.getElem?_eq_getElem (by omega)
    have hr2 : out[i + 1]? = some out[i + 1] := List.getElem?_eq_getElem (by omega)
    obtain ⟨_, a2, a3⟩ := hfield i _ _ hr hs
    obtain ⟨_, b2, _⟩ := hfield (i + 1) _ _ hr2 hs2
    obtain ⟨c1, c2⟩ := hnext i _ _ hr hr2
    omega

/-- C24: on n horizontal lines `get_staves_surface` returns, and returns at
most floor(n / 5) rects; on fewer than 5 lines it returns none. -/
theorem get_staves_surface_count (std_sort : List line → List line)
    (hsort : is_std_sort std_sort) (lines : List line)
    (hh : ∀ l ∈ lines, l.y1 = l.y2) :
    ∃ out, get_staves_surface std_sort lines = .ok out ∧
      out.length ≤ lines.length / 5 ∧ (lines.length < 5 → out = []) := by
  refine ⟨_, get_staves_surface_of_horizontal std_sort lines hh, ?_⟩
  have hlen : (std_sort lines).length = lines.length := (hsort lines).1.length_eq
  have := staves_loop_length (std_sort lines) (std_sort lines).length 0
  rw [hlen] at this
  have hle : (staves_loop (std_sort lines) lines.length 0).length ≤ lines.length / 5 := by
    rw [Nat.le_div_iff_mul_le (by decide)]
    omega
  rw [hlen]
  refine ⟨hle, fun h5 => ?_⟩
  have h0 : lines.length / 5 = 0 := Nat.div_eq_of_lt h5
  rw [h0] at hle
  exact List.length_eq_zero.1 (Nat.le_zero.1 hle)

/-! ## C23 and C25: `get_skylines` -/

theorem translated_line_bound (x_tr y_tr x1 y1 x2 y2 : List Char) (l : line)
    (h : translated_line x_tr y_tr x1 y1 x2 y2 = .ok l) :
    l.x1 < 4294967296 ∧ l.y1 < 4294967296 ∧ l.x2 < 4294967296 ∧ l.y2 < 4294967296 := by
  unfold translated_line at h
  split at h
  · exact absurd h (by simp)
  · split at h
    · exact absurd h (by simp)
    · split at h
      · injection h with h
        subst h
        exact ⟨Nat.mod_lt _ (by decide), Nat.mod_lt _ (by decide), Nat.mod_lt _ (by decide),
          Nat.mod_lt _ (by decide)⟩
      · exact absurd h (by simp)

/-- The coordinates of a line read by `get_line` are inside the range of
`uint32_t`. -/
theorem get_line_bound (node : line_node) (l : line) (h : get_line node = .ok l) :
    l.x1 < 4294967296 ∧ l.y1 < 4294967296 ∧ l.x2 < 4294967296 ∧ l.y2 < 4294967296 := by
  rcases get_line_cases node with h1 | h1 | ⟨_, _, _, h1⟩ | ⟨_, _, _, _, h1⟩
  · rw [h1] at h; exact absurd h (by simp)
  · rw [h1] at h; exact absurd h (by simp)
  · rw [h1] at h; exact absurd h (by simp)
  · rw [h1] at h
    exact translated_line_bound _ _ _ _ _ _ l h

theorem read_segments_ok_iff (nodes : List line_node) :
    ∀ segs, read_segments nodes = .ok segs ↔
      List.Forall₂ (fun n s => ∃ l, get_line n = .ok l ∧ l.x1 < l.x2 ∧
        s = { x1 := l.x1, x2 := l.x2, y := l.y1 }) nodes segs := by
  induction nodes with
  | nil =>
    intro segs
    unfold read_segments
    constructor
    · intro h
      injection h with h
      subst h
      exact List.Forall₂.nil
    · intro h
      cases h
      rfl
  | cons n tl ih =>
    intro segs
    unfold read_segments
    cases hl : get_line n with
    | error e =>
      simp only
      constructor
      · intro h; exact absurd h (by simp)
      · intro h
        cases h with
        | cons hab _ =>
          obtain ⟨l, hl2, _⟩ := hab
          rw [hl] at hl2
          exact absurd hl2 (by simp)
    | ok l =>
      simp only
      by_cases hx : l.x1 ≥ l.x2
      · rw [if_pos hx]
        constructor
        · intro h; exact absurd h (by simp)
        · intro h
          cases h with
          | cons hab _ =>
            obtain ⟨l2, hl2, hlt, _⟩ := hab
            rw [hl] at hl2
            injection hl2 with hl2
            subst hl2
            omega
      · rw [if_neg hx]
        cases hr : read_segments tl with
        | error e =>
          simp only
          constructor
          · intro h; exact absurd h (by simp)
          · intro h
            cases h with
            | cons _ htl =>
              have := (ih _).2 htl
              rw [hr] at this
              exact absurd this (by simp)
        | ok rest =>
          simp only
          constructor
          · intro h
            injection h with h
            subst h
            exact List.Forall₂.cons ⟨l, hl, by omega, rfl⟩ ((ih rest).1 hr)
          · intro h
            cases h with
            | cons hab htl =>
              obtain ⟨l2, hl2, _, hs⟩ := hab
              rw [hl] at hl2
              injection hl2 with hl2
              subst hl2
              have := (ih _).2 htl
              rw [hr] at this
              injection this with this
              rw [hs, this]

theorem enclosing_fold (segs : List h_segment) :
    ∀ acc : rect,
      ((segs.foldl enclose acc).left ≤ acc.left ∧
        (∀ s ∈ segs, (segs.foldl enclose acc).left ≤ s.x1) ∧
        ((segs.foldl enclose acc).left = acc.left ∨
          ∃ s ∈ segs, (segs.foldl enclose acc).left = s.x1)) ∧
      (acc.right ≤ (segs.foldl enclose acc).right ∧
        (∀ s ∈ segs, s.x2 ≤ (segs.foldl enclose acc).right) ∧
        ((segs.foldl enclose acc).right = acc.right ∨
          ∃ s ∈ segs, (segs.foldl enclose acc).right = s.x2)) ∧
      ((segs.foldl enclose acc).top ≤ acc.top ∧
        (∀ s ∈ segs, (segs.foldl enclose acc).top ≤ s.y) ∧
        ((segs.foldl enclose acc).top = acc.top ∨
          ∃ s ∈ segs, (segs.foldl enclose acc).top = s.y)) ∧
      (acc.bottom ≤ (segs.foldl enclose acc).bottom ∧
        (∀ s ∈ segs, s.y ≤ (segs.foldl enclose acc).bottom) ∧
        ((segs.foldl enclose acc).bottom = acc.bottom ∨
          ∃ s ∈ segs, (segs.foldl enclose acc).bottom = s.y)) := by
  induction segs with
  | nil => intro acc; simp
  | cons a tl ih =>
    intro acc
    obtain ⟨⟨l1, l2, l3⟩, ⟨r1, r2, r3⟩, ⟨t1, t2, t3⟩, ⟨b1, b2, b3⟩⟩ := ih (enclose acc a)
    simp only [List.foldl_cons, List.mem_cons, forall_eq_or_imp, exists_eq_or_imp]
    have e1 : (enclose acc a).left = min acc.left a.x1 := rfl
    have e2 : (enclose acc a).right = max acc.right a.x2 := rfl
    have e3 : (enclose acc a).top = min acc.top a.y := rfl
    have e4 : (enclose acc a).bottom = max acc.bottom a.y := rfl
    rw [e1] at l1 l3
    rw [e2] at r1 r3
    rw [e3] at t1 t3
    rw [e4] at b1 b3
    refine ⟨⟨le_trans l1 (Nat.min_le_left _ _), ⟨le_trans l1 (Nat.min_le_right _ _), l2⟩, ?_⟩,
      ⟨le_trans (Nat.le_max_left _ _) r1, ⟨le_trans (Nat.le_max_right _ _) r1, r2⟩, ?_⟩,
      ⟨le_trans t1 (Nat.min_le_left _ _), ⟨le_trans t1 (Nat.min_le_right _ _), t2⟩, ?_⟩,
      ⟨le_trans (Nat.le_max_left _ _) b1, ⟨le_trans (Nat.le_max_right _ _) b1, b2⟩, ?_⟩⟩
    · rcases l3 with h | h
      · rcases Nat.le_total acc.left a.x1 with c | c
        · left; rw [h]; exact Nat.min_eq_left c
        · right; left; rw [h]; exact Nat.min_eq_right c
      · right; right; exact h
    · rcases r3 with h | h
      · rcases Nat.le_total acc.right a.x2 with c | c
        · right; left; rw [h]; exact Nat.max_eq_right c
        · left; rw [h]; exact Nat.max_eq_left c
      · right; right; exact h
    · rcases t3 with h | h
      · rcases Nat.le_total acc.top a.y with c | c
        · left; rw [h]; exact Nat.min_eq_left c
        · right; left; rw [h]; exact Nat.min_eq_right c
      · right; right; exact h
    · rcases b3 with h | h
      · rcases Nat.le_total acc.bottom a.y with c | c
        · right; left; rw [h]; exact Nat.max_eq_right c
        · left; rw [h]; exact Nat.max_eq_left c
      · right; right; exact h

/-- The rect enclosing a non-empty list of segments inside the range of
`uint32_t`: each side is attained by a segment and bounds all of them. -/
theorem enclosing_rect_spec (segs : List h_segment) (hne : segs ≠ [])
    (hb : ∀ s ∈ segs, s.x1 ≤ uint32_max ∧ s.y ≤ uint32_max) :
    ((∃ s ∈ segs, (enclosing_rect segs).left = s.x1) ∧
      ∀ s ∈ segs, (enclosing_rect segs).left ≤ s.x1) ∧
    ((∃ s ∈ segs, (enclosing_rect segs).right = s.x2) ∧
      ∀ s ∈ segs, s.x2 ≤ (enclosing_rect segs).right) ∧
    ((∃ s ∈ segs, (enclosing_rect segs).top = s.y) ∧
      ∀ s ∈ segs, (enclosing_rect segs).top ≤ s.y) ∧
    ((∃ s ∈ segs, (enclosing_rect segs).bottom = s.y) ∧
      ∀ s ∈ segs, s.y ≤ (enclosing_rect segs).bottom) := by
  obtain ⟨s0, hs0⟩ := List.exists_mem_of_ne_nil segs hne
  obtain ⟨⟨l1, l2, l3⟩, ⟨r1, r2, r3⟩, ⟨t1, t2, t3⟩, ⟨b1, b2, b3⟩⟩ :=
    enclosing_fold segs { left := uint32_max, right := 0, top := uint32_max, bottom := 0 }
  unfold enclosing_rect
  refine ⟨⟨?_, l2⟩, ⟨?_, r2⟩, ⟨?_, t2⟩, ⟨?_, b2⟩⟩
  · rcases l3 with h | h
    · refine ⟨s0, hs0, ?_⟩
      have := l2 s0 hs0
      have := (hb s0 hs0).1
      dsimp only at h
      omega
    · exact h
  · rcases r3 with h | h
    · refine ⟨s0, hs0, ?_⟩
      have := r2 s0 hs0
      dsimp only at h
      omega
    · exact h
  · rcases t3 with h | h
    · refine ⟨s0, hs0, ?_⟩
      have := t2 s0 hs0
      have := (hb s0 hs0).2
      dsimp only at h
      omega
    · exact h
  · rcases b3 with h | h
    · refine ⟨s0, hs0, ?_⟩
      have := b2 s0 hs0
      dsimp only at h
      omega
    · exact h

theorem forall₂_mem_left {α β : Type} (R : α → β → Prop) (l1 : List α) (l2 : List β)
    (h : List.Forall₂ R l1 l2) : ∀ a ∈ l1, ∃ b ∈ l2, R a b := by
  induction h with
  | nil => intro a ha; exact absurd ha (by simp)
  | cons hab _ ih =>
    intro a ha
    rcases List.mem_cons.1 ha with rfl | ha
    · exact ⟨_, List.mem_cons_self _ _, hab⟩
    · obtain ⟨b, hb, hr⟩ := ih a ha
      exact ⟨b, List.mem_cons_of_mem _ hb, hr⟩

theorem forall₂_mem_right {α β : Type} (R : α → β → Prop) (l1 : List α) (l2 : List β)
    (h : List.Forall₂ R l1 l2) : ∀ b ∈ l2, ∃ a ∈ l1, R a b := by
  induction h with
  | nil => intro b hb; exact absurd hb (by simp)
  | cons hab _ ih =>
    intro b hb
    rcases List.mem_cons.1 hb with rfl | hb
    · exact ⟨_, List.mem_cons_self _ _, hab⟩
    · obtain ⟨a, ha, hr⟩ := ih b hb
      exact ⟨a, List.mem_cons_of_mem _ ha, hr⟩

theorem read_segments_of_valid (g : List line_node)
    (hseg : ∀ n ∈ g, ∃ l, get_line n = .ok l ∧ l.x1 < l.x2) :
    ∃ segs, read_segments g = .ok segs := by
  induction g with
  | nil => exact ⟨[], rfl⟩
  | cons n tl ih =>
    obtain ⟨l, hl, hlt⟩ := hseg n (List.mem_cons_self _ _)
    obtain ⟨rest, hrest⟩ := ih (fun m hm => hseg m (List.mem_cons_of_mem _ hm))
    refine ⟨{ x1 := l.x1, x2 := l.x2, y := l.y1 } :: rest, ?_⟩
    unfold read_segments
    rw [hl]
    simp only
    rw [if_neg (by omega), hrest]

theorem build_skyline_ok (g : List line_node) (sk : skyline) :
    build_skyline g = .ok sk ↔
      read_segments g = .ok sk.full_line ∧ sk.surface = enclosing_rect sk.full_line := by
  unfold build_skyline
  cases hr : read_segments g with
  | error e => simp
  | ok segs =>
    simp only [Except.ok.injEq]
    constructor
    · intro h
      subst h
      exact ⟨rfl, rfl⟩
    · rintro ⟨h1, h2⟩
      cases sk
      simp only at h1 h2
      rw [h1, h2]

theorem build_skylines_ok_iff (groups : List (List line_node)) :
    ∀ built, build_skylines groups = .ok built ↔
      List.Forall₂ (fun g sk => build_skyline g = .ok sk) groups built := by
  induction groups with
  | nil =>
    intro built
    unfold build_skylines
    constructor
    · intro h
      injection h with h
      subst h
      exact List.Forall₂.nil
    · intro h
      cases h
      rfl
  | cons g tl ih =>
    intro built
    unfold build_skylines
    cases hg : build_skyline g with
    | error e =>
      simp only
      constructor
      · intro h; exact absurd h (by simp)
      · intro h
        cases h with
        | cons hab _ =>
          rw [hg] at hab
          exact absurd hab (by simp)
    | ok sk =>
      simp only
      cases hr : build_skylines tl with
      | error e =>
        simp only
        constructor
        · intro h; exact absurd h (by simp)
        · intro h
          cases h with
          | cons _ htl =>
            have := (ih _).2 htl
            rw [hr] at this
            exact absurd this (by simp)
      | ok rest =>
        simp only
        constructor
        · intro h
          injection h with h
          subst h
          exact List.Forall₂.cons hg ((ih rest).1 hr)
        · intro h
          cases h with
          | cons hab htl =>
            rw [hg] at hab
            injection hab with hab
            have := (ih _).2 htl
            rw [hr] at this
            injection this with this
            rw [hab, this]

theorem build_skylines_of_valid (groups : List (List line_node))
    (hseg : ∀ g ∈ groups, ∀ n ∈ g, ∃ l, get_line n = .ok l ∧ l.x1 < l.x2) :
    ∃ built, build_skylines groups = .ok built := by
  induction groups with
  | nil => exact ⟨[], rfl⟩
  | cons g tl ih =>
    obtain ⟨segs, hsegs⟩ := read_segments_of_valid g (hseg g (List.mem_cons_self _ _))
    obtain ⟨rest, hrest⟩ := ih (fun g2 hg2 => hseg g2 (List.mem_cons_of_mem _ hg2))
    refine ⟨{ surface := enclosing_rect segs, full_line := segs } :: rest, ?_⟩
    unfold build_skylines
    rw [(build_skyline_ok g { surface := enclosing_rect segs, full_line := segs }).2
      ⟨hsegs, rfl⟩]
    simp only
    rw [hrest]

theorem get_skylines_ok (std_sort : List skyline → List skyline)
    (groups : List (List line_node)) (res : List skyline)
    (h : get_skylines std_sort groups = .ok res) :
    ∃ built, build_skylines groups = .ok built ∧ res = std_sort built ∧
      ∀ sk ∈ built, sk.surface.top ≤ sk.surface.bottom := by
  unfold get_skylines at h
  cases hb : build_skylines groups with
  | error e =>
    rw [hb] at h
    exact absurd h (by simp)
  | ok built =>
    rw [hb] at h
    simp only at h
    by_cases hany : built.any (fun l => decide (l.surface.top > l.surface.bottom)) = true
    · rw [if_pos hany] at h
      exact absurd h (by simp)
    · rw [if_neg hany] at h
      injection h with h
      refine ⟨built, rfl, h.symm, ?_⟩
      intro sk hsk
      by_contra hlt
      apply hany
      rw [List.any_eq_true]
      exact ⟨sk, hsk, by simpa using hlt⟩

/-- C23: for a colour group with at least one line node, all of them read by
`get_line` into segments with x1 < x2, the skyline `get_skylines` builds has
the segments of the group in input order as `full_line`, and a surface whose
left is the least x1, right the greatest x2, top the least y and bottom the
greatest y of these segments, so that left < right and every segment lies
inside the surface; that skyline is in the result of `get_skylines` whenever
it returns. -/
theorem get_skylines_enclosing_rect (g : List line_node) (hne : g ≠ [])
    (hseg : ∀ n ∈ g, ∃ l, get_line n = .ok l ∧ l.x1 < l.x2) :
    ∃ sk, build_skyline g = .ok sk ∧
      List.Forall₂ (fun n s => ∃ l, get_line n = .ok l ∧
        s = { x1 := l.x1, x2 := l.x2, y := l.y1 }) g sk.full_line ∧
      ((∃ s ∈ sk.full_line, sk.surface.left = s.x1) ∧
        ∀ s ∈ sk.full_line, sk.surface.left ≤ s.x1) ∧
      ((∃ s ∈ sk.full_line, sk.surface.right = s.x2) ∧
        ∀ s ∈ sk.full_line, s.x2 ≤ sk.surface.right) ∧
      ((∃ s ∈ sk.full_line, sk.surface.top = s.y) ∧
        ∀ s ∈ sk.full_line, sk.surface.top ≤ s.y) ∧
      ((∃ s ∈ sk.full_line, sk.surface.bottom = s.y) ∧
        ∀ s ∈ sk.full_line, s.y ≤ sk.surface.bottom) ∧
      sk.surface.left < sk.surface.right ∧
      ∀ (std_sort : List skyline → List skyline) (groups : List (List line_node))
        (res : List skyline), is_std_sort_skylines std_sort → g ∈ groups →
        get_skylines std_sort groups = .ok res → sk ∈ res := by
  obtain ⟨segs, hsegs⟩ := read_segments_of_valid g hseg
  have hf := (read_segments_ok_iff g segs).1 hsegs
  have hbuild : build_skyline g = .ok { surface := enclosing_rect segs, full_line := segs } :=
    (build_skyline_ok g _).2 ⟨hsegs, rfl⟩
  have hsne : segs ≠ [] := by
    intro h
    rw [h] at hf
    cases hf
    exact hne rfl
  have hprop : ∀ s ∈ segs, s.x1 < s.x2 ∧ s.x1 ≤ uint32_max ∧ s.y ≤ uint32_max := by
    intro s hs
    obtain ⟨n, _, l, hl, hlt, rfl⟩ := forall₂_mem_right _ _ _ hf s hs
    obtain ⟨b1, b2, _, _⟩ := get_line_bound n l hl
    unfold uint32_max
    exact ⟨hlt, by dsimp only; omega, by dsimp only; omega⟩
  obtain ⟨hl, hr, ht, hb⟩ := enclosing_rect_spec segs hsne (fun s hs => (hprop s hs).2)
  refine ⟨_, hbuild, hf.imp (fun n s h => ?_), hl, hr, ht, hb, ?_, ?_⟩
  · obtain ⟨l, h1, _, h2⟩ := h
    exact ⟨l, h1, h2⟩
  · obtain ⟨s0, hs0⟩ := List.exists_mem_of_ne_nil segs hsne
    have h1 := hl.2 s0 hs0
    have h2 := hr.2 s0 hs0
    have h3 := (hprop s0 hs0).1
    show (enclosing_rect segs).left < (enclosing_rect segs).right
    omega
  · intro std_sort groups res hsort hg hres
    obtain ⟨built, hb1, hb2, _⟩ := get_skylines_ok std_sort groups res hres
    obtain ⟨sk, hsk, hsk2⟩ := forall₂_mem_left _ _ _ ((build_skylines_ok_iff groups built).1 hb1) g hg
    rw [hbuild] at hsk2
    injection hsk2 with hsk2
    rw [hb2, hsk2]
    exact (hsort built).1.symm.subset hsk

/-- C25: on groups whose line nodes are all read by `get_line` into segments
with x1 < x2, `get_skylines` raises the inconsistent-value error exactly when
some group has no line node, and returns otherwise; a group with at least one
line node has a surface with top at most bottom. -/
theorem get_skylines_inconsistent_iff (std_sort : List skyline → List skyline)
    (groups : List (List line_node))
    (hseg : ∀ g ∈ groups, ∀ n ∈ g, ∃ l, get_line n = .ok l ∧ l.x1 < l.x2) :
    (get_skylines std_sort groups = .error .inconsistent_value ↔ ∃ g ∈ groups, g = []) ∧
    ((∃ res, get_skylines std_sort groups = .ok res) ↔ ∀ g ∈ groups, g ≠ []) ∧
    ∀ g ∈ groups, g ≠ [] →
      ∃ sk, build_skyline g = .ok sk ∧ sk.surface.top ≤ sk.surface.bottom := by
  obtain ⟨built, hbuilt⟩ := build_skylines_of_valid groups hseg
  have hf := (build_skylines_ok_iff groups built).1 hbuilt
  have hnonempty : ∀ g ∈ groups, g ≠ [] →
      ∃ sk, build_skyline g = .ok sk ∧ sk.surface.top ≤ sk.surface.bottom := by
    intro g hg hne
    obtain ⟨segs, hsegs⟩ := read_segments_of_valid g (hseg g hg)
    have hfs := (read_segments_ok_iff g segs).1 hsegs
    have hsne : segs ≠ [] := by
      intro h
      rw [h] at hfs
      cases hfs
      exact hne rfl
    obtain ⟨s0, hs0⟩ := List.exists_mem_of_ne_nil segs hsne
    obtain ⟨_, _, ⟨_, t2, _⟩, ⟨_, b2, _⟩⟩ := enclosing_fold segs
      { left := uint32_max, right := 0, top := uint32_max, bottom := 0 }
    refine ⟨{ surface := enclosing_rect segs, full_line := segs },
      (build_skyline_ok g _).2 ⟨hsegs, rfl⟩, ?_⟩
    exact le_trans (t2 s0 hs0) (b2 s0 hs0)
  have hany : built.any (fun l => decide (l.surface.top > l.surface.bottom)) = true ↔
      ∃ g ∈ groups, g = [] := by
    rw [List.any_eq_true]
    constructor
    · rintro ⟨sk, hsk, hgt⟩
      obtain ⟨g, hg, hgsk⟩ := forall₂_mem_right _ _ _ hf sk hsk
      refine ⟨g, hg, ?_⟩
      by_contra hne
      obtain ⟨sk2, h2, hle⟩ := hnonempty g hg hne
      rw [hgsk] at h2
      injection h2 with h2
      subst h2
      simp only [gt_iff_lt, decide_eq_true_eq] at hgt
      omega
    · rintro ⟨g, hg, rfl⟩
      obtain ⟨sk, hsk, hgsk⟩ := forall₂_mem_left _ _ _ hf [] hg
      refine ⟨sk, hsk, ?_⟩
      have : sk = { surface := enclosing_rect [], full_line := [] } := by
        have h0 : build_skyline [] = .ok { surface := enclosing_rect [], full_line := [] } := rfl
        rw [h0] at hgsk
        injection hgsk with hgsk
        exact hgsk.symm
      rw [this]
      decide
  have hget : get_skylines std_sort groups =
      if built.any (fun l => decide (l.surface.top > l.surface.bottom))
      then .error .inconsistent_value else .ok (std_sort built) := by
    unfold get_skylines
    rw [hbuilt]
  refine ⟨?_, ?_, hnonempty⟩
  · rw [hget, ← hany]
    by_cases h : built.any (fun l => decide (l.surface.top > l.surface.bottom)) = true
    · simp [h]
    · simp [h]
  · rw [hget]
    by_cases h : built.any (fun l => decide (l.surface.top > l.surface.bottom)) = true
    · rw [if_pos h]
      constructor
      · rintro ⟨res, hres⟩
        exact absurd hres (by simp)
      · intro hall
        obtain ⟨g, hg, hnil⟩ := hany.1 h
        exact absurd hnil (hall g hg)
    · rw [if_neg h]
      constructor
      · intro _ g hg hnil
        exact h (hany.2 ⟨g, hg, hnil⟩)
      · intro _
        exact ⟨_, rfl⟩

/-! ## C26: the size of the table `is_pressed` -/

/-- C26 (the code at the failing input): the table built by
`assert_song_valid` has 255 entries, one for each pitch from 0 to 254; it has
none for the pitch 255, and the lookup for an event of that pitch is outside
of the table. -/
theorem is_pressed_lookup_out_of_bounds :
    is_pressed_init.length = 255 ∧ is_pressed_init[255]? = none ∧
      assert_song_valid [⟨0, 255, .pressed, 0⟩] = .error .out_of_range := by
  refine ⟨is_pressed_init_length, ?_, ?_⟩
  · rw [List.getElem?_eq_none_iff, is_pressed_init_length]
  · set_option maxRecDepth 100000 in rfl

/-! ## C27 and C28: the notes and the releases of `get_key_events` -/

theorem alternates_append_left (a b : List key_type) :
    ∀ x, alternates x (a ++ b) = true → alternates x a = true := by
  induction a with
  | nil => intro x _; rfl
  | cons t tl ih =>
    intro x h
    simp only [List.cons_append, alternates, Bool.and_eq_true] at h ⊢
    exact ⟨h.1, ih _ h.2⟩

theorem alternates_ends_released (ts : List key_type) :
    ∀ x, alternates x (ts ++ [key_type.released]) = true →
      (x = .pressed → ts.count .pressed = ts.count .released + 1) ∧
      (x = .released → ts.count .pressed = ts.count .released) := by
  induction ts with
  | nil =>
    intro x h
    simp only [List.nil_append, alternates, Bool.and_eq_true, beq_iff_eq] at h
    refine ⟨fun hx => ?_, fun _ => rfl⟩
    rw [hx] at h
    exact absurd h.1 (by decide)
  | cons t tl ih =>
    intro x h
    simp only [List.cons_append, alternates, Bool.and_eq_true, beq_iff_eq] at h
    obtain ⟨htx, hrest⟩ := h
    subst htx
    obtain ⟨i1, i2⟩ := ih _ hrest
    cases t with
    | pressed =>
      refine ⟨fun _ => ?_, fun hx => absurd hx (by decide)⟩
      have := i2 rfl
      simp [List.count_cons, this]
    | released =>
      refine ⟨fun hx => absurd hx (by decide), fun _ => ?_⟩
      have := i1 rfl
      simp [List.count_cons, this]

theorem types_of_pitch_append (P : Nat) (a b : List key_event) :
    types_of_pitch P (a ++ b) = types_of_pitch P a ++ types_of_pitch P b := by
  simp [types_of_pitch]

theorem types_of_pitch_count (P : Nat) (t : key_type) (l : List key_event) :
    (types_of_pitch P l).count t =
      l.countP (fun e => e.data.pitch == P && e.data.ev_type == t) := by
  induction l with
  | nil => rfl
  | cons e tl ih =>
    rw [types_of_pitch_cons, List.countP_cons]
    by_cases hp : e.data.pitch = P
    · rw [if_pos hp, List.count_cons, ih]
      simp [hp]
    · rw [if_neg hp, ih]
      simp [hp]

/-- In a list sorted by time in which the events of `P` alternate, beginning
with a press, the releases of `P` before a time are at most as many as the
presses of `P` before that time. -/
theorem counts_before (P S : Nat) (l : List key_event) :
    ∀ x, l.Pairwise time_le → alternates x (types_of_pitch P l) = true →
      (x = .pressed →
        l.countP (fun e => is_release_of P e && decide (e.time < S)) ≤
          l.countP (fun e => is_press_of P e && decide (e.time < S))) ∧
      (x = .released →
        l.countP (fun e => is_release_of P e && decide (e.time < S)) ≤
          l.countP (fun e => is_press_of P e && decide (e.time < S)) + 1) := by
  induction l with
  | nil => intro x _ _; simp
  | cons e tl ih =>
    intro x hs ha
    rw [List.pairwise_cons] at hs
    obtain ⟨hfirst, hs⟩ := hs
    by_cases ht : e.time < S
    · rw [types_of_pitch_cons] at ha
      by_cases hp : e.data.pitch = P
      · rw [if_pos hp] at ha
        simp only [alternates, Bool.and_eq_true, beq_iff_eq] at ha
        obtain ⟨hty, hrest⟩ := ha
        obtain ⟨i1, i2⟩ := ih _ hs hrest
        rw [List.countP_cons, List.countP_cons]
        cases hx : x with
        | pressed =>
          rw [hx] at hty
          rw [hty] at i2
          have := i2 rfl
          refine ⟨fun _ => ?_, fun h => absurd h (by decide)⟩
          simp only [is_release_of, is_press_of, hp, hty, ht, beq_self_eq_true, decide_True,
            Bool.and_self, if_true]
          simp only [is_release_of, is_press_of] at this
          simpa using this
        | released =>
          rw [hx] at hty
          rw [hty] at i1
          have := i1 rfl
          refine ⟨fun h => absurd h (by decide), fun _ => ?_⟩
          simp only [is_release_of, is_press_of, hp, hty, ht, beq_self_eq_true, decide_True,
            Bool.and_self, if_true]
          simp only [is_release_of, is_press_of] at this
          simpa using this
      · rw [if_neg hp] at ha
        obtain ⟨i1, i2⟩ := ih _ hs ha
        rw [List.countP_cons, List.countP_cons]
        have e1 : (is_release_of P e && decide (e.time < S)) = false := by
          simp [is_release_of, hp]
        have e2 : (is_press_of P e && decide (e.time < S)) = false := by
          simp [is_press_of, hp]
        rw [e1, e2]
        simpa using And.intro i1 i2
    · have hzero : (e :: tl).countP (fun e => is_release_of P e && decide (e.time < S)) = 0 := by
        rw [List.countP_eq_zero]
        intro a ha2
        have hat : e.time ≤ a.time := by
          rcases List.mem_cons.1 ha2 with rfl | h
          · exact le_refl _
          · exact hfirst a h
        simp only [Bool.and_eq_true, decide_eq_true_eq, not_and, not_lt]
        intro _
        omega
      rw [hzero]
      exact ⟨fun _ => Nat.zero_le _, fun _ => Nat.zero_le _⟩

theorem countP_lt_of_mem {α : Type} (p q : α → Bool) (l : List α)
    (hpq : ∀ x ∈ l, p x = true → q x = true) (a : α) (ha : a ∈ l) (hqa : q a = true)
    (hpa : p a = false) : l.countP p < l.countP q := by
  induction l with
  | nil => exact absurd ha (by simp)
  | cons x tl ih =>
    rw [List.countP_cons, List.countP_cons]
    have hmono : tl.countP p ≤ tl.countP q :=
      List.countP_mono_left (fun y hy => hpq y (List.mem_cons_of_mem _ hy))
    rcases List.mem_cons.1 ha with rfl | hmem
    · rw [hqa, hpa]
      simp only [if_true, Bool.false_eq_true, if_false]
      omega
    · have := ih (fun y hy => hpq y (List.mem_cons_of_mem _ hy)) hmem
      cases hpx : p x with
      | false =>
        simp only [Bool.false_eq_true, if_false]
        split <;> omega
      | true =>
        rw [hpq x (List.mem_cons_self _ _) hpx]
        simp only [if_true]
        omega

theorem forall₂_countP_le {α β : Type} (R : α → β → Prop) (p : α → Bool) (q : β → Bool)
    (l1 : List α) (l2 : List β) (h : List.Forall₂ R l1 l2)
    (hpq : ∀ a b, R a b → p a = true → q b = true) : l1.countP p ≤ l2.countP q := by
  induction h with
  | nil => simp
  | @cons a b t1 t2 hab _ ih =>
    rw [List.countP_cons, List.countP_cons]
    cases hpa : p a with
    | false =>
      simp only [Bool.false_eq_true, if_false]
      split <;> omega
    | true =>
      rw [hpq a b hab hpa]
      simp only [if_true]
      omega

theorem pair_sublist_split {α : Type} (a b : α) (l : List α) (h : [a, b].Sublist l) :
    ∃ A B, l = A ++ b :: B ∧ a ∈ A := by
  induction l with
  | nil => exact absurd h (by simp)
  | cons x tl ih =>
    cases h with
    | cons _ h =>
      obtain ⟨A, B, hl, ha⟩ := ih h
      exact ⟨x :: A, B, by rw [hl]; rfl, List.mem_cons_of_mem _ ha⟩
    | cons₂ _ h =>
      have hb : b ∈ tl := by
        have := h.subset (List.mem_singleton_self b)
        exact this
      obtain ⟨A, B, hl⟩ := List.append_of_mem hb
      exact ⟨a :: A, B, by rw [hl]; rfl, List.mem_cons_self _ _⟩

/-- The invariant of the collision loop as a relation between the elements at
the same position. -/
theorem loop_inv_forall₂ (E cur : List key_event) (hinv : loop_inv E cur) :
    List.Forall₂ (fun e m => (m = e ∨ retimed E e m) ∧ e ∈ E ∧ m ∈ cur) E cur := by
  rw [List.forall₂_iff_get]
  refine ⟨hinv.1.symm, fun j h1 h2 => ?_⟩
  have he : E[j]? = some E[j] := List.getElem?_eq_getElem h1
  obtain ⟨m, hm, hcase⟩ := hinv.2 j _ he
  have hm2 : cur[j]? = some cur[j] := List.getElem?_eq_getElem h2
  rw [hm2] at hm
  injection hm with hm
  show (cur[j] = E[j] ∨ retimed E E[j] cur[j]) ∧ E[j] ∈ E ∧ cur[j] ∈ cur
  rw [hm]
  refine ⟨hcase, List.getElem_mem _, ?_⟩
  rw [← hm]
  exact List.getElem_mem _

theorem retimed_le (E : List key_event) (e m : key_event) (h : m = e ∨ retimed E e m) :
    m.data = e.data ∧ m.time ≤ e.time ∧ (e.data.ev_type = .pressed → m = e) := by
  rcases h with h | h
  · subst h
    exact ⟨rfl, le_refl _, fun _ => rfl⟩
  · obtain ⟨hd, hrel, _, st, _, _, _, ht⟩ := h
    refine ⟨hd, by rw [ht]; exact Nat.sub_le _ _, fun hp => ?_⟩
    rw [hrel] at hp
    exact absurd hp (by decide)

/-- A press and a release of one pitch at one time, the press standing before
the release in a valid list: after the collision loop no check accepts the
list. -/
theorem press_before_release_rejected (E cur out : List key_event) (P S : Nat)
    (p0 q0 : key_event)
    (hsorted : E.Pairwise time_le) (halt : alternates .pressed (types_of_pitch P E) = true)
    (hinv : loop_inv E cur) (hsep : check_separated cur = .ok ()) (hperm : out.Perm cur)
    (hsorted_out : out.Pairwise time_le)
    (halt_out : alternates .pressed (types_of_pitch P out) = true)
    (hsub : [p0, q0].Sublist E)
    (hp0 : p0.time = S ∧ p0.data.pitch = P ∧ p0.data.ev_type = .pressed)
    (hq0 : q0.time = S ∧ q0.data.pitch = P ∧ q0.data.ev_type = .released) : False := by
  obtain ⟨A, B, hE, hpA⟩ := pair_sublist_split p0 q0 E hsub
  have hsorted2 := hsorted
  rw [hE, List.pairwise_append, List.pairwise_cons] at hsorted2
  obtain ⟨_, ⟨hq0B, _⟩, hAB⟩ := hsorted2
  have hA : ∀ a ∈ A, a.time ≤ S := by
    intro a ha
    have := hAB a ha q0 (List.mem_cons_self _ _)
    unfold time_le at this
    omega
  have hB : ∀ b ∈ q0 :: B, S ≤ b.time := by
    intro b hb
    rcases List.mem_cons.1 hb with rfl | hb
    · omega
    · have := hq0B b hb
      unfold time_le at this
      omega
  -- the presses and releases of `P` before the release `q0`
  have hcount : A.countP (is_press_of P) = A.countP (is_release_of P) + 1 := by
    have h1 : types_of_pitch P E =
        (types_of_pitch P A ++ [key_type.released]) ++ types_of_pitch P B := by
      rw [hE, types_of_pitch_append, types_of_pitch_cons, if_pos hq0.2.1, hq0.2.2]
      simp
    rw [h1] at halt
    have h2 := (alternates_ends_released _ _ (alternates_append_left _ _ _ halt)).1 rfl
    rw [types_of_pitch_count, types_of_pitch_count] at h2
    exact h2
  have hF := loop_inv_forall₂ E cur hinv
  have hp0E : p0 ∈ E := hsub.subset (List.mem_cons_self _ _)
  have hp0cur : p0 ∈ cur := by
    obtain ⟨j, _, hj⟩ := loop_inv_pressed_mem E cur hinv p0 hp0E hp0.2.2
    exact List.getElem?_mem hj
  have hsep2 := (check_separated_ok cur).1 hsep
  have h1 : E.countP (fun e => is_release_of P e && decide (e.time ≤ S)) ≤
      cur.countP (fun e => is_release_of P e && decide (e.time < S)) := by
    apply forall₂_countP_le _ _ _ E cur hF
    intro e m hem hpe
    obtain ⟨hcase, _, hm⟩ := hem
    obtain ⟨hd, hle, _⟩ := retimed_le E e m hcase
    simp only [is_release_of, Bool.and_eq_true, beq_iff_eq, decide_eq_true_eq] at hpe ⊢
    obtain ⟨⟨hpitch, hty⟩, hte⟩ := hpe
    rw [hd]
    refine ⟨⟨hpitch, hty⟩, ?_⟩
    have hne := hsep2 m hm p0 hp0cur (by rw [hd]; exact hty) hp0.2.2
      (by rw [hd, hpitch, hp0.2.1])
    rw [hp0.1] at hne
    omega
  have h2 : A.countP (fun e => is_release_of P e && decide (e.time ≤ S)) + 1 ≤
      E.countP (fun e => is_release_of P e && decide (e.time ≤ S)) := by
    rw [hE, List.countP_append, List.countP_cons]
    have : (is_release_of P q0 && decide (q0.time ≤ S)) = true := by
      simp [is_release_of, hq0.1, hq0.2.1, hq0.2.2]
    rw [this]
    simp only [if_true]
    omega
  have h3 : A.countP (fun e => is_release_of P e && decide (e.time ≤ S)) =
      A.countP (is_release_of P) := by
    apply List.countP_congr
    intro a ha
    have := hA a ha
    simp [this]
  have h5 : A.countP (fun e => is_press_of P e && decide (e.time < S)) <
      A.countP (is_press_of P) := by
    apply countP_lt_of_mem _ _ A _ p0 hpA
    · simp [is_press_of, hp0.2.1, hp0.2.2]
    · simp [hp0.1]
    · intro x _ hx
      simp only [Bool.and_eq_true] at hx
      exact hx.1
  have h6 : E.countP (fun e => is_press_of P e && decide (e.time < S)) =
      A.countP (fun e => is_press_of P e && decide (e.time < S)) := by
    rw [hE, List.countP_append]
    have : (q0 :: B).countP (fun e => is_press_of P e && decide (e.time < S)) = 0 := by
      rw [List.countP_eq_zero]
      intro b hb
      have := hB b hb
      simp only [Bool.and_eq_true, decide_eq_true_eq, not_and, not_lt]
      intro _
      omega
    rw [this]
    rfl
  have h7 : cur.countP (fun e => is_press_of P e && decide (e.time < S)) ≤
      E.countP (fun e => is_press_of P e && decide (e.time < S)) := by
    apply forall₂_countP_le (fun m e => (m = e ∨ retimed E e m) ∧ e ∈ E ∧ m ∈ cur) _ _ cur E
      hF.flip
    intro m e hem hpm
    obtain ⟨hcase, _, _⟩ := hem
    obtain ⟨hd, _, hsame⟩ := retimed_le E e m hcase
    simp only [is_press_of, Bool.and_eq_true, beq_iff_eq, decide_eq_true_eq] at hpm ⊢
    have hme : m = e := hsame (by rw [← hd]; exact hpm.1.2)
    rw [← hme]
    exact hpm
  have h8 := hperm.countP_eq (fun e => is_press_of P e && decide (e.time < S))
  have h9 := hperm.countP_eq (fun e => is_release_of P e && decide (e.time < S))
  have h10 := (counts_before P S out _ hsorted_out halt_out).1 rfl
  omega

theorem mem_raw_key_events (notes : List note_t) (e : key_event) :
    e ∈ raw_key_events notes ↔ ∃ n ∈ notes, e ∈ note_events n := by
  simp [raw_key_events, List.mem_flatMap]

theorem raw_key_events_append (a b : List note_t) :
    raw_key_events (a ++ b) = raw_key_events a ++ raw_key_events b := by
  simp [raw_key_events]

theorem raw_key_events_bound (notes : List note_t)
    (hbound : ∀ n ∈ notes, n.is_played = true →
      n.start_time < 18446744073709551616 ∧ n.stop_time < 18446744073709551616) :
    ∀ e ∈ raw_key_events notes, e.time < 18446744073709551616 := by
  intro e he
  obtain ⟨n, hn, hen⟩ := (mem_raw_key_events notes e).1 he
  unfold note_events at hen
  cases hp : n.is_played with
  | false =>
    rw [hp] at hen
    exact absurd hen (by simp)
  | true =>
    rw [hp] at hen
    obtain ⟨h1, h2⟩ := hbound n hn hp
    simp only [if_true, List.mem_cons, List.mem_singleton, List.not_mem_nil, or_false] at hen
    rcases hen with rfl | rfl
    · exact h1
    · exact h2

theorem note_events_played (n : note_t) (hplayed : n.is_played = true) :
    note_events n = [press_of n, release_of n] := by
  unfold note_events press_of release_of
  rw [if_pos hplayed]

/-- The events of a played note stand in the sorted list in the order
`get_key_events` pushed them whenever the note does not stop before it
starts. -/
theorem note_events_sublist (notes : List note_t) (n : note_t) (hn : n ∈ notes)
    (hplayed : n.is_played = true) (hle : n.start_time ≤ n.stop_time) :
    [press_of n, release_of n].Sublist (stable_sort_by_time (raw_key_events notes)) := by
  obtain ⟨l1, l2, hl⟩ := List.append_of_mem hn
  apply List.pair_sublist_insertionSort
  · exact hle
  · rw [hl, raw_key_events_append, raw_key_events_cons, note_events_played n hplayed]
    exact List.Sublist.trans (List.sublist_append_left _ _) (List.sublist_append_right _ _)

/-- Whenever `get_key_events` returns, no played note has its stop time at
its start time. -/
theorem get_key_events_no_zero_duration (notes : List note_t) (out : List key_event)
    (hbound : ∀ n ∈ notes, n.is_played = true →
      n.start_time < 18446744073709551616 ∧ n.stop_time < 18446744073709551616)
    (h : get_key_events notes = .ok out) :
    ∀ n ∈ notes, n.is_played = true → n.stop_time ≠ n.start_time := by
  intro n hn hplayed hzero
  obtain ⟨hvalid, cur, hloop, hsep, hout, hvalid_out⟩ := separate_ok _ _ h
  obtain ⟨hsorted, halt⟩ := assert_song_valid_ok _ hvalid
  obtain ⟨hsorted_out, halt_out⟩ := assert_song_valid_ok _ hvalid_out
  have hb : ∀ e ∈ stable_sort_by_time (raw_key_events notes), e.time < 18446744073709551616 :=
    fun e he => raw_key_events_bound notes hbound e ((stable_sort_perm _).subset he)
  have hinv := collision_loop_inv _ cur hsorted hb hloop
  have hsub := note_events_sublist notes n hn hplayed (by omega)
  exact press_before_release_rejected _ cur out n.pitch n.start_time _ _ hsorted
    (halt n.pitch) hinv hsep (hout ▸ stable_sort_perm cur) hsorted_out (halt_out n.pitch) hsub
    ⟨rfl, rfl, rfl⟩ ⟨hzero, rfl, rfl⟩

/-- C27: for every note list (times inside the range of `uint64_t`) that
contains a played note whose stop time is its start time, `get_key_events`
raises an error. -/
theorem get_key_events_zero_duration (notes : List note_t) (n : note_t) (hn : n ∈ notes)
    (hplayed : n.is_played = true) (hzero : n.stop_time = n.start_time)
    (hbound : ∀ n ∈ notes, n.is_played = true →
      n.start_time < 18446744073709551616 ∧ n.stop_time < 18446744073709551616) :
    ∃ e, get_key_events notes = .error e := by
  cases h : get_key_events notes with
  | error e => exact ⟨e, rfl⟩
  | ok out => exact absurd hzero (get_key_events_no_zero_duration notes out hbound h n hn hplayed)

theorem raw_key_events_released (notes : List note_t) :
    (raw_key_events notes).filter (fun e => e.data.ev_type == key_type.released) =
      (notes.filter (fun n => n.is_played)).map release_of := by
  induction notes with
  | nil => rfl
  | cons n tl ih =>
    rw [raw_key_events_cons, List.filter_append, ih]
    cases hn : n.is_played <;> simp [note_events, List.filter_cons, hn, release_of]

theorem forall₂_filter {α β : Type} (R : α → β → Prop) (p : α → Bool) (q : β → Bool)
    (l1 : List α) (l2 : List β) (h : List.Forall₂ R l1 l2)
    (hpq : ∀ a b, R a b → p a = q b) : List.Forall₂ R (l1.filter p) (l2.filter q) := by
  induction h with
  | nil => exact List.Forall₂.nil
  | @cons a b t1 t2 hab _ ih =>
    rw [List.filter_cons, List.filter_cons, ← hpq a b hab]
    cases p a with
    | false => exact ih
    | true => exact List.Forall₂.cons hab ih

theorem forall₂_imp_mem {α β : Type} (R S : α → β → Prop) (l1 : List α) (l2 : List β)
    (h : List.Forall₂ R l1 l2) :
    (∀ a b, a ∈ l1 → b ∈ l2 → R a b → S a b) → List.Forall₂ S l1 l2 := by
  induction h with
  | nil => intro _; exact List.Forall₂.nil
  | @cons a b t1 t2 hab _ ih =>
    intro H
    exact List.Forall₂.cons (H a b (List.mem_cons_self _ _) (List.mem_cons_self _ _) hab)
      (ih (fun x y hx hy hxy => H x y (List.mem_cons_of_mem _ hx) (List.mem_cons_of_mem _ hy) hxy))

theorem collision_upto_inv (E out : List key_event) (hs : E.Pairwise time_le)
    (hb : ∀ e ∈ E, e.time < 18446744073709551616) (n : Nat)
    (h : collision_upto E n = .ok out) : loop_inv E out :=
  foldlM_range_inv collision_step (fun _ cur => loop_inv E cur) n E out
    (loop_inv_refl E)
    (fun i s s' _ hinv hstep => (collision_step_inv E hs hb s s' i hinv hstep).1) h

/-- Under the invariant of the loop on a list of times inside the range of
`uint64_t`, the subtractions of an iteration do not wrap. -/
theorem loop_inv_subtractions (E cur : List key_event)
    (hb : ∀ e ∈ E, e.time < 18446744073709551616) (hinv : loop_inv E cur) (i : Nat) :
    subtractions_exact cur i := by
  intro k rel start rp sp _ _ hf hr hrel hstart
  obtain ⟨x, hx, hxp, _⟩ := find_if_some _ _ rp hf
  obtain ⟨y, hy, hyp, _⟩ := find_if_rev_some _ _ sp hr
  rw [hrel] at hx
  injection hx with hx
  subst hx
  rw [hstart] at hy
  injection hy with hy
  subst hy
  rw [is_release_at_iff] at hxp
  rw [is_press_before_iff] at hyp
  have hlt : start.time < rel.time := by omega
  have hrb : rel.time < 18446744073709551616 := by
    obtain ⟨j, hj⟩ := List.mem_iff_getElem?.1 (List.getElem?_mem hrel)
    have hjlt : j < E.length := by
      rw [← hinv.1]
      exact (List.getElem?_eq_some_iff.1 hj).1
    have he : E[j]? = some E[j] := List.getElem?_eq_getElem hjlt
    have := (loop_inv_le E cur hinv j _ _ he hj).2
    have := hb E[j] (List.getElem_mem _)
    omega
  refine ⟨hlt, sub_u64_of_le _ _ (by omega) hrb, ?_, shortened_release_eq _ _ hlt hrb⟩
  omega

/-- The release of a played note, after the collision loop: it is at most a
quarter of the note, and at most 75000000, before the end of the note. -/
theorem release_of_retimed (E : List key_event) (n : note_t) (m : key_event)
    (hlt : n.start_time < n.stop_time) (hpress : press_of n ∈ E)
    (hcase : m = release_of n ∨ retimed E (release_of n) m) :
    m.data.pitch = n.pitch ∧ m.data.ev_type = .released ∧
      m.data.staff_number = n.staff_number ∧
      n.stop_time - min 75000000 ((n.stop_time - n.start_time) / 4) ≤ m.time ∧
      m.time ≤ n.stop_time ∧ n.start_time < m.time ∧
      3 * (n.stop_time - n.start_time) ≤ 4 * (m.time - n.start_time) ∧
      n.stop_time - m.time ≤ 75000000 := by
  rcases hcase with h | h
  · subst h
    refine ⟨rfl, rfl, rfl, ?_, ?_, ?_, ?_, ?_⟩ <;> simp only [release_of] <;> omega
  · obtain ⟨hd, _, _, st, hst, hstp, hmax, ht⟩ := h
    have hown : is_press_before (release_of n).time (release_of n).data.pitch (press_of n) =
        true := by
      rw [is_press_before_iff]
      exact ⟨hlt, rfl, rfl⟩
    have h1 : n.start_time ≤ st.time := hmax _ hpress hown
    rw [is_press_before_iff] at hstp
    have h2 : st.time < n.stop_time := hstp.1
    have ht2 : m.time = n.stop_time - min 75000000 ((n.stop_time - st.time) / 4) := ht
    rw [hd]
    refine ⟨rfl, rfl, rfl, ?_, ?_, ?_, ?_, ?_⟩ <;> omega

/-- C28 (as stated, refuted): `get_key_events` returns on a note from 0 to 20
and a note of the same pitch that starts at 10 and stops at 5, with the
releases at 5 and 20; no matching of the two notes with these releases puts
the release of the second note after its start and at most at its stop. -/
theorem get_key_events_stop_before_start :
    get_key_events
        [ { start_time := 0, stop_time := 20, pitch := 60, is_played := true,
            staff_number := 0 },
          { start_time := 10, stop_time := 5, pitch := 60, is_played := true,
            staff_number := 0 } ] =
      .ok [⟨0, 60, .pressed, 0⟩, ⟨5, 60, .released, 0⟩, ⟨10, 60, .pressed, 0⟩,
        ⟨20, 60, .released, 0⟩] ∧
    ¬ ∃ releases : List key_event,
      releases.Perm [⟨5, 60, .released, 0⟩, ⟨20, 60, .released, 0⟩] ∧
      List.Forall₂
        (fun (n : note_t) (m : key_event) => m.data.pitch = n.pitch ∧
          m.data.ev_type = .released ∧ n.start_time < m.time ∧ m.time ≤ n.stop_time)
        [ { start_time := 0, stop_time := 20, pitch := 60, is_played := true,
            staff_number := 0 },
          { start_time := 10, stop_time := 5, pitch := 60, is_played := true,
            staff_number := 0 } ] releases := by
  refine ⟨by set_option maxRecDepth 100000 in rfl, ?_⟩
  rintro ⟨releases, _, hf⟩
  cases hf with
  | cons _ hf2 =>
    cases hf2 with
    | cons h2 _ =>
      obtain ⟨_, _, h3, h4⟩ := h2
      simp only at h3 h4
      omega

/-- C28 (amended): whenever `get_key_events` returns on notes that do not stop
before they start (times inside the range of `uint64_t`), the played notes, in their
order, are matched one to one with the releases of the output, each note
(pitch P, start S, stop T, D = T - S) with a release of pitch P at a time t
such that T - min(75000000, floor(D / 4)) ≤ t ≤ T; hence S < t, the note keeps
at least three quarters of its duration, the release is moved by at most
75000000 and never later, and the subtractions of the collision step never
wrap around. -/
theorem get_key_events_release_times (notes : List note_t) (out : List key_event)
    (hvalid : ∀ n ∈ notes, n.is_played = true →
      n.start_time ≤ n.stop_time ∧ n.stop_time < 18446744073709551616)
    (h : get_key_events notes = .ok out) :
    (∃ releases,
      releases.Perm (out.filter (fun e => e.data.ev_type == key_type.released)) ∧
      List.Forall₂
        (fun n m => m.data.pitch = n.pitch ∧ m.data.ev_type = .released ∧
          m.data.staff_number = n.staff_number ∧
          n.stop_time - min 75000000 ((n.stop_time - n.start_time) / 4) ≤ m.time ∧
          m.time ≤ n.stop_time ∧ n.start_time < m.time ∧
          3 * (n.stop_time - n.start_time) ≤ 4 * (m.time - n.start_time) ∧
          n.stop_time - m.time ≤ 75000000)
        (notes.filter (fun n => n.is_played)) releases) ∧
    ∀ (i : Nat) (cur : List key_event),
      collision_upto (stable_sort_by_time (raw_key_events notes)) i = .ok cur →
      subtractions_exact cur i := by
  have hbound : ∀ n ∈ notes, n.is_played = true →
      n.start_time < 18446744073709551616 ∧ n.stop_time < 18446744073709551616 := by
    intro n hn hp
    have := hvalid n hn hp
    omega
  obtain ⟨hvalidE, cur, hloop, _, hout, _⟩ := separate_ok _ _ h
  obtain ⟨hsorted, _⟩ := assert_song_valid_ok _ hvalidE
  have hperm := stable_sort_perm (raw_key_events notes)
  have hb : ∀ e ∈ stable_sort_by_time (raw_key_events notes), e.time < 18446744073709551616 :=
    fun e he => raw_key_events_bound notes hbound e (hperm.subset he)
  have hinv := collision_loop_inv _ cur hsorted hb hloop
  constructor
  · have hF := forall₂_filter _ (fun e => e.data.ev_type == key_type.released)
      (fun e => e.data.ev_type == key_type.released) _ _ (loop_inv_forall₂ _ cur hinv)
      (fun e m hem => by
        show (e.data.ev_type == _) = (m.data.ev_type == _)
        rw [(retimed_le _ e m hem.1).1])
    have hcomp : Relation.Comp List.Perm
        (List.Forall₂ (fun e m =>
          (m = e ∨ retimed (stable_sort_by_time (raw_key_events notes)) e m) ∧
            e ∈ stable_sort_by_time (raw_key_events notes) ∧ m ∈ cur))
        ((raw_key_events notes).filter (fun e => e.data.ev_type == key_type.released))
        (cur.filter (fun e => e.data.ev_type == key_type.released)) :=
      ⟨_, (hperm.filter _).symm, hF⟩
    rw [← List.forall₂_comp_perm_eq_perm_comp_forall₂] at hcomp
    obtain ⟨releases, hrel, hrperm⟩ := hcomp
    refine ⟨releases, hrperm.trans ((hout ▸ stable_sort_perm cur).filter _).symm, ?_⟩
    rw [raw_key_events_released, List.forall₂_map_left_iff] at hrel
    refine forall₂_imp_mem _ _ _ _ hrel ?_
    intro n m hn _ hnm
    rw [List.mem_filter] at hn
    obtain ⟨hn, hp⟩ := hn
    have hne := get_key_events_no_zero_duration notes out hbound h n hn hp
    have hle := (hvalid n hn hp).1
    have hpress : press_of n ∈ stable_sort_by_time (raw_key_events notes) := by
      apply hperm.symm.subset
      rw [mem_raw_key_events]
      exact ⟨n, hn, by rw [note_events_played n hp]; exact List.mem_cons_self _ _⟩
    exact release_of_retimed _ n m (by omega) hpress hnm.1
  · intro i cur2 hcur2
    exact loop_inv_subtractions _ cur2 hb (collision_upto_inv _ cur2 hsorted hb i hcur2) i

/-! ## The rects, the skylines and the releases at concrete inputs -/

theorem get_staves_surface_page :
    get_staves_surface insertion_sort_lines example_page_lines = .ok example_page_rects := by
  rfl

theorem example_group_segments :
    ∀ n ∈ example_group, ∃ l, get_line n = .ok l ∧ l.x1 < l.x2 := by
  intro n hn
  simp only [example_group, List.mem_cons, List.mem_singleton, List.not_mem_nil, or_false] at hn
  rcases hn with rfl | rfl
  · exact ⟨{ x1 := 110000, y1 := 90000, x2 := 130000, y2 := 90000 }, rfl, by decide⟩
  · exact ⟨{ x1 := 65000, y1 := 70000, x2 := 130000, y2 := 70000 }, rfl, by decide⟩

/-- C22 at a page of two staves. -/
theorem get_staves_surface_top_to_bottom_example :
    (∀ r ∈ example_page_rects, r.top < r.bottom) ∧
    (∀ (i : Nat) (r r2 : rect), example_page_rects[i]? = some r →
      example_page_rects[i + 1]? = some r2 → r.top < r.bottom ∧ r.bottom ≤ r2.top) ∧
    ∀ (top bottom : List skyline) (staves : List staff),
      get_staves example_page_rects top bottom = .ok staves →
      List.Forall₂ (fun r st => st.x = r.left ∧ st.y = r.top ∧ st.y + st.height = r.bottom)
        example_page_rects staves ∧
      ∀ (i : Nat) (st st2 : staff), staves[i]? = some st → staves[i + 1]? = some st2 →
        st.y < st.y + st.height ∧ st.y + st.height ≤ st2.y :=
  get_staves_surface_top_to_bottom insertion_sort_lines insertion_sort_lines_is_std_sort
    example_page_lines example_page_rects (by decide) get_staves_surface_page

/-- C24 at four equally spaced lines of the same ends. -/
theorem get_staves_surface_count_example :
    ∃ out, get_staves_surface insertion_sort_lines example_four_lines = .ok out ∧
      out.length ≤ example_four_lines.length / 5 ∧
      (example_four_lines.length < 5 → out = []) :=
  get_staves_surface_count insertion_sort_lines insertion_sort_lines_is_std_sort
    example_four_lines (by decide)

/-- C23 at a group of two line nodes. -/
theorem get_skylines_enclosing_rect_example :
    ∃ sk, build_skyline example_group = .ok sk ∧
      List.Forall₂ (fun n s => ∃ l, get_line n = .ok l ∧
        s = { x1 := l.x1, x2 := l.x2, y := l.y1 }) example_group sk.full_line ∧
      ((∃ s ∈ sk.full_line, sk.surface.left = s.x1) ∧
        ∀ s ∈ sk.full_line, sk.surface.left ≤ s.x1) ∧
      ((∃ s ∈ sk.full_line, sk.surface.right = s.x2) ∧
        ∀ s ∈ sk.full_line, s.x2 ≤ sk.surface.right) ∧
      ((∃ s ∈ sk.full_line, sk.surface.top = s.y) ∧
        ∀ s ∈ sk.full_line, sk.surface.top ≤ s.y) ∧
      ((∃ s ∈ sk.full_line, sk.surface.bottom = s.y) ∧
        ∀ s ∈ sk.full_line, s.y ≤ sk.surface.bottom) ∧
      sk.surface.left < sk.surface.right ∧
      ∀ (std_sort : List skyline → List skyline) (groups : List (List line_node))
        (res : List skyline), is_std_sort_skylines std_sort → example_group ∈ groups →
        get_skylines std_sort groups = .ok res → sk ∈ res :=
  get_skylines_enclosing_rect example_group (by decide) example_group_segments

theorem build_skyline_example :
    build_skyline example_group =
      .ok { surface := { top := 70000, bottom := 90000, left := 65000, right := 130000 },
            full_line := [⟨110000, 130000, 90000⟩, ⟨65000, 130000, 70000⟩] } := by
  rfl

/-- C25 at a group of two line nodes followed by a group without any. -/
theorem get_skylines_inconsistent_iff_example :
    (get_skylines insertion_sort_skylines [example_group, []] = .error .inconsistent_value ↔
      ∃ g ∈ [example_group, []], g = []) ∧
    ((∃ res, get_skylines insertion_sort_skylines [example_group, []] = .ok res) ↔
      ∀ g ∈ [example_group, []], g ≠ []) ∧
    ∀ g ∈ [example_group, []], g ≠ [] →
      ∃ sk, build_skyline g = .ok sk ∧ sk.surface.top ≤ sk.surface.bottom :=
  get_skylines_inconsistent_iff insertion_sort_skylines [example_group, []]
    (fun g hg n hn => by
      simp only [List.mem_cons, List.mem_singleton, List.not_mem_nil, or_false] at hg
      rcases hg with rfl | rfl
      · exact example_group_segments n hn
      · exact absurd hn (by simp))

theorem get_skylines_empty_group :
    get_skylines insertion_sort_skylines [example_group, []] = .error .inconsistent_value := by
  rfl

/-- C27 at a note of no duration that follows a note of its pitch. -/
theorem get_key_events_zero_duration_example :
    ∃ e, get_key_events example_zero_notes = .error e :=
  get_key_events_zero_duration example_zero_notes
    { start_time := 100, stop_time := 100, pitch := 60, is_played := true, staff_number := 0 }
    (by decide) rfl rfl (by decide)

theorem get_key_events_zero_notes :
    get_key_events example_zero_notes = .error .pressed_and_released := by
  set_option maxRecDepth 100000 in rfl

/-- C28 at `example_notes`. -/
theorem get_key_events_release_times_example :
    (∃ releases,
      releases.Perm (example_events.filter (fun e => e.data.ev_type == key_type.released)) ∧
      List.Forall₂
        (fun n m => m.data.pitch = n.pitch ∧ m.data.ev_type = .released ∧
          m.data.staff_number = n.staff_number ∧
          n.stop_time - min 75000000 ((n.stop_time - n.start_time) / 4) ≤ m.time ∧
          m.time ≤ n.stop_time ∧ n.start_time < m.time ∧
          3 * (n.stop_time - n.start_time) ≤ 4 * (m.time - n.start_time) ∧
          n.stop_time - m.time ≤ 75000000)
        (example_notes.filter (fun n => n.is_played)) releases) ∧
    ∀ (i : Nat) (cur : List key_event),
      collision_upto (stable_sort_by_time (raw_key_events example_notes)) i = .ok cur →
      subtractions_exact cur i :=
  get_key_events_release_times example_notes example_events (by decide) get_key_events_example

end Lilydumper
